import Mathlib

/-!
Crawler core of `homeworks/homework2/indexingAndSearchingImages.go`.

A shallow embedding of the frontier (`Dispatcher.Add`), the URL helpers
(`sanitizeURL`, `sameSite`, `uniqueStrings`), the filename probe
(`uniqueFilename`), the thumbnail arithmetic (`makeThumbnail`), the page
fetcher and extractor, the image processor and the worker loop, followed by the
properties established for them.  The namespaces `Week2` and `Week3` hold the
Josephus functions of `week2` and the function `Dijkstra` of `week3`.

Go strings are modelled as lists of Unicode characters (`List Char`), i.e. the
valid UTF-8 strings.  Go `int` values that only ever hold small non-negative
quantities (loop counters, channel lengths) are natural numbers.
-/

set_option autoImplicit false

namespace Crawler

/-! ## Strings -/

/-- Go `unicode.IsSpace`: the Latin-1 white space characters and the other
code points with the Unicode `White_Space` property. -/
def isSpace (c : Char) : Bool :=
  let n := c.toNat
  n == 0x09 || n == 0x0A || n == 0x0B || n == 0x0C || n == 0x0D || n == 0x20 ||
  n == 0x85 || n == 0xA0 || n == 0x1680 || (0x2000 ≤ n && n ≤ 0x200A) ||
  n == 0x2028 || n == 0x2029 || n == 0x202F || n == 0x205F || n == 0x3000

/-- Go `strings.TrimSpace`: drop leading and trailing white space. -/
def TrimSpace (s : List Char) : List Char :=
  (s.dropWhile isSpace).rdropWhile isSpace

/-- Go `strings.HasPrefix(s, p)`. -/
def HasPrefix (s p : List Char) : Bool :=
  p.isPrefixOf s

/-! ## Jobs, the job channel and the dispatcher -/

/-- `Job` represents a page to crawl. -/
structure Job where
  URL : List Char
  Depth : Int
deriving DecidableEq, Repr

/-- A buffered Go channel: the values waiting in its buffer (oldest first), its
capacity, and whether `close` has been called on it. -/
structure Chan (α : Type) where
  buf : List α
  cap : Nat
  closed : Bool
deriving DecidableEq, Repr

/-- What a `select { case ch <- v: default: }` statement does. -/
inductive SendResult where
  /-- The value was placed in the buffer. -/
  | sent
  /-- The buffer is full: the `default` branch runs. -/
  | wouldBlock
  /-- The channel is closed: the send case is chosen and panics
  (`send on closed channel`). -/
  | panicClosed
deriving DecidableEq, Repr

/-- Go `make(chan T, cap)`. -/
def Chan.make {α : Type} (cap : Nat) : Chan α :=
  { buf := [], cap := cap, closed := false }

/-- Non-blocking send, the `select` with a `default` branch of `Add`.  A send
on a closed channel can always proceed, and proceeds by panicking. -/
def Chan.trySend {α : Type} (c : Chan α) (v : α) : Chan α × SendResult :=
  if c.closed then (c, SendResult.panicClosed)
  else if c.buf.length < c.cap then ({ c with buf := c.buf ++ [v] }, SendResult.sent)
  else (c, SendResult.wouldBlock)

/-- A receive that finds a value (`for job := range d.jobCh` in a worker). -/
def Chan.recv {α : Type} (c : Chan α) : Chan α × Option α :=
  match c.buf with
  | [] => (c, none)
  | v :: rest => ({ c with buf := rest }, some v)

/-- Go `close(ch)`. -/
def Chan.close {α : Type} (c : Chan α) : Chan α :=
  { c with closed := true }

/-- The fields of `Dispatcher` that the frontier uses.  `visited` is the key
set of the Go map `visited map[string]struct{}`. -/
structure Dispatcher where
  workers : Int
  maxGoroutines : Int
  followExternal : Bool
  enableJS : Bool
  imageDir : List Char
  svgRasterCmd : List Char
  jobCh : Chan Job
  visited : List (List Char)
deriving DecidableEq, Repr

/-- `NewDispatcher`: the job channel has capacity 1000 and nothing is visited. -/
def NewDispatcher (workers maxG : Int) (followExternal enableJS : Bool)
    (imageDir svgRasterCmd : List Char) : Dispatcher :=
  { workers := workers
    maxGoroutines := maxG
    followExternal := followExternal
    enableJS := enableJS
    imageDir := imageDir
    svgRasterCmd := svgRasterCmd
    jobCh := Chan.make 1000
    visited := [] }

/-- How a call of `Dispatcher.Add` ends. -/
inductive AddOutcome where
  /-- The trimmed URL is empty: early return. -/
  | emptyURL
  /-- The normalised URL is already in `visited`: early return. -/
  | alreadyVisited
  /-- The job (with its normalised URL) was sent on `jobCh`. -/
  | enqueued (job : Job)
  /-- The queue is full: the job is dropped and a line is logged. -/
  | dropped (job : Job)
  /-- The send hit a closed `jobCh`: the goroutine panics. -/
  | panicked (job : Job)
deriving DecidableEq, Repr

/-- `Dispatcher.Add`: normalise the URL, check-and-insert it into `visited`
(under the mutex), then try to send the job without blocking. -/
def Dispatcher.Add (d : Dispatcher) (job : Job) : Dispatcher × AddOutcome :=
  let u := TrimSpace job.URL
  if u = [] then (d, AddOutcome.emptyURL)
  else
    let u := if !HasPrefix u "http://".toList && !HasPrefix u "https://".toList
      then "http://".toList ++ u else u
    let job : Job := { job with URL := u }
    if job.URL ∈ d.visited then (d, AddOutcome.alreadyVisited)
    else
      let d := { d with visited := job.URL :: d.visited }
      match d.jobCh.trySend job with
      | (ch, SendResult.sent) => ({ d with jobCh := ch }, AddOutcome.enqueued job)
      | (_, SendResult.wouldBlock) => (d, AddOutcome.dropped job)
      | (_, SendResult.panicClosed) => (d, AddOutcome.panicked job)

/-- The URL under which `Add` files a job: lines 267-274 of the source on their
own (`none` for the early return on an empty trimmed URL). -/
def normalizeURL (raw : List Char) : Option (List Char) :=
  let u := TrimSpace raw
  if u = [] then none
  else if !HasPrefix u "http://".toList && !HasPrefix u "https://".toList
    then some ("http://".toList ++ u) else some u

/-- One event of a crawl run as far as the frontier is concerned. -/
inductive Op where
  /-- Somebody (main or a worker) calls `Add`. -/
  | add (job : Job)
  /-- A worker takes the next job off `jobCh`. -/
  | recv
  /-- `Run` has seen the cancellation and closes `jobCh`. -/
  | close
deriving DecidableEq, Repr

/-- A run in progress: the dispatcher, the jobs sent on `jobCh` so far (oldest
first), and whether a panic has killed the process. -/
structure RunState where
  d : Dispatcher
  enqueued : List Job
  crashed : Bool
deriving DecidableEq, Repr

/-- Perform one event.  Nothing happens any more once the process has crashed. -/
def RunState.step (s : RunState) (op : Op) : RunState :=
  if s.crashed then s
  else
    match op with
    | Op.add job =>
      match s.d.Add job with
      | (d, AddOutcome.enqueued j) => { s with d := d, enqueued := s.enqueued ++ [j] }
      | (d, AddOutcome.panicked _) => { s with d := d, crashed := true }
      | (d, _) => { s with d := d }
    | Op.recv => { s with d := { s.d with jobCh := (s.d.jobCh.recv).1 } }
    | Op.close => { s with d := { s.d with jobCh := s.d.jobCh.close } }

/-- Perform a sequence of events. -/
def RunState.run (s : RunState) (ops : List Op) : RunState :=
  ops.foldl RunState.step s

/-- The state in which a run starts. -/
def RunState.start (d : Dispatcher) : RunState :=
  { d := d, enqueued := [], crashed := false }

/-! ## URLs: the parts of `net/url` and `publicsuffix` the crawler relies on -/

/-- Go `strings.HasSuffix(s, p)`. -/
def HasSuffix (s p : List Char) : Bool :=
  p.isSuffixOf s

/-- Go `strings.LastIndexByte(s, c)`, `none` standing for `-1`. -/
def LastIndexByte (s : List Char) (c : Char) : Option Nat :=
  let k := s.reverse.indexOf c
  if k < s.length then some (s.length - 1 - k) else none

/-- Go `strings.Contains(s, sub)`. -/
def Contains (s sub : List Char) : Bool :=
  decide (sub <:+: s)

/-- The scan of `getScheme` in `net/url` over the characters from position `i`
on: the scheme and the rest, or `none` for the error `missing protocol scheme`. -/
def getSchemeLoop (rawURL : List Char) : Nat → List Char → Option (List Char × List Char)
  | _, [] => some ([], rawURL)
  | i, c :: cs =>
    if ('a' ≤ c && c ≤ 'z') || ('A' ≤ c && c ≤ 'Z') then getSchemeLoop rawURL (i + 1) cs
    else if ('0' ≤ c && c ≤ '9') || c == '+' || c == '-' || c == '.' then
      if i = 0 then some ([], rawURL) else getSchemeLoop rawURL (i + 1) cs
    else if c == ':' then
      if i = 0 then none else some (rawURL.take i, rawURL.drop (i + 1))
    else some ([], rawURL)

/-- Go `getScheme(rawURL)` of `net/url`, the function through which `url.Parse`
finds the scheme of a URL (RFC 3986: a letter, then letters, digits, `+`, `-`,
`.`, up to the first colon). -/
def getScheme (rawURL : List Char) : Option (List Char × List Char) :=
  getSchemeLoop rawURL 0 rawURL

/-- A URL carries a scheme when `getScheme` finds a non-empty one. -/
def hasScheme (rawURL : List Char) : Bool :=
  match getScheme rawURL with
  | some (scheme, _) => scheme ≠ []
  | none => false

/-- Go `url.Userinfo`. -/
structure Userinfo where
  username : List Char
  password : List Char
  passwordSet : Bool
deriving DecidableEq, Repr

/-- Go `url.URL`. -/
structure URL where
  Scheme : List Char
  Opaque : List Char
  User : Option Userinfo
  Host : List Char
  Path : List Char
  RawPath : List Char
  OmitHost : Bool
  ForceQuery : Bool
  RawQuery : List Char
  Fragment : List Char
  RawFragment : List Char
deriving DecidableEq, Repr

/-- The functions of Go's `net/url` whose results the crawler takes as given:
parsing, percent-escaping of paths, and the merging of paths. -/
structure UrlLib where
  /-- The function `url.Parse`; `none` when it returns an error. -/
  Parse : List Char → Option URL
  /-- The function `unescape(s, encodePath)`; `none` when it returns an error. -/
  unescapePath : List Char → Option (List Char)
  /-- The function `escape(s, encodePath)`. -/
  escapePath : List Char → List Char
  /-- The function `validEncoded(s, encodePath)`. -/
  validEncodedPath : List Char → Bool
  /-- The function `resolvePath(base, ref)`: merge two paths and remove dot segments. -/
  resolvePath : List Char → List Char → List Char
  /-- What `(*URL).String` writes after the scheme and its colon: the opaque
  part or `//authority` and path, then query and fragment. -/
  stringAfterScheme : URL → List Char

/-- Go `(*URL).setPath(p)`: fill `Path` and `RawPath` from an escaped path;
on an unescaping error the URL is left as it was. -/
def URL.setPath (lib : UrlLib) (u : URL) (p : List Char) : URL :=
  match lib.unescapePath p with
  | none => u
  | some path =>
    if p = lib.escapePath path then { u with Path := path, RawPath := [] }
    else { u with Path := path, RawPath := p }

/-- Go `(*URL).EscapedPath`. -/
def URL.EscapedPath (lib : UrlLib) (u : URL) : List Char :=
  if u.RawPath ≠ [] ∧ lib.validEncodedPath u.RawPath = true ∧
      lib.unescapePath u.RawPath = some u.Path then u.RawPath
  else if u.Path = ['*'] then ['*']
  else lib.escapePath u.Path

/-- Go `validOptionalPort`. -/
def validOptionalPort (port : List Char) : Bool :=
  match port with
  | [] => true
  | c :: rest => c == ':' && rest.all (fun b => '0' ≤ b && b ≤ '9')

/-- Go `splitHostPort` of `net/url`. -/
def splitHostPort (hostPort : List Char) : List Char × List Char :=
  let hp : List Char × List Char :=
    match LastIndexByte hostPort ':' with
    | some colon =>
      if validOptionalPort (hostPort.drop colon)
      then (hostPort.take colon, hostPort.drop (colon + 1)) else (hostPort, [])
    | none => (hostPort, [])
  let host := hp.1
  if HasPrefix host ['['] && HasSuffix host [']']
  then ((host.take (host.length - 1)).drop 1, hp.2) else (host, hp.2)

/-- Go `(*URL).Hostname`: `u.Host` without a valid port and without the square
brackets of an IPv6 literal. -/
def URL.Hostname (u : URL) : List Char :=
  (splitHostPort u.Host).1

/-- Go `(*URL).IsAbs`. -/
def URL.IsAbs (u : URL) : Bool :=
  u.Scheme ≠ []

/-- Go `(*URL).String`: the scheme and a colon when there is a scheme, then the
rest of the URL. -/
def URL.String (lib : UrlLib) (u : URL) : List Char :=
  (if u.Scheme ≠ [] then u.Scheme ++ [':'] else []) ++ lib.stringAfterScheme u

/-- Go `(*URL).ResolveReference` (RFC 3986 section 5.2), `u` being the base. -/
def URL.ResolveReference (lib : UrlLib) (u ref : URL) : URL :=
  let url := ref
  let url := if ref.Scheme = [] then { url with Scheme := u.Scheme } else url
  if ref.Scheme ≠ [] ∨ ref.Host ≠ [] ∨ ref.User ≠ none then
    url.setPath lib (lib.resolvePath (ref.EscapedPath lib) [])
  else if ref.Opaque ≠ [] then
    { url with User := none, Host := [], Path := [] }
  else
    let url :=
      if ref.Path = [] ∧ ref.ForceQuery = false ∧ ref.RawQuery = [] then
        let url := { url with RawQuery := u.RawQuery }
        if ref.Fragment = [] then
          { url with Fragment := u.Fragment, RawFragment := u.RawFragment }
        else url
      else url
    if ref.Path = [] ∧ u.Opaque ≠ [] then
      { url with Opaque := u.Opaque, User := none, Host := [], Path := [] }
    else
      let url := { url with Host := u.Host, User := u.User }
      url.setPath lib (lib.resolvePath (u.EscapedPath lib) (ref.EscapedPath lib))

/-- The errors of `publicsuffix.EffectiveTLDPlusOne`. -/
inductive ETLDError where
  /-- The domain has an empty label. -/
  | emptyLabel
  /-- The domain is itself a public suffix (or shorter): no eTLD+1. -/
  | cannotDerive
  /-- The suffix found is not preceded by a dot. -/
  | invalidSuffix
deriving DecidableEq, Repr

/-- Go `publicsuffix.EffectiveTLDPlusOne(domain)`, over the lookup
`PublicSuffix` in the public suffix list.  The pair is Go's `(string, error)`:
with an error the string is empty. -/
def EffectiveTLDPlusOne (PublicSuffix : List Char → List Char) (domain : List Char) :
    List Char × Option ETLDError :=
  if HasPrefix domain ['.'] || HasSuffix domain ['.'] || Contains domain ['.', '.'] then
    ([], some ETLDError.emptyLabel)
  else
    let suffix := PublicSuffix domain
    if domain.length ≤ suffix.length then ([], some ETLDError.cannotDerive)
    else
      let i := domain.length - suffix.length - 1
      if domain.get? i ≠ some '.' then ([], some ETLDError.invalidSuffix)
      else
        match LastIndexByte (domain.take i) '.' with
        | some k => (domain.drop (1 + k), none)
        | none => (domain, none)

/-- `sameSite` reports whether `base` and `other` are from the same registrable
domain.  The errors of `EffectiveTLDPlusOne` are discarded (`bdp, _ :=`). -/
def sameSite (lib : UrlLib) (PublicSuffix : List Char → List Char) (base : URL)
    (other : List Char) : Bool :=
  match lib.Parse other with
  | none => false
  | some o =>
    let bd := base.Hostname
    let oh := o.Hostname
    let bdp := (EffectiveTLDPlusOne PublicSuffix bd).1
    let ohp := (EffectiveTLDPlusOne PublicSuffix oh).1
    bdp == ohp

/-- `sanitizeURL`: trim, reject empty and `data:` references, parse, resolve a
scheme-less reference against `base`, keep only http and https. -/
def sanitizeURL (lib : UrlLib) (raw : List Char) (base : URL) : List Char :=
  let raw := TrimSpace raw
  if raw = [] then []
  else if HasPrefix raw "data:".toList then []
  else
    match lib.Parse raw with
    | none => []
    | some u =>
      let u := if u.Scheme = [] then base.ResolveReference lib u else u
      if u.Scheme ≠ "http".toList ∧ u.Scheme ≠ "https".toList then []
      else u.String lib

/-- `uniqueStrings`, the loop: `m` is the key set of the Go map, `out` the
slice built so far. -/
def uniqueStringsLoop : List (List Char) → List (List Char) → List (List Char) →
    List (List Char)
  | [], _, out => out
  | s :: rest, m, out =>
    if s ∈ m then uniqueStringsLoop rest m out
    else uniqueStringsLoop rest (s :: m) (out ++ [s])

/-- `uniqueStrings(in)`. -/
def uniqueStrings (input : List (List Char)) : List (List Char) :=
  uniqueStringsLoop input [] []

/-! ## Unique file names -/

/-- Go `filepath.Ext`, the backward scan: `acc` is the part of the name already
passed.  The scan stops at the last dot of the final path element. -/
def extLoop : List Char → List Char → List Char
  | [], _ => []
  | c :: rest, acc =>
    if c == '/' then []
    else if c == '.' then c :: acc
    else extLoop rest (c :: acc)

/-- Go `filepath.Ext(path)`: the suffix beginning at the final dot in the final
element of `path`, empty if there is no dot. -/
def Ext (path : List Char) : List Char :=
  extLoop path.reverse []

/-- Go `strings.TrimSuffix(s, suffix)`. -/
def TrimSuffix (s suffix : List Char) : List Char :=
  if HasSuffix s suffix then s.take (s.length - suffix.length) else s

/-- The character of a decimal digit. -/
def digitChar (d : Nat) : Char :=
  Char.ofNat (48 + d)

/-- Decimal digits of `n` in front of `acc`, most significant first. -/
def itoaLoop : Nat → Nat → List Char → List Char
  | 0, _, acc => acc
  | fuel + 1, n, acc =>
    if n < 10 then digitChar n :: acc
    else itoaLoop fuel (n / 10) (digitChar (n % 10) :: acc)

/-- The verb `%d` of `fmt.Sprintf` on a non-negative `int`. -/
def itoa (n : Nat) : List Char :=
  itoaLoop (n + 1) n []

/-- The name probed in round `i` of `uniqueFilename`: `fname` itself in round
0, then `fmt.Sprintf("%s-%d%s", name, i, ext)`. -/
def candidate (fname : List Char) (i : Nat) : List Char :=
  let base := fname
  let ext := Ext fname
  let name := TrimSuffix base ext
  if i > 0 then name ++ ['-'] ++ itoa i ++ ext else fname

/-- How `os.Stat` on a path ends. -/
inductive StatResult where
  /-- No error: the file is there. -/
  | found
  /-- An error for which `os.IsNotExist` answers `true`. -/
  | notExist
  /-- Any other error: a name that is too long or holds a NUL byte, a directory
  that may not be searched, an I/O error. -/
  | failed
deriving DecidableEq, Repr

/-- `os.IsNotExist(err)` on the error that `os.Stat` returned. -/
def StatResult.IsNotExist : StatResult → Bool
  | StatResult.notExist => true
  | _ => false

/-- The loop `for i := 0; ; i++` of `uniqueFilename`, started at round `i` and
run for at most `fuel` rounds.  `Stat name` is the outcome of
`os.Stat(filepath.Join(dir, name))`; the loop returns only when `os.IsNotExist`
holds of it, and goes on to the next candidate after every other outcome. -/
def uniqueFilenameLoop (Stat : List Char → StatResult) (fname : List Char) :
    Nat → Nat → Option (List Char)
  | 0, _ => none
  | fuel + 1, i =>
    if (Stat (candidate fname i)).IsNotExist then some (candidate fname i)
    else uniqueFilenameLoop Stat fname fuel (i + 1)

/-- `uniqueFilename(dir, fname)` run for at most `fuel` rounds; `none` when
the rounds are used up before `os.Stat` has reported a candidate as not
existing. -/
def uniqueFilename (Stat : List Char → StatResult) (fname : List Char) (fuel : Nat) :
    Option (List Char) :=
  uniqueFilenameLoop Stat fname fuel 0

/-- The outcomes of `os.Stat` in a directory that holds the files `existing`:
`statFails` tells for which names the call fails with an error other than "does
not exist"; every other name is found or not according to `existing`. -/
def dirStat (statFails : List Char → Bool) (existing : List (List Char)) (name : List Char) :
    StatResult :=
  if statFails name then StatResult.failed
  else if name ∈ existing then StatResult.found
  else StatResult.notExist

/-- File names of more than 255 characters, hence of more than 255 bytes:
`os.Stat` fails on them with `ENAMETOOLONG` on the usual file systems. -/
def nameTooLong (name : List Char) : Bool :=
  decide (255 < name.length)

/-! ## Thumbnails -/

/-- `MaxThumbnailWidth`. -/
def MaxThumbnailWidth : Int := 200

/-- Go `int` arithmetic is modulo `2^64`: the value of a result as a signed
64-bit integer. -/
def wrapInt (n : Int) : Int :=
  (n + 2 ^ 63) % 2 ^ 64 - 2 ^ 63

/-- Go `a * b` on `int`. -/
def mulInt (a b : Int) : Int :=
  wrapInt (a * b)

/-- Go `a / b` on `int` (`b` not zero): the quotient truncated towards zero. -/
def divInt (a b : Int) : Int :=
  wrapInt (a.tdiv b)

/-- Go `image.Point`. -/
structure Point where
  X : Int
  Y : Int
deriving DecidableEq, Repr

/-- Go `image.Rectangle`. -/
structure Rectangle where
  Min : Point
  Max : Point
deriving DecidableEq, Repr

/-- Go `Rectangle.Dx`. -/
def Rectangle.Dx (r : Rectangle) : Int :=
  r.Max.X - r.Min.X

/-- Go `Rectangle.Dy`. -/
def Rectangle.Dy (r : Rectangle) : Int :=
  r.Max.Y - r.Min.Y

/-- Go `image.Rect`: the rectangle with the corners put in order. -/
def Rect (x0 y0 x1 y1 : Int) : Rectangle :=
  let (x0, x1) := if x0 > x1 then (x1, x0) else (x0, x1)
  let (y0, y1) := if y0 > y1 then (y1, y0) else (y0, y1)
  { Min := ⟨x0, y0⟩, Max := ⟨x1, y1⟩ }

/-- Go `Point.In(r)`. -/
def Point.In (p : Point) (r : Rectangle) : Bool :=
  decide (r.Min.X ≤ p.X) && decide (p.X < r.Max.X) &&
  decide (r.Min.Y ≤ p.Y) && decide (p.Y < r.Max.Y)

/-- A colour by the four 16-bit values of Go `color.Color.RGBA()`. -/
structure Color where
  R : Nat
  G : Nat
  B : Nat
  A : Nat
deriving DecidableEq, Repr

/-- Go `color.RGBAModel.Convert` read back through `RGBA()`: each channel is
cut to its high 8 bits. -/
def toRGBA (c : Color) : Color :=
  { R := c.R / 256 * 257, G := c.G / 256 * 257, B := c.B / 256 * 257, A := c.A / 256 * 257 }

/-- An in-memory image (Go `image.Image`): its bounds and its pixels. -/
structure Image where
  Bounds : Rectangle
  At : Int → Int → Color

/-- Go `image.NewRGBA(r)`: every pixel is transparent black. -/
def NewRGBA (r : Rectangle) : Image :=
  { Bounds := r, At := fun _ _ => ⟨0, 0, 0, 0⟩ }

/-- Go `(*image.RGBA).Set`: nothing happens outside the bounds. -/
def Image.Set (p : Image) (x y : Int) (c : Color) : Image :=
  if (Point.mk x y).In p.Bounds then
    { p with At := fun x1 y1 => if x1 = x ∧ y1 = y then toRGBA c else p.At x1 y1 }
  else p

/-- The inner loop `for x := 0; x < newW; x++` of `makeThumbnail` in row `y`. -/
def scaleRow (img : Image) (w h newW newH : Int) (y : Int) (newImg : Image) : Image :=
  (List.range newW.toNat).foldl
    (fun (acc : Image) (x : Nat) =>
      let srcX := divInt (mulInt (x : Int) w) newW
      let srcY := divInt (mulInt y h) newH
      acc.Set (x : Int) y (img.At srcX srcY))
    newImg

/-- The outer loop `for y := 0; y < newH; y++` of `makeThumbnail`. -/
def scaleRows (img : Image) (w h newW newH : Int) (newImg : Image) : Image :=
  (List.range newH.toNat).foldl
    (fun (acc : Image) (y : Nat) => scaleRow img w h newW newH (y : Int) acc) newImg

/-- What `makeThumbnail` needs from outside: the decoder registry, the file
system and the PNG encoder. -/
structure ImageEnv where
  /-- The function `image.Decode` on the bytes of the reader; `none` on error. -/
  Decode : List UInt8 → Option Image
  /-- Whether `os.Create(outpath)` succeeds. -/
  Create : List Char → Bool
  /-- Whether `png.Encode(f, img)` succeeds. -/
  Encode : Image → Bool

/-- How a call of `makeThumbnail` ends. -/
inductive ThumbnailResult where
  /-- The function `image.Decode` failed; its error is returned. -/
  | decodeError
  /-- The function `os.Create` failed; its error is returned. -/
  | createError
  /-- The call `png.Encode(f, img)` was made on the created file and its
  result returned: `ok` tells whether that was `nil`. -/
  | encoded (img : Image) (ok : Bool)

/-- `makeThumbnail(r, outpath)`. -/
def makeThumbnail (io : ImageEnv) (r : List UInt8) (outpath : List Char) : ThumbnailResult :=
  match io.Decode r with
  | none => ThumbnailResult.decodeError
  | some img =>
    let w := img.Bounds.Dx
    let h := img.Bounds.Dy
    if w ≤ MaxThumbnailWidth then
      if io.Create outpath then ThumbnailResult.encoded img (io.Encode img)
      else ThumbnailResult.createError
    else
      let newW := MaxThumbnailWidth
      let newH := divInt (mulInt newW h) w
      let newImg := NewRGBA (Rect 0 0 newW newH)
      let newImg := scaleRows img w h newW newH newImg
      if io.Create outpath then ThumbnailResult.encoded newImg (io.Encode newImg)
      else ThumbnailResult.createError

/-! ## Concrete inputs for the worked examples -/

/-- A URL of the form `scheme://host/path`, as `url.Parse` returns it. -/
def plainURL (scheme host path : List Char) : URL :=
  { Scheme := scheme, Opaque := [], User := none, Host := host, Path := path, RawPath := [],
    OmitHost := false, ForceQuery := false, RawQuery := [], Fragment := [], RawFragment := [] }

/-- The values of `url.Parse` on the references used in the worked examples
(every other string is treated as a parse error). -/
def exampleParse (raw : List Char) : Option URL :=
  if raw = "http://b.example.com/page".toList then
    some (plainURL "http".toList "b.example.com".toList "/page".toList)
  else if raw = "http://example.org/".toList then
    some (plainURL "http".toList "example.org".toList "/".toList)
  else if raw = "http://intranet/".toList then
    some (plainURL "http".toList "intranet".toList "/".toList)
  else if raw = "https://example.com/a.png".toList then
    some (plainURL "https".toList "example.com".toList "/a.png".toList)
  else if raw = "/x".toList then
    some (plainURL [] [] "/x".toList)
  else if raw = "ftp://example.com/f".toList then
    some (plainURL "ftp".toList "example.com".toList "/f".toList)
  else none

/-- A library instance for the worked examples: `exampleParse`, and the
behaviour of the path functions on paths that need no escaping and have no dot
segments, merged with an absolute or empty reference. -/
def exampleLib : UrlLib :=
  { Parse := exampleParse
    unescapePath := fun p => some p
    escapePath := fun p => p
    validEncodedPath := fun _ => true
    resolvePath := fun base ref => if ref = [] then base else ref
    stringAfterScheme := fun u => "//".toList ++ u.Host ++ u.Path }

/-- The public suffix of a domain under the default rule `*` of the public
suffix list: its last label.  It is what the lookup returns for a domain under
a one-label suffix such as `com` or `org`, and for a name without a dot. -/
def lastLabel (domain : List Char) : List Char :=
  match LastIndexByte domain '.' with
  | some k => domain.drop (1 + k)
  | none => domain

/-- A blank image of the given size, as a decoder would return it. -/
def blankImage (w h : Int) : Image :=
  NewRGBA (Rect 0 0 w h)

/-- An environment in which every reader decodes to `img` and the file system
and the encoder succeed. -/
def constEnv (img : Image) : ImageEnv :=
  { Decode := fun _ => some img, Create := fun _ => true, Encode := fun _ => true }

end Crawler

/-! ## `week2`: the Josephus game (`findWinnerFast.go`, `findWinner.go`) -/

namespace Week2

open Crawler (wrapInt)

/-- Go `a % b` on `int` (`b` not zero): the remainder of the truncated division. -/
def modInt (a b : Int) : Int :=
  a.tmod b

/-- `findWinnerFast(n, m)`: the loop `for i := 2; i < n; i++` runs for
`i = 2, ..., n - 1`. -/
def findWinnerFast (n m : Int) : Int :=
  let winner := (List.range (n - 2).toNat).foldl
    (fun (winner : Int) (k : Nat) => modInt (wrapInt (winner + m)) ((k : Int) + 2)) 0
  wrapInt (winner + 1)

/-- The survivor of the Josephus game, as the claim words it: `J(1) = 1` and
`J(k) = ((J(k-1) - 1 + m) mod k) + 1`, positions counted from 1.  The value at
`0` is not used. -/
def josephus (m : Nat) : Nat → Nat
  | 0 => 0
  | k + 1 => if k = 0 then 1 else (josephus m k - 1 + m) % (k + 1) + 1

/-- How a run of `findWinner` ends when it ends. -/
inductive Result where
  /-- The function returns the value. -/
  | value (v : Int)
  /-- A run-time panic (slice bounds or index out of range, negative length). -/
  | panic
deriving DecidableEq, Repr

/-- The loop `for len(people) > 1` of `findWinner`, for at most `fuel` rounds:
`none` when the rounds are used up with the loop still running.  The statement
`people = append(people, people[index+1:]...)` appends the tail behind the
whole slice. -/
def findWinnerLoop (m : Int) : Nat → List Int → Int → Option Result
  | 0, _, _ => none
  | fuel + 1, people, index =>
    if people.length > 1 then
      let index := modInt (wrapInt (wrapInt (index + m) - 1)) (people.length : Int)
      if index + 1 < 0 then some Result.panic
      else findWinnerLoop m fuel (people ++ people.drop (index + 1).toNat) index
    else
      match people.head? with
      | none => some Result.panic
      | some p => some (Result.value p)

/-- `findWinner(n, m)` with at most `fuel` rounds of its elimination loop. -/
def findWinner (n m : Int) (fuel : Nat) : Option Result :=
  if n < 0 then some Result.panic
  else
    let people := (List.range n.toNat).map (fun (i : Nat) => wrapInt ((i : Int) + 1))
    findWinnerLoop m fuel people 0

end Week2

namespace Crawler

end Crawler

/-! ## `week3`: shortest routes (`dijkstraTASK.go`; `week4/miniExam1.go` has the same function) -/

namespace Week3

/-- The `float64` values of the model: the non-negative whole numbers (exact in
`float64` below `2^53`) and `+Inf`. -/
inductive Dist where
  /-- A finite distance. -/
  | fin (v : Nat)
  /-- The value `math.Inf(1)`. -/
  | inf
deriving DecidableEq, Repr

/-- Go `a < b` on these values. -/
def Dist.lt : Dist → Dist → Bool
  | Dist.fin a, Dist.fin b => decide (a < b)
  | Dist.fin _, Dist.inf => true
  | Dist.inf, _ => false

/-- Go `a + b` on these values. -/
def Dist.add : Dist → Dist → Dist
  | Dist.fin a, Dist.fin b => Dist.fin (a + b)
  | _, _ => Dist.inf

/-- `Edge`. -/
structure Edge where
  To : Int
  Weight : Dist
deriving DecidableEq, Repr

/-- `Graph`: the entries of the two Go maps.  The order of `Cities` is the order
in which `range g.Cities` yields the keys. -/
structure Graph where
  Cities : List (Int × List Char)
  Adj : List (Int × List Edge)
deriving DecidableEq, Repr

/-- The keys of `g.Cities`. -/
def Graph.cityIDs (g : Graph) : List Int :=
  g.Cities.map Prod.fst

/-- The map read `g.Adj[u]`: the empty slice for a missing key. -/
def Graph.adj (g : Graph) (u : Int) : List Edge :=
  match g.Adj.find? (fun e => e.1 == u) with
  | some e => e.2
  | none => []

/-- A map assignment `m[k] = v` on a map read as a function (a missing key reads
as the zero value). -/
def assign {β : Type} (m : Int → β) (k : Int) (v : β) : Int → β :=
  fun x => if x = k then v else m x

/-- The first loop of `Dijkstra` and the line after it: every listed city gets
`+Inf`, then `dist[start] = 0`. -/
def initDist (g : Graph) (start : Int) : Int → Dist :=
  assign (g.cityIDs.foldl (fun (dist : Int → Dist) (city : Int) => assign dist city Dist.inf)
    (fun _ => Dist.fin 0)) start (Dist.fin 0)

/-- The inner loop that picks the unvisited city of least distance; the pair is
`(minDist, current)`, started at `(+Inf, -1)`. -/
def selectMin (cities : List Int) (dist : Int → Dist) (visited : Int → Bool) : Dist × Int :=
  cities.foldl
    (fun (acc : Dist × Int) (city : Int) =>
      if !visited city && (dist city).lt acc.1 then (dist city, city) else acc)
    (Dist.inf, -1)

/-- The loop over the edges of `current`; the pair is `(dist, prev)`. -/
def relax (edges : List Edge) (current : Int) (dp : (Int → Dist) × (Int → Int)) :
    (Int → Dist) × (Int → Int) :=
  edges.foldl
    (fun (acc : (Int → Dist) × (Int → Int)) (edge : Edge) =>
      let newDist := (acc.1 current).add edge.Weight
      if newDist.lt (acc.1 edge.To) then (assign acc.1 edge.To newDist, assign acc.2 edge.To current)
      else acc)
    dp

/-- The main loop `for { ... }` of `Dijkstra`, for at most `fuel` rounds. -/
def dijkstraLoop (g : Graph) (finish : Int) :
    Nat → (Int → Dist) → (Int → Int) → (Int → Bool) → Option ((Int → Dist) × (Int → Int))
  | 0, _, _, _ => none
  | fuel + 1, dist, prev, visited =>
    let current := (selectMin g.cityIDs dist visited).2
    if current = -1 ∨ current = finish then some (dist, prev)
    else
      let visited := assign visited current true
      let dp := relax (g.adj current) current (dist, prev)
      dijkstraLoop g finish fuel dp.1 dp.2 visited

/-- The loop `for at := end; at != 0; at = prev[at]` that rebuilds the path, for
at most `fuel` rounds. -/
def buildPath (start : Int) (prev : Int → Int) : Nat → Int → List Int → Option (List Int)
  | 0, _, _ => none
  | fuel + 1, cur, path =>
    if cur ≠ 0 then
      if cur = start then some (cur :: path)
      else buildPath start prev fuel (prev cur) (cur :: path)
    else some path

/-- `Dijkstra(g, start, end)` with at most `fuel` rounds of each of its loops:
the path and the distance `dist[end]`. -/
def Dijkstra (g : Graph) (start finish : Int) (fuel : Nat) : Option (List Int × Dist) :=
  match dijkstraLoop g finish fuel (initDist g start) (fun _ => 0) (fun _ => false) with
  | none => none
  | some (dist, prev) =>
    match buildPath start prev fuel finish [] with
    | none => none
    | some path => some (path, dist finish)

/-- The total weight of the route that visits the given cities in turn, taking
between two consecutive cities the first edge listed; `none` when two
consecutive cities are not joined by an edge. -/
def routeWeight (g : Graph) : List Int → Option Dist
  | [] => none
  | [_] => some (Dist.fin 0)
  | u :: v :: rest =>
    match (g.adj u).find? (fun e => e.To == v), routeWeight g (v :: rest) with
    | some e, some w => some (e.Weight.add w)
    | _, _ => none

/-- Two cities with the IDs `-1` and `2`, joined by a road of length 1, with the
cities listed in the given order. -/
def twoCities (firstIsMinusOne : Bool) : Graph :=
  { Cities := if firstIsMinusOne then [(-1, "A".toList), (2, "B".toList)]
      else [(2, "B".toList), (-1, "A".toList)]
    Adj := [(-1, [⟨2, Dist.fin 1⟩]), (2, [⟨-1, Dist.fin 1⟩])] }

/-- Whether `g.Adj[u]` holds an edge to `v` of weight `w`. -/
def Graph.joins (g : Graph) (u v : Int) (w : Dist) : Bool :=
  (g.adj u).any (fun e => decide (e.To = v ∧ e.Weight = w))

/-- Whether each city of the list is joined to the next one by an edge of the
graph, the edges having the finite weights listed, in turn. -/
def Graph.isRoute (g : Graph) : List Int → List Nat → Bool
  | [_], [] => true
  | u :: v :: rest, w :: ws => g.joins u v (Dist.fin w) && g.isRoute (v :: rest) ws
  | _, _ => false

/-- The number of listed cities that `visited` does not hold yet: what is left
for the main loop of `Dijkstra` to do. -/
def unvisited (cities : List Int) (visited : Int → Bool) : Nat :=
  (cities.filter (fun c => !visited c)).length

/-- The state of the main loop of `Dijkstra` at the top of a round: what holds
of `dist`, `prev` and `visited` each time the selection loop starts.  `rank`
counts the steps that `prev` takes from a visited city back to `start`. -/
structure LoopInv (g : Graph) (start finish : Int) (rank : Int → Nat)
    (dist : Int → Dist) (prev : Int → Int) (visited : Int → Bool) : Prop where
  /-- The distance of `start` stays `0`. -/
  start_zero : dist start = Dist.fin 0
  /-- The loop never visits `finish`: it breaks when `finish` is selected. -/
  finish_open : visited finish = false
  /-- A key that is not a city reads as the zero value in both maps. -/
  unlisted : ∀ w, w ∉ g.cityIDs → dist w = Dist.fin 0 ∧ prev w = 0
  /-- A city at distance `+Inf` has no entry in `prev`. -/
  prev_zero : ∀ w, dist w = Dist.inf → prev w = 0
  /-- Visited cities are listed and at a finite distance. -/
  visited_listed : ∀ u, visited u = true → u ∈ g.cityIDs ∧ dist u ≠ Dist.inf
  /-- No unvisited city is nearer than a visited one. -/
  visited_le : ∀ u w, visited u = true → visited w = false → w ∈ g.cityIDs →
    (dist w).lt (dist u) = false
  /-- The entry `prev[w]` of a city at a finite distance is a visited city, and
  an edge from it to `w` accounts for the distance of `w`. -/
  pred : ∀ w, w ∈ g.cityIDs → w ≠ start → dist w ≠ Dist.inf →
    visited (prev w) = true ∧
      ∃ weight, g.joins (prev w) w weight = true ∧ dist w = (dist (prev w)).add weight
  /-- Following `prev` from a visited city lowers the rank. -/
  rank_lt : ∀ u, visited u = true → u ≠ start → rank (prev u) < rank u
  /-- The rank of a visited city is below the number of visited cities. -/
  rank_bound : ∀ u, visited u = true →
    rank u + unvisited g.cityIDs visited < g.cityIDs.length
  /-- Every edge out of a visited city has been relaxed. -/
  closed : ∀ u, visited u = true → ∀ e ∈ g.adj u,
    ((dist u).add e.Weight).lt (dist e.To) = false

/-- Two cities with the IDs `1` and `0`, joined by a road of length 1, with the
cities listed in the given order. -/
def zeroCities (firstIsZero : Bool) : Graph :=
  { Cities := if firstIsZero then [(0, "B".toList), (1, "A".toList)]
      else [(1, "A".toList), (0, "B".toList)]
    Adj := [(1, [⟨0, Dist.fin 1⟩]), (0, [⟨1, Dist.fin 1⟩])] }

/-- Three cities on a line, `1`, `0` and `2`: a road of length 1 from `1` to `0`
and one of length 1 from `0` to `2`, with the cities listed in the given
order. -/
def viaZero (cities : List (Int × List Char)) : Graph :=
  { Cities := cities
    Adj := [(1, [⟨0, Dist.fin 1⟩]), (0, [⟨1, Dist.fin 1⟩, ⟨2, Dist.fin 1⟩]),
      (2, [⟨0, Dist.fin 1⟩])] }

/-- The three cities of `viaZero`, in each of the six orders in which a map
can yield them. -/
def lineOrders : List (List (Int × List Char)) :=
  [[(1, "A".toList), (0, "B".toList), (2, "C".toList)],
   [(1, "A".toList), (2, "C".toList), (0, "B".toList)],
   [(0, "B".toList), (1, "A".toList), (2, "C".toList)],
   [(0, "B".toList), (2, "C".toList), (1, "A".toList)],
   [(2, "C".toList), (1, "A".toList), (0, "B".toList)],
   [(2, "C".toList), (0, "B".toList), (1, "A".toList)]]

/-- Three cities `1`, `2` and `3`: roads of length 1 from `1` to `2` and from
`2` to `3`, and a road of length 5 from `1` to `3`. -/
def detour : Graph :=
  { Cities := [(1, "A".toList), (2, "B".toList), (3, "C".toList)]
    Adj := [(1, [⟨2, Dist.fin 1⟩, ⟨3, Dist.fin 5⟩]), (2, [⟨1, Dist.fin 1⟩, ⟨3, Dist.fin 1⟩]),
      (3, [⟨2, Dist.fin 1⟩, ⟨1, Dist.fin 5⟩])] }

end Week3

namespace Crawler

/-! ## Pages: tokens, link and image extraction -/

/-- Go `html.TokenType`, without `ErrorToken` (which ends the token stream). -/
inductive TokenType where
  /-- Text between tags. -/
  | TextToken
  /-- A start tag such as `<a>`. -/
  | StartTagToken
  /-- An end tag such as `</a>`. -/
  | EndTagToken
  /-- A self-closing tag such as `<img/>`. -/
  | SelfClosingTagToken
  /-- A comment. -/
  | CommentToken
  /-- A doctype declaration. -/
  | DoctypeToken
deriving DecidableEq, Repr

/-- Go `html.Attribute`. -/
structure Attribute where
  Namespace : List Char
  Key : List Char
  Val : List Char
deriving DecidableEq, Repr

/-- Go `html.Token`; `Typ` is its field `Type`. -/
structure Token where
  Typ : TokenType
  Data : List Char
  Attr : List Attribute
deriving DecidableEq, Repr

/-- `ImageRef` represents an `<img>` found in a page. -/
structure ImageRef where
  Src : List Char
  Alt : List Char
  Title : List Char
deriving DecidableEq, Repr

/-- The loop over the attributes of an `<a>` tag: every `href` that
`sanitizeURL` accepts is appended to `links`. -/
def anchorLinks (lib : UrlLib) (base : URL) (attrs : List Attribute)
    (links : List (List Char)) : List (List Char) :=
  attrs.foldl
    (fun (links : List (List Char)) (a : Attribute) =>
      if a.Key = "href".toList then
        if sanitizeURL lib a.Val base ≠ [] then links ++ [sanitizeURL lib a.Val base] else links
      else links)
    links

/-- The loop over the attributes of an `<img>` tag: the triple `(src, alt,
title)`, each the value of the last attribute whose lower-cased key matches.
`ToLower` is Go `strings.ToLower`. -/
def imgAttrs (ToLower : List Char → List Char) (attrs : List Attribute) :
    List Char × List Char × List Char :=
  attrs.foldl
    (fun (acc : List Char × List Char × List Char) (a : Attribute) =>
      if ToLower a.Key = "src".toList then (a.Val, acc.2.1, acc.2.2)
      else if ToLower a.Key = "alt".toList then (acc.1, a.Val, acc.2.2)
      else if ToLower a.Key = "title".toList then (acc.1, acc.2.1, a.Val)
      else acc)
    ([], [], [])

/-- The token loop of `parseHTMLForLinksAndImages` over the tokens that come
before the final `ErrorToken`. -/
def parseTokens (lib : UrlLib) (ToLower : List Char → List Char) (base : URL) :
    List Token → List (List Char) → List ImageRef → List (List Char) × List ImageRef
  | [], links, images => (links, images)
  | n :: rest, links, images =>
    if n.Typ = TokenType.StartTagToken ∨ n.Typ = TokenType.SelfClosingTagToken then
      if n.Data = "a".toList then
        parseTokens lib ToLower base rest (anchorLinks lib base n.Attr links) images
      else if n.Data = "img".toList then
        if sanitizeURL lib (imgAttrs ToLower n.Attr).1 base ≠ [] then
          parseTokens lib ToLower base rest links
            (images ++ [{ Src := sanitizeURL lib (imgAttrs ToLower n.Attr).1 base
                          Alt := (imgAttrs ToLower n.Attr).2.1
                          Title := (imgAttrs ToLower n.Attr).2.2 }])
        else parseTokens lib ToLower base rest links images
      else parseTokens lib ToLower base rest links images
    else parseTokens lib ToLower base rest links images

/-- `parseHTMLForLinksAndImages` on a token stream: `tokens` are the tokens
before the final `ErrorToken`, `eof` tells whether that error is `io.EOF`.
The result is `none` when the function returns an error. -/
def parseHTMLForLinksAndImages (lib : UrlLib) (ToLower : List Char → List Char)
    (tokens : List Token) (eof : Bool) (base : URL) :
    Option (List (List Char) × List ImageRef) :=
  if eof then
    some (uniqueStrings (parseTokens lib ToLower base tokens [] []).1,
      (parseTokens lib ToLower base tokens [] []).2)
  else none

/-! ## The world around a worker -/

/-- How `client.Do(req)` followed by `ioutil.ReadAll(resp.Body)` ends. -/
inductive HttpResult where
  /-- The request failed: `client.Do` returned an error. -/
  | failed
  /-- A response arrived, with its status code; `body` is `none` when reading
  the body failed. -/
  | response (status : Int) (body : Option (List UInt8))
deriving DecidableEq, Repr

/-- The arguments of the `INSERT INTO images` statement of `processImage`. -/
structure ImageRecord where
  URL : List Char
  Filename : List Char
  Thumbnail : List Char
  Alt : List Char
  Title : List Char
  Width : Int
  Height : Int
  Format : List Char
deriving DecidableEq, Repr

/-- Everything outside the crawler that a worker calls: libraries, the network
(as it answers under the context of the run), the file system, the external
rasterizer and the database. -/
structure World where
  /-- The package `net/url`. -/
  url : UrlLib
  /-- The lookup `publicsuffix.PublicSuffix`. -/
  PublicSuffix : List Char → List Char
  /-- The function `strings.ToLower`. -/
  ToLower : List Char → List Char
  /-- The call `chromedp.Run` that renders a page: the rendered markup, or
  `none` on an error. -/
  chromedpRun : List Char → Option (List UInt8)
  /-- The plain GET of a page in `fetchPage`. -/
  pageGet : List Char → HttpResult
  /-- The tokenizer `html.NewTokenizer` on a page: its tokens before the final
  `ErrorToken`, and whether that error is `io.EOF`. -/
  tokenize : List UInt8 → List Token × Bool
  /-- The GET of an image in `processImage`. -/
  imageGet : List Char → HttpResult
  /-- The function `filepath.Join` on two elements. -/
  Join : List Char → List Char → List Char
  /-- The names for which `os.Stat` in the image directory fails with an error
  other than "does not exist". -/
  statFails : List Char → Bool
  /-- Whether `ioutil.WriteFile(outfile, b, 0644)` succeeds. -/
  WriteFile : List Char → List UInt8 → Bool
  /-- The function `image.DecodeConfig`: width and height, or `none` on an
  error, and in both cases the name of the format recognised (empty when none
  is). -/
  DecodeConfig : List UInt8 → Option (Int × Int) × List Char
  /-- What `makeThumbnail` needs. -/
  images : ImageEnv
  /-- The conversion `string(b)`. -/
  asString : List UInt8 → List Char
  /-- The call `fmt.Sprintf(d.svgRasterCmd, width, outp, outfile)`. -/
  Sprintf : List Char → Int → List Char → List Char → List Char
  /-- Whether `exec.Command("/bin/sh", "-c", cmdStr).Run()` succeeds. -/
  runShell : List Char → Bool
  /-- Whether the `INSERT` succeeds. -/
  dbExec : ImageRecord → Bool

/-- `fetchPage`: the rendered page when JS rendering is enabled and works, else
the body of a plain GET.  `none` when an error is returned. -/
def Dispatcher.fetchPage (d : Dispatcher) (w : World) (pageURL : List Char) :
    Option (List UInt8 × URL) :=
  match w.url.Parse pageURL with
  | none => none
  | some u =>
    match (if d.enableJS then w.chromedpRun pageURL else none) with
    | some htmlContent => some (htmlContent, u)
    | none =>
      match w.pageGet pageURL with
      | HttpResult.failed => none
      | HttpResult.response _ none => none
      | HttpResult.response _ (some b) => some (b, u)

/-! ## Image processing -/

/-- Go `path.Base`: the last element of a path, `.` for the empty path and `/`
for a path of slashes only. -/
def Base (path : List Char) : List Char :=
  if path = [] then ['.']
  else
    let stripped := path.rdropWhile (fun c => c == '/')
    let last :=
      match LastIndexByte stripped '/' with
      | some i => stripped.drop (i + 1)
      | none => stripped
    if last = [] then ['/'] else last

/-- `urlSafeFilename`: every character outside `[A-Za-z0-9._-]` becomes `-`. -/
def urlSafeFilename (u : List Char) : List Char :=
  u.map (fun c =>
    if ('A' ≤ c && c ≤ 'Z') || ('a' ≤ c && c ≤ 'z') || ('0' ≤ c && c ≤ '9') ||
        c == '.' || c == '_' || c == '-' then c else '-')

/-- `isSVG` on the text of the downloaded bytes. -/
def isSVG (text : List Char) : Bool :=
  HasPrefix (TrimSpace text) "<?xml".toList || Contains (TrimSpace text) "<svg".toList

/-- What lines 526-561 of `processImage` settle for the record: the thumbnail
path, the width, the height and the format, and whether a thumbnail file was
created by `makeThumbnail`. -/
structure Inspection where
  thumbnailPath : List Char
  width : Int
  height : Int
  format : List Char
  thumbCreated : Bool
deriving DecidableEq, Repr

/-- Lines 526-561 of `processImage`: decode the configuration; make a
thumbnail of a decodable image that is not SVG; otherwise sniff for SVG and run
the external rasterizer when one is configured. -/
def inspectImage (w : World) (svgRasterCmd : List Char) (outfile : List Char)
    (b : List UInt8) : Inspection :=
  match w.DecodeConfig b with
  | (some (width, height), format) =>
    if format ≠ "svg".toList then
      match makeThumbnail w.images b (outfile ++ ".thumb.png".toList) with
      | ThumbnailResult.encoded _ true =>
        ⟨outfile ++ ".thumb.png".toList, width, height, format, true⟩
      | ThumbnailResult.encoded _ false => ⟨[], width, height, format, true⟩
      | ThumbnailResult.createError => ⟨[], width, height, format, false⟩
      | ThumbnailResult.decodeError => ⟨[], width, height, format, false⟩
    else ⟨[], width, height, format, false⟩
  | (none, format) =>
    if isSVG (w.asString b) then
      if svgRasterCmd ≠ [] then
        if w.runShell (w.Sprintf svgRasterCmd MaxThumbnailWidth
            (outfile ++ ".thumb.png".toList) outfile)
        then ⟨outfile ++ ".thumb.png".toList, 0, 0, "svg".toList, false⟩
        else ⟨[], 0, 0, "svg".toList, false⟩
      else ⟨[], 0, 0, "svg".toList, false⟩
    else ⟨[], 0, 0, format, false⟩

/-- What a call of `processImage` did. -/
structure ProcessResult where
  /-- Whether a non-nil error is returned. -/
  err : Bool
  /-- The URLs requested with GET (none or one). -/
  requests : List (List Char)
  /-- The names of the files created in the image directory by `WriteFile` and
  `os.Create`. -/
  created : List (List Char)
  /-- The `INSERT` statements issued, by their arguments. -/
  inserts : List ImageRecord
deriving DecidableEq, Repr

/-- `processImage`: download the image, save it under a unique name, inspect
it, insert its metadata.  `existing` lists the names present in the image
directory, and `os.Stat` answers by `dirStat w.statFails existing`; `fuel`
bounds the rounds of `uniqueFilename`, and the result is `none` when they are
used up. -/
def Dispatcher.processImage (d : Dispatcher) (w : World) (existing : List (List Char))
    (img : ImageRef) (pageBase : URL) (fuel : Nat) : Option ProcessResult :=
  match w.url.Parse img.Src with
  | none => some ⟨true, [], [], []⟩
  | some parsed =>
    let u := if parsed.Scheme = [] then pageBase.ResolveReference w.url parsed else parsed
    match w.imageGet (u.String w.url) with
    | HttpResult.failed => some ⟨true, [u.String w.url], [], []⟩
    | HttpResult.response status body =>
      if status ≠ 200 then some ⟨true, [u.String w.url], [], []⟩
      else
        let fname :=
          if Base u.Path = [] ∨ Base u.Path = ['/'] ∨ Base u.Path = ['.']
          then urlSafeFilename (u.String w.url) else Base u.Path
        match uniqueFilename (dirStat w.statFails existing) fname fuel with
        | none => none
        | some unique =>
          let outfile := w.Join d.imageDir unique
          match body with
          | none => some ⟨true, [u.String w.url], [], []⟩
          | some b =>
            if w.WriteFile outfile b = false then some ⟨true, [u.String w.url], [], []⟩
            else
              let seen := inspectImage w d.svgRasterCmd outfile b
              let record : ImageRecord :=
                { URL := u.String w.url, Filename := unique, Thumbnail := seen.thumbnailPath,
                  Alt := img.Alt, Title := img.Title, Width := seen.width,
                  Height := seen.height, Format := seen.format }
              some ⟨!w.dbExec record, [u.String w.url],
                if seen.thumbCreated then [unique, unique ++ ".thumb.png".toList] else [unique],
                [record]⟩

/-! ## The worker -/

/-- The loop `for _, l := range links` of `worker`: links that fail the
same-site test are skipped unless external links are followed, the others are
passed to `Add` with the depth of the page plus one.  The second component
lists the jobs passed to `Add`; a panic in `Add` ends the loop. -/
def scheduleLinks (w : World) (baseURL : URL) (depth : Int) :
    List (List Char) → RunState → List Job → RunState × List Job
  | [], s, added => (s, added)
  | l :: rest, s, added =>
    if s.crashed then (s, added)
    else if !s.d.followExternal && !sameSite w.url w.PublicSuffix baseURL l then
      scheduleLinks w baseURL depth rest s added
    else
      scheduleLinks w baseURL depth rest (s.step (Op.add ⟨l, wrapInt (depth + 1)⟩))
        (added ++ [⟨l, wrapInt (depth + 1)⟩])

/-- The effects of the image loop of a worker so far. -/
structure ImagesTrace where
  /-- The names present in the image directory. -/
  existing : List (List Char)
  /-- The arguments of the calls of `processImage`, in order. -/
  calls : List ImageRef
  /-- The image URLs requested. -/
  requests : List (List Char)
  /-- The metadata inserts issued. -/
  inserts : List ImageRecord
deriving DecidableEq, Repr

/-- The loop `for _, img := range imgs` of `worker`: `processImage` is called
for every image; its error is logged and the loop goes on. -/
def processImages (w : World) (d : Dispatcher) (pageBase : URL) (fuel : Nat) :
    List ImageRef → ImagesTrace → Option ImagesTrace
  | [], t => some t
  | img :: rest, t =>
    match d.processImage w t.existing img pageBase fuel with
    | none => none
    | some r =>
      processImages w d pageBase fuel rest
        { existing := r.created ++ t.existing, calls := t.calls ++ [img],
          requests := t.requests ++ r.requests, inserts := t.inserts ++ r.inserts }

/-- What a worker did for one job. -/
structure JobTrace where
  /-- The dispatcher afterwards. -/
  s : RunState
  /-- The names present in the image directory afterwards. -/
  existing : List (List Char)
  /-- Whether `fetchPage` returned a page. -/
  fetched : Bool
  /-- The jobs passed to `Add`, in order. -/
  added : List Job
  /-- The arguments of the calls of `processImage`, in order. -/
  imageCalls : List ImageRef
  /-- The image URLs requested. -/
  requests : List (List Char)
  /-- The metadata inserts issued. -/
  inserts : List ImageRecord
deriving DecidableEq, Repr

/-- Lines 313-336 of `worker`: what is done with a fetched page, given as its
token stream.  A parse error abandons the job; a panic in `Add` ends it. -/
def workerPage (w : World) (fuel : Nat) (s : RunState) (existing : List (List Char))
    (depth : Int) (baseURL : URL) (tokens : List Token) (eof : Bool) : Option JobTrace :=
  match parseHTMLForLinksAndImages w.url w.ToLower tokens eof baseURL with
  | none => some ⟨s, existing, true, [], [], [], []⟩
  | some (links, imgs) =>
    if (scheduleLinks w baseURL depth links s []).1.crashed then
      some ⟨(scheduleLinks w baseURL depth links s []).1, existing, true,
        (scheduleLinks w baseURL depth links s []).2, [], [], []⟩
    else
      match processImages w (scheduleLinks w baseURL depth links s []).1.d baseURL fuel imgs
          ⟨existing, [], [], []⟩ with
      | none => none
      | some t =>
        some ⟨(scheduleLinks w baseURL depth links s []).1, t.existing, true,
          (scheduleLinks w baseURL depth links s []).2, t.calls, t.requests, t.inserts⟩

/-- The body of the worker loop for one job (lines 305-337): fetch the page,
and on success extract, schedule and process. -/
def workerJob (w : World) (fuel : Nat) (s : RunState) (existing : List (List Char))
    (job : Job) : Option JobTrace :=
  match s.d.fetchPage w job.URL with
  | none => some ⟨s, existing, false, [], [], [], []⟩
  | some (pagesrc, baseURL) =>
    workerPage w fuel s existing job.Depth baseURL (w.tokenize pagesrc).1 (w.tokenize pagesrc).2

/-! ## Concrete inputs for the worked examples of the worker -/

/-- The values of `url.Parse` on the references used in the worked examples of
the worker (every other string is treated as a parse error). -/
def pageParse (raw : List Char) : Option URL :=
  if raw = "/x".toList then some (plainURL [] [] "/x".toList)
  else if raw = "http://other.test/y".toList then
    some (plainURL "http".toList "other.test".toList "/y".toList)
  else if raw = "http://example.com/x".toList then
    some (plainURL "http".toList "example.com".toList "/x".toList)
  else if raw = "http://example.com/".toList then
    some (plainURL "http".toList "example.com".toList "/".toList)
  else if raw = "http://example.com/gone".toList then
    some (plainURL "http".toList "example.com".toList "/gone".toList)
  else if raw = "http://example.com/logo.png".toList then
    some (plainURL "http".toList "example.com".toList "/logo.png".toList)
  else none

/-- The library instance `exampleLib` with the parse table `pageParse`. -/
def pageLib : UrlLib :=
  { exampleLib with Parse := pageParse }

/-- The token of `<a href="...">`. -/
def anchorTag (href : List Char) : Token :=
  { Typ := TokenType.StartTagToken, Data := "a".toList,
    Attr := [{ Namespace := [], Key := "href".toList, Val := href }] }

/-- The token of `<img src="...">`. -/
def imgTag (src : List Char) : Token :=
  { Typ := TokenType.StartTagToken, Data := "img".toList,
    Attr := [{ Namespace := [], Key := "src".toList, Val := src }] }

/-- The page of the example: `<a href="/x">`, `<a href="/x">` and
`<a href="http://other.test/y">`. -/
def threeLinks : List Token :=
  [anchorTag "/x".toList, anchorTag "/x".toList, anchorTag "http://other.test/y".toList]

/-- A world for the worked examples: JS rendering fails, every page request is
answered by `pageGet` and every page body has the tokens `tokens`; every image
request is answered with status 200 and an empty body that is neither
decodable nor SVG; `os.Stat` fails on names of more than 255 bytes; files and
database accept everything. -/
def exampleWorld (pageGet : List Char → HttpResult) (tokens : List Token) : World :=
  { url := pageLib
    PublicSuffix := lastLabel
    ToLower := fun s => s.map Char.toLower
    chromedpRun := fun _ => none
    pageGet := pageGet
    tokenize := fun _ => (tokens, true)
    imageGet := fun _ => HttpResult.response 200 (some [])
    Join := fun dir name => dir ++ ['/'] ++ name
    statFails := nameTooLong
    WriteFile := fun _ _ => true
    DecodeConfig := fun _ => (none, [])
    images := constEnv (blankImage 1 1)
    asString := fun _ => []
    Sprintf := fun format _ _ _ => format
    runShell := fun _ => true
    dbExec := fun _ => true }

/-- A fresh dispatcher with 10 workers that does not follow external links and
does not render JS. -/
def exampleDispatcher : Dispatcher :=
  NewDispatcher 10 200 false false "images".toList []

/-- The address of an image whose last path segment has 300 bytes. -/
def longNameURL : List Char :=
  "http://example.com/".toList ++ List.replicate 300 'a'

/-- The value of `url.Parse` on `longNameURL` (every other string is treated
as a parse error). -/
def longNameParse (raw : List Char) : Option URL :=
  if raw = longNameURL then
    some (plainURL "http".toList "example.com".toList ('/' :: List.replicate 300 'a'))
  else none

/-- The world of the worked examples with the parse table `longNameParse`. -/
def longNameWorld : World :=
  { exampleWorld (fun _ => HttpResult.failed) [] with
    url := { exampleLib with Parse := longNameParse } }

/-- The values of `url.Parse` on the two addresses of the intranet example
(every other string is treated as a parse error). -/
def intranetParse (raw : List Char) : Option URL :=
  if raw = "http://localhost:8080/".toList then
    some (plainURL "http".toList "localhost:8080".toList "/".toList)
  else if raw = "http://intranet/".toList then
    some (plainURL "http".toList "intranet".toList "/".toList)
  else none

/-- A world in which every page request is answered with status 200 and a page
whose only tag is `<a href="http://intranet/">`, with the parse table
`intranetParse`. -/
def intranetWorld : World :=
  { exampleWorld (fun _ => HttpResult.response 200 (some []))
      [anchorTag "http://intranet/".toList] with
    url := { exampleLib with Parse := intranetParse } }

/-! ## A crawl: `Run`, the workers and `main` side by side -/

/-- One step of one of the goroutines of a crawl. -/
inductive Event where
  /-- The goroutine `main` calls `Add` for a start URL. -/
  | seed (job : Job)
  /-- `Run` has found the context done and closes `jobCh` (it does so once). -/
  | close
  /-- `main` has found the context done and calls `Stop`, which closes `quit`. -/
  | stop
  /-- Some worker runs one round of its loop `for job := range d.jobCh`. -/
  | work
deriving DecidableEq, Repr

/-- A crawl in progress. -/
structure Crawl where
  /-- The dispatcher, with the jobs sent so far and the crash flag. -/
  s : RunState
  /-- The names present in the image directory. -/
  existing : List (List Char)
  /-- Whether `quit` is closed. -/
  quit : Bool
  /-- The number of workers still in their loop; `Run` returns from
  `d.wg.Wait()` when it is 0. -/
  live : Nat
  /-- The number of those workers that have received a job and wait at
  `d.sem <- struct{}{}`, the semaphore having no capacity. -/
  blocked : Nat
  /-- The jobs received from `jobCh` by workers. -/
  taken : List Job
  /-- The jobs for which a worker entered the job body (`processing ...`). -/
  started : List Job
  /-- The jobs whose page `fetchPage` returned. -/
  fetched : List Job
  /-- The jobs passed to `Add` by workers. -/
  added : List Job
  /-- The arguments of the calls of `processImage`. -/
  imageCalls : List ImageRef
  /-- The image URLs requested. -/
  requests : List (List Char)
  /-- The metadata inserts issued. -/
  inserts : List ImageRecord
deriving DecidableEq, Repr

/-- The crawl right after `Run` has started its `d.workers` workers. -/
def Crawl.start (d : Dispatcher) (existing : List (List Char)) : Crawl :=
  { s := RunState.start d, existing := existing, quit := false, live := d.workers.toNat,
    blocked := 0, taken := [], started := [], fetched := [], added := [], imageCalls := [],
    requests := [], inserts := [] }

/-- The effects of a finished job body added to the crawl. -/
def Crawl.record (c : Crawl) (job : Job) (t : JobTrace) : Crawl :=
  { c with
    s := t.s, existing := t.existing,
    started := c.started ++ [job],
    fetched := if t.fetched then c.fetched ++ [job] else c.fetched,
    added := c.added ++ t.added,
    imageCalls := c.imageCalls ++ t.imageCalls,
    requests := c.requests ++ t.requests,
    inserts := c.inserts ++ t.inserts }

/-- One round of the loop of a worker (lines 295-338), taken by a worker that
does not wait at the semaphore: receive a job; return if `quit` is closed;
otherwise send on `d.sem`, run the job body and receive from `d.sem`.  With an
empty queue the worker leaves its loop if the queue is closed and waits
otherwise.  A round is one step, so no slot of the semaphore `d.sem` (a channel
of capacity `maxGoroutines`) is held when a round starts: the send goes through
when the capacity is positive, and on a semaphore without capacity it blocks
for ever, the worker staying in its loop with the job it received.  `none`
when the job body runs out of `fuel`. -/
def Crawl.work (w : World) (fuel : Nat) (c : Crawl) : Option Crawl :=
  if c.live ≤ c.blocked then some c
  else
    match c.s.d.jobCh.recv with
    | (_, none) => if c.s.d.jobCh.closed then some { c with live := c.live - 1 } else some c
    | (ch, some job) =>
      if c.quit then
        some { c with s := { c.s with d := { c.s.d with jobCh := ch } },
                      taken := c.taken ++ [job], live := c.live - 1 }
      else if c.s.d.maxGoroutines ≤ 0 then
        some { c with s := { c.s with d := { c.s.d with jobCh := ch } },
                      taken := c.taken ++ [job], blocked := c.blocked + 1 }
      else
        match workerJob w fuel { c.s with d := { c.s.d with jobCh := ch } } c.existing job with
        | none => none
        | some t =>
          some (({ c with taken := c.taken ++ [job] } : Crawl).record job t)

/-- Perform one event.  Nothing happens any more once the process has crashed. -/
def Crawl.step (w : World) (fuel : Nat) (c : Crawl) (e : Event) : Option Crawl :=
  if c.s.crashed then some c
  else
    match e with
    | Event.seed job => some { c with s := c.s.step (Op.add job) }
    | Event.close => some { c with s := c.s.step Op.close }
    | Event.stop => some { c with quit := true }
    | Event.work => c.work w fuel

/-- Perform a sequence of events. -/
def Crawl.run (w : World) (fuel : Nat) : List Event → Crawl → Option Crawl
  | [], c => some c
  | e :: rest, c =>
    match c.step w fuel e with
    | none => none
    | some next => Crawl.run w fuel rest next

/-! ## The frontier: lemmas about `Add` -/

theorem Chan.trySend_cases {α : Type} (c : Chan α) (v : α) :
    (c.closed = true ∧ c.trySend v = (c, SendResult.panicClosed)) ∨
    (c.closed = false ∧ c.buf.length < c.cap ∧
      c.trySend v = ({ c with buf := c.buf ++ [v] }, SendResult.sent)) ∨
    (c.closed = false ∧ c.cap ≤ c.buf.length ∧ c.trySend v = (c, SendResult.wouldBlock)) := by
  unfold Chan.trySend
  by_cases hc : c.closed = true
  · left; simp [hc]
  · by_cases hl : c.buf.length < c.cap
    · right; left; simp [hc, hl]
    · right; right; simp [hc, hl]; omega

/-- `Add` unfolded along `normalizeURL` and the three ways the send can end. -/
theorem Add_spec (d : Dispatcher) (job : Job) :
    (normalizeURL job.URL = none ∧ d.Add job = (d, AddOutcome.emptyURL)) ∨
    (∃ u, normalizeURL job.URL = some u ∧ u ∈ d.visited ∧
      d.Add job = (d, AddOutcome.alreadyVisited)) ∨
    (∃ u, normalizeURL job.URL = some u ∧ u ∉ d.visited ∧ d.jobCh.closed = true ∧
      d.Add job = ({ d with visited := u :: d.visited },
        AddOutcome.panicked { job with URL := u })) ∨
    (∃ u, normalizeURL job.URL = some u ∧ u ∉ d.visited ∧ d.jobCh.closed = false ∧
      d.jobCh.buf.length < d.jobCh.cap ∧
      d.Add job = ({ d with visited := u :: d.visited,
                            jobCh := { d.jobCh with buf := d.jobCh.buf ++ [{ job with URL := u }] } },
        AddOutcome.enqueued { job with URL := u })) ∨
    (∃ u, normalizeURL job.URL = some u ∧ u ∉ d.visited ∧ d.jobCh.closed = false ∧
      d.jobCh.cap ≤ d.jobCh.buf.length ∧
      d.Add job = ({ d with visited := u :: d.visited },
        AddOutcome.dropped { job with URL := u })) := by
  unfold Dispatcher.Add normalizeURL
  by_cases he : TrimSpace job.URL = []
  · left; simp [he]
  · right
    simp only [he, if_false]
    generalize hu : (if (!HasPrefix (TrimSpace job.URL) "http://".toList &&
        !HasPrefix (TrimSpace job.URL) "https://".toList) = true
        then "http://".toList ++ TrimSpace job.URL else TrimSpace job.URL) = u
    have hn : (if (!HasPrefix (TrimSpace job.URL) "http://".toList &&
        !HasPrefix (TrimSpace job.URL) "https://".toList) = true
        then some ("http://".toList ++ TrimSpace job.URL) else some (TrimSpace job.URL)) = some u := by
      rw [← hu]; split <;> rfl
    rw [hn]
    by_cases hv : u ∈ d.visited
    · left; exact ⟨u, rfl, hv, by simp [hv]⟩
    · right
      simp only [hv, if_false]
      rcases Chan.trySend_cases d.jobCh { URL := u, Depth := job.Depth } with
        ⟨hc, hs⟩ | ⟨hc, hl, hs⟩ | ⟨hc, hl, hs⟩
      · left; exact ⟨u, rfl, hv, hc, by simp [hs]⟩
      · right; left; exact ⟨u, rfl, hv, hc, hl, by simp [hs]⟩
      · right; right; exact ⟨u, rfl, hv, hc, hl, by simp [hs]⟩

/-- One event keeps the URLs sent so far distinct and inside `visited`. -/
theorem RunState.step_inv (s : RunState) (op : Op)
    (hnd : (s.enqueued.map Job.URL).Nodup)
    (hvis : ∀ j ∈ s.enqueued, j.URL ∈ s.d.visited) :
    ((s.step op).enqueued.map Job.URL).Nodup ∧
    (∀ j ∈ (s.step op).enqueued, j.URL ∈ (s.step op).d.visited) := by
  unfold RunState.step
  by_cases hc : s.crashed = true
  · simp only [hc, if_true]; exact ⟨hnd, hvis⟩
  · have hc0 : s.crashed = false := by simpa using hc
    simp only [hc0, Bool.false_eq_true, if_false]
    cases op with
    | recv => exact ⟨hnd, hvis⟩
    | close => exact ⟨hnd, hvis⟩
    | add job =>
      rcases Add_spec s.d job with ⟨_, h⟩ | ⟨u, _, _, h⟩ | ⟨u, _, _, _, h⟩ |
        ⟨u, _, hv, _, _, h⟩ | ⟨u, _, _, _, _, h⟩
      · simp only [h]; exact ⟨hnd, hvis⟩
      · simp only [h]; exact ⟨hnd, hvis⟩
      · simp only [h]
        exact ⟨hnd, fun j hj => List.mem_cons_of_mem _ (hvis j hj)⟩
      · simp only [h]
        constructor
        · rw [List.map_append, List.nodup_append]
          refine ⟨hnd, by simp, ?_⟩
          intro a ha hb
          simp only [List.map_cons, List.map_nil, List.mem_singleton] at hb
          rcases List.mem_map.mp ha with ⟨j, hj, rfl⟩
          exact hv (hb ▸ hvis j hj)
        · intro j hj
          rcases List.mem_append.mp hj with hj | hj
          · exact List.mem_cons_of_mem _ (hvis j hj)
          · simp only [List.mem_singleton] at hj
            subst hj
            exact List.mem_cons_self _ _
      · simp only [h]
        exact ⟨hnd, fun j hj => List.mem_cons_of_mem _ (hvis j hj)⟩

/-- A sequence of events keeps the URLs sent so far distinct and inside `visited`. -/
theorem RunState.run_inv (ops : List Op) : ∀ (s : RunState),
    (s.enqueued.map Job.URL).Nodup → (∀ j ∈ s.enqueued, j.URL ∈ s.d.visited) →
    ((s.run ops).enqueued.map Job.URL).Nodup ∧
    (∀ j ∈ (s.run ops).enqueued, j.URL ∈ (s.run ops).d.visited) := by
  induction ops with
  | nil => intro s hnd hvis; exact ⟨hnd, hvis⟩
  | cons op ops ih =>
    intro s hnd hvis
    have h := RunState.step_inv s op hnd hvis
    exact ih (s.step op) h.1 h.2

/-- After `Add` the normalised URL of the job is in `visited`. -/
theorem Add_visited (d : Dispatcher) (job : Job) (u : List Char)
    (hu : normalizeURL job.URL = some u) : u ∈ (d.Add job).1.visited := by
  rcases Add_spec d job with ⟨h0, _⟩ | ⟨v, hv, hm, h⟩ | ⟨v, hv, _, _, h⟩ |
    ⟨v, hv, _, _, _, h⟩ | ⟨v, hv, _, _, _, h⟩
  · rw [hu] at h0; cases h0
  all_goals
    rw [hu] at hv
    cases hv
    rw [h]
    first
      | exact hm
      | exact List.mem_cons_self _ _

/-- C1: over any sequence of `Add` calls (interleaved at will with worker
receives and the closing of the queue) that starts from a fresh dispatcher, no
URL is sent on the job queue twice; and whatever the dispatcher state, a job
whose URL normalises to the same string as that of a job added before is not
enqueued. -/
theorem add_enqueues_each_url_at_most_once
    (workers maxG : Int) (followExternal enableJS : Bool) (imageDir svgRasterCmd : List Char) :
    (∀ ops : List Op,
      (((RunState.start (NewDispatcher workers maxG followExternal enableJS imageDir
          svgRasterCmd)).run ops).enqueued.map Job.URL).Nodup) ∧
    (∀ (d : Dispatcher) (first second : Job),
      normalizeURL second.URL = normalizeURL first.URL →
      ∀ j : Job, ((d.Add first).1.Add second).2 ≠ AddOutcome.enqueued j) := by
  constructor
  · intro ops
    exact (RunState.run_inv ops _ (by simp [RunState.start]) (by simp [RunState.start])).1
  · intro d first second heq j hj
    rcases Add_spec (d.Add first).1 second with ⟨_, h⟩ | ⟨u, _, _, h⟩ | ⟨u, _, _, _, h⟩ |
      ⟨u, hu, hv, _, _, h⟩ | ⟨u, _, _, _, _, h⟩
    · rw [h] at hj; cases hj
    · rw [h] at hj; cases hj
    · rw [h] at hj; cases hj
    · exact hv (Add_visited d first u (heq ▸ hu))
    · rw [h] at hj; cases hj

/-- Witness of C1: `example.com` submitted three times in equivalent forms is
sent on the queue once. -/
theorem add_enqueues_each_url_at_most_once_witness :
    (((RunState.start (NewDispatcher 10 200 false true "images".toList [])).run
        [Op.add ⟨"example.com".toList, 0⟩, Op.add ⟨" http://example.com ".toList, 1⟩,
         Op.recv, Op.add ⟨"example.com".toList, 2⟩]).enqueued.map Job.URL).Nodup ∧
    ((RunState.start (NewDispatcher 10 200 false true "images".toList [])).run
        [Op.add ⟨"example.com".toList, 0⟩, Op.add ⟨" http://example.com ".toList, 1⟩,
         Op.recv, Op.add ⟨"example.com".toList, 2⟩]).enqueued
      = [⟨"http://example.com".toList, 0⟩] ∧
    normalizeURL " http://example.com ".toList = normalizeURL "example.com".toList ∧
    (∀ j : Job,
      (((NewDispatcher 10 200 false true "images".toList []).Add
          ⟨"example.com".toList, 0⟩).1.Add ⟨" http://example.com ".toList, 1⟩).2
        ≠ AddOutcome.enqueued j) :=
  ⟨(add_enqueues_each_url_at_most_once 10 200 false true "images".toList []).1 _,
   by decide, by decide,
   (add_enqueues_each_url_at_most_once 10 200 false true "images".toList []).2
     (NewDispatcher 10 200 false true "images".toList [])
     ⟨"example.com".toList, 0⟩ ⟨" http://example.com ".toList, 1⟩ (by decide)⟩

/-- C2: `Add` on a dispatcher whose job queue `Run` has already closed panics
for a URL not seen before (`send on closed channel`), so a run in which a
worker or `main` calls `Add` after the cancellation crashes.  While the queue
is open `Add` never panics, and with the queue at capacity the job is not
enqueued and the queue is left as it was. -/
theorem add_panics_once_queue_closed :
    (({ NewDispatcher 10 200 false true "images".toList [] with
          jobCh := (Chan.make 1000).close }).Add ⟨"example.com".toList, 0⟩).2
      = AddOutcome.panicked ⟨"http://example.com".toList, 0⟩ ∧
    ((RunState.start (NewDispatcher 10 200 false true "images".toList [])).run
        [Op.close, Op.add ⟨"example.com".toList, 0⟩]).crashed = true ∧
    (∀ (d : Dispatcher) (job : Job) (u : List Char), d.jobCh.closed = true →
      normalizeURL job.URL = some u → u ∉ d.visited →
      (d.Add job).2 = AddOutcome.panicked ⟨u, job.Depth⟩) ∧
    (∀ (d : Dispatcher) (job : Job), d.jobCh.closed = false →
      (∀ j : Job, (d.Add job).2 ≠ AddOutcome.panicked j) ∧
      (d.jobCh.cap ≤ d.jobCh.buf.length →
        (d.Add job).1.jobCh = d.jobCh ∧ ∀ j : Job, (d.Add job).2 ≠ AddOutcome.enqueued j)) := by
  refine ⟨by decide, by decide, ?_, ?_⟩
  · intro d job u hc hu hv
    rcases Add_spec d job with ⟨h0, _⟩ | ⟨v, h1, hm, _⟩ | ⟨v, h1, _, _, h⟩ |
      ⟨v, _, _, hc1, _, _⟩ | ⟨v, _, _, hc1, _, _⟩
    · rw [hu] at h0; cases h0
    · rw [hu] at h1; cases h1; exact absurd hm hv
    · rw [hu] at h1; cases h1; rw [h]
    · rw [hc] at hc1; cases hc1
    · rw [hc] at hc1; cases hc1
  · intro d job hc
    rcases Add_spec d job with ⟨_, h⟩ | ⟨v, _, _, h⟩ | ⟨v, _, _, hc1, _⟩ |
      ⟨v, _, _, _, hl, h⟩ | ⟨v, _, _, _, _, h⟩
    · rw [h]; exact ⟨fun j hj => (by cases hj), fun _ => ⟨rfl, fun j hj => (by cases hj)⟩⟩
    · rw [h]; exact ⟨fun j hj => (by cases hj), fun _ => ⟨rfl, fun j hj => (by cases hj)⟩⟩
    · rw [hc] at hc1; cases hc1
    · rw [h]
      exact ⟨fun j hj => (by cases hj), fun hfull => absurd hl (Nat.not_lt.mpr hfull)⟩
    · rw [h]; exact ⟨fun j hj => (by cases hj), fun _ => ⟨rfl, fun j hj => (by cases hj)⟩⟩

/-- Witness of C2: on a fresh dispatcher (queue open and empty) `Add` does not
panic, and on a closed queue it panics for an unseen URL. -/
theorem add_panics_once_queue_closed_witness :
    (∀ j : Job, ((NewDispatcher 10 200 false true "images".toList []).Add
        ⟨"example.com".toList, 0⟩).2 ≠ AddOutcome.panicked j) ∧
    (({ NewDispatcher 10 200 false true "images".toList [] with
          jobCh := (Chan.make 1000).close }).Add ⟨"a.test".toList, 3⟩).2
      = AddOutcome.panicked ⟨"http://a.test".toList, 3⟩ :=
  ⟨(add_panics_once_queue_closed.2.2.2 (NewDispatcher 10 200 false true "images".toList [])
      ⟨"example.com".toList, 0⟩ (by decide)).1,
   add_panics_once_queue_closed.2.2.1 _ ⟨"a.test".toList, 3⟩ "http://a.test".toList
      (by decide) (by decide) (by decide)⟩

/-- C3 as stated fails: `ftp://example.com` carries a scheme, yet `Add` files
and enqueues it as `http://ftp://example.com`. -/
theorem add_keeps_url_with_scheme_counterexample :
    ¬ (∀ (d : Dispatcher) (job : Job), TrimSpace job.URL ≠ [] →
        ∀ j : Job, (d.Add job).2 = AddOutcome.enqueued j →
          (hasScheme (TrimSpace job.URL) = true → j.URL = TrimSpace job.URL) ∧
          (j.URL = "http://".toList ++ TrimSpace job.URL ↔
            hasScheme (TrimSpace job.URL) = false)) := by
  intro h
  have h1 := h (NewDispatcher 10 200 false true "images".toList [])
    ⟨"ftp://example.com".toList, 0⟩ (by decide)
    ⟨"http://ftp://example.com".toList, 0⟩ (by decide)
  exact absurd (h1.1 (by decide)) (by decide)

/-- C3, amended: for a job whose trimmed URL `t` is not empty, the URL that
`Add` files in `visited` and puts on the enqueued job is `t` unchanged when `t`
starts with `http://` or `https://`, and `http://` followed by `t` in every
other case.  `visited` gains that URL and nothing else, the depth is kept, and
on an open queue with room a URL not yet visited is enqueued. -/
theorem add_normalises_by_http_prefix (d : Dispatcher) (job : Job)
    (hne : TrimSpace job.URL ≠ []) :
    ∃ u : List Char,
      u = (if HasPrefix (TrimSpace job.URL) "http://".toList ||
              HasPrefix (TrimSpace job.URL) "https://".toList
           then TrimSpace job.URL else "http://".toList ++ TrimSpace job.URL) ∧
      (∀ x, x ∈ (d.Add job).1.visited ↔ x = u ∨ x ∈ d.visited) ∧
      (∀ j : Job, (d.Add job).2 = AddOutcome.enqueued j → j = ⟨u, job.Depth⟩) ∧
      (u ∉ d.visited → d.jobCh.closed = false → d.jobCh.buf.length < d.jobCh.cap →
        (d.Add job).2 = AddOutcome.enqueued ⟨u, job.Depth⟩ ∧
        (d.Add job).1.jobCh.buf = d.jobCh.buf ++ [⟨u, job.Depth⟩]) := by
  have hn : normalizeURL job.URL = some
      (if HasPrefix (TrimSpace job.URL) "http://".toList ||
              HasPrefix (TrimSpace job.URL) "https://".toList
           then TrimSpace job.URL else "http://".toList ++ TrimSpace job.URL) := by
    unfold normalizeURL
    simp only [hne, if_false]
    cases HasPrefix (TrimSpace job.URL) "http://".toList <;>
      cases HasPrefix (TrimSpace job.URL) "https://".toList <;> simp
  refine ⟨_, rfl, ?_⟩
  generalize (if HasPrefix (TrimSpace job.URL) "http://".toList ||
              HasPrefix (TrimSpace job.URL) "https://".toList
           then TrimSpace job.URL else "http://".toList ++ TrimSpace job.URL) = u at hn
  rcases Add_spec d job with ⟨h0, _⟩ | ⟨v, h1, hm, h⟩ | ⟨v, h1, hv, hc, h⟩ |
    ⟨v, h1, hv, hc, hl, h⟩ | ⟨v, h1, hv, hc, hl, h⟩
  · rw [hn] at h0; cases h0
  all_goals
    rw [hn] at h1
    cases h1
    rw [h]
  · refine ⟨fun x => ⟨fun hx => Or.inr hx, fun hx => ?_⟩, fun j hj => (by cases hj),
      fun hv => absurd hm hv⟩
    rcases hx with rfl | hx
    · exact hm
    · exact hx
  · refine ⟨fun x => (by simp), fun j hj => (by cases hj), fun _ hc0 => ?_⟩
    rw [hc] at hc0; cases hc0
  · refine ⟨fun x => (by simp), fun j hj => (by cases hj; rfl), fun _ _ _ => ⟨rfl, rfl⟩⟩
  · refine ⟨fun x => (by simp), fun j hj => (by cases hj), fun _ _ hl0 => ?_⟩
    exact absurd hl0 (Nat.not_lt.mpr hl)

/-- Witness of C3 amended: ` example.com ` is filed as `http://example.com`. -/
theorem add_normalises_by_http_prefix_witness :
    TrimSpace " example.com ".toList ≠ [] ∧
    ∃ u : List Char,
      u = (if HasPrefix (TrimSpace " example.com ".toList) "http://".toList ||
              HasPrefix (TrimSpace " example.com ".toList) "https://".toList
           then TrimSpace " example.com ".toList
           else "http://".toList ++ TrimSpace " example.com ".toList) ∧
      (∀ x, x ∈ ((NewDispatcher 10 200 false true "images".toList []).Add
          ⟨" example.com ".toList, 0⟩).1.visited ↔
        x = u ∨ x ∈ (NewDispatcher 10 200 false true "images".toList []).visited) ∧
      (∀ j : Job, ((NewDispatcher 10 200 false true "images".toList []).Add
          ⟨" example.com ".toList, 0⟩).2 = AddOutcome.enqueued j → j = ⟨u, 0⟩) ∧
      (u ∉ (NewDispatcher 10 200 false true "images".toList []).visited →
        (NewDispatcher 10 200 false true "images".toList []).jobCh.closed = false →
        (NewDispatcher 10 200 false true "images".toList []).jobCh.buf.length <
          (NewDispatcher 10 200 false true "images".toList []).jobCh.cap →
        ((NewDispatcher 10 200 false true "images".toList []).Add
          ⟨" example.com ".toList, 0⟩).2 = AddOutcome.enqueued ⟨u, 0⟩ ∧
        ((NewDispatcher 10 200 false true "images".toList []).Add
          ⟨" example.com ".toList, 0⟩).1.jobCh.buf =
          (NewDispatcher 10 200 false true "images".toList []).jobCh.buf ++ [⟨u, 0⟩]) :=
  ⟨by decide, add_normalises_by_http_prefix (NewDispatcher 10 200 false true "images".toList [])
    ⟨" example.com ".toList, 0⟩ (by decide)⟩

/-! ## Thumbnails: dimensions -/

theorem wrapInt_of_range (n : Int) (h0 : -2 ^ 63 ≤ n) (h1 : n < 2 ^ 63) : wrapInt n = n := by
  unfold wrapInt
  rw [Int.emod_eq_of_lt (by omega) (by omega)]
  omega

theorem Image.Set_Bounds (p : Image) (x y : Int) (c : Color) :
    (p.Set x y c).Bounds = p.Bounds := by
  unfold Image.Set
  split <;> rfl

theorem scaleRow_Bounds (img : Image) (w h newW newH y : Int) (newImg : Image) :
    (scaleRow img w h newW newH y newImg).Bounds = newImg.Bounds := by
  unfold scaleRow
  generalize List.range newW.toNat = xs
  induction xs generalizing newImg with
  | nil => rfl
  | cons x xs ih => rw [List.foldl_cons, ih, Image.Set_Bounds]

theorem scaleRows_Bounds (img : Image) (w h newW newH : Int) (newImg : Image) :
    (scaleRows img w h newW newH newImg).Bounds = newImg.Bounds := by
  unfold scaleRows
  generalize List.range newH.toNat = ys
  induction ys generalizing newImg with
  | nil => rfl
  | cons y ys ih => rw [List.foldl_cons, ih, scaleRow_Bounds]

/-- The height `newH := (newW * h) / w` computed by `makeThumbnail` for an
image wider than the maximum whose pixels can be counted in an `int`. -/
theorem newH_eq (w h : Int) (hw : 200 < w) (hh : 0 ≤ h) (hmem : w * h < 2 ^ 63) :
    divInt (mulInt 200 h) w = 200 * h / w := by
  have h200 : 200 * h ≤ w * h := Int.mul_le_mul_of_nonneg_right (le_of_lt hw) hh
  have hnn : (0 : Int) ≤ 200 * h := by omega
  have hm : mulInt 200 h = 200 * h := wrapInt_of_range _ (by omega) (by omega)
  unfold divInt
  rw [hm, Int.tdiv_eq_ediv hnn (by omega)]
  have hq0 : 0 ≤ 200 * h / w := Int.ediv_nonneg hnn (by omega)
  have hq1 : 200 * h / w ≤ 200 * h := Int.ediv_le_self _ hnn
  exact wrapInt_of_range _ (by omega) (by omega)

/-- C4: for a decoded image of width `w > 200` and height `h` (with `w * h`
pixels, a number that fits an `int`), `makeThumbnail` hands the PNG encoder an
image of width exactly 200 and height `floor(200 * h / w)`, which is less than
one pixel below the exact proportional height: `w * H ≤ 200 * h < w * (H + 1)`. -/
theorem makeThumbnail_wide_dimensions (io : ImageEnv) (r : List UInt8) (outpath : List Char)
    (img : Image) (hdec : io.Decode r = some img)
    (hw : MaxThumbnailWidth < img.Bounds.Dx) (hh : 0 ≤ img.Bounds.Dy)
    (hmem : img.Bounds.Dx * img.Bounds.Dy < 2 ^ 63)
    (hcreate : io.Create outpath = true) :
    ∃ t : Image, makeThumbnail io r outpath = ThumbnailResult.encoded t (io.Encode t) ∧
      t.Bounds.Dx = 200 ∧
      t.Bounds.Dy = 200 * img.Bounds.Dy / img.Bounds.Dx ∧
      img.Bounds.Dx * t.Bounds.Dy ≤ 200 * img.Bounds.Dy ∧
      200 * img.Bounds.Dy < img.Bounds.Dx * (t.Bounds.Dy + 1) := by
  have hw200 : 200 < img.Bounds.Dx := hw
  have hH := newH_eq img.Bounds.Dx img.Bounds.Dy hw200 hh hmem
  have hpos : 0 < img.Bounds.Dx := by omega
  have hq0 : 0 ≤ 200 * img.Bounds.Dy / img.Bounds.Dx := Int.ediv_nonneg (by omega) (by omega)
  have hnot : ¬ img.Bounds.Dx ≤ MaxThumbnailWidth := not_le.mpr hw
  refine ⟨scaleRows img img.Bounds.Dx img.Bounds.Dy MaxThumbnailWidth
      (divInt (mulInt MaxThumbnailWidth img.Bounds.Dy) img.Bounds.Dx)
      (NewRGBA (Rect 0 0 MaxThumbnailWidth
        (divInt (mulInt MaxThumbnailWidth img.Bounds.Dy) img.Bounds.Dx))), ?_, ?_⟩
  · unfold makeThumbnail
    simp only [hdec, hnot, if_false, hcreate, if_true]
  · rw [scaleRows_Bounds]
    have hM : MaxThumbnailWidth = 200 := rfl
    rw [hM, hH]
    have hb : (NewRGBA (Rect 0 0 200 (200 * img.Bounds.Dy / img.Bounds.Dx))).Bounds =
        { Min := ⟨0, 0⟩, Max := ⟨200, 200 * img.Bounds.Dy / img.Bounds.Dx⟩ } := by
      unfold NewRGBA Rect
      have h1 : ¬ ((0 : Int) > 200) := by omega
      have h2 : ¬ ((0 : Int) > 200 * img.Bounds.Dy / img.Bounds.Dx) := by omega
      simp only [h1, h2, if_false]
    rw [hb]
    refine ⟨by simp [Rectangle.Dx], by simp [Rectangle.Dy], ?_, ?_⟩
    · simp only [Rectangle.Dy, sub_zero]
      exact Int.mul_ediv_self_le (by omega)
    · simp only [Rectangle.Dy, sub_zero]
      have := Int.lt_mul_ediv_self_add (x := 200 * (img.Bounds.Max.Y - img.Bounds.Min.Y)) hpos
      rw [mul_add, mul_one]
      exact this

/-- C5: for a decoded image of width at most 200, `makeThumbnail` hands the PNG
encoder the decoded image itself, so the output has the input's width and
height. -/
theorem makeThumbnail_narrow_unscaled (io : ImageEnv) (r : List UInt8) (outpath : List Char)
    (img : Image) (hdec : io.Decode r = some img)
    (hw : img.Bounds.Dx ≤ MaxThumbnailWidth) (hcreate : io.Create outpath = true) :
    makeThumbnail io r outpath = ThumbnailResult.encoded img (io.Encode img) ∧
    ∃ t : Image, makeThumbnail io r outpath = ThumbnailResult.encoded t (io.Encode t) ∧
      t.Bounds.Dx = img.Bounds.Dx ∧ t.Bounds.Dy = img.Bounds.Dy ∧ t.At = img.At := by
  have h : makeThumbnail io r outpath = ThumbnailResult.encoded img (io.Encode img) := by
    unfold makeThumbnail
    simp only [hdec, hw, if_true, hcreate]
  exact ⟨h, img, h, rfl, rfl, rfl⟩

/-- Witness of C4: a 400 x 300 image gives a 200 x 150 thumbnail. -/
theorem makeThumbnail_wide_dimensions_witness :
    MaxThumbnailWidth < (blankImage 400 300).Bounds.Dx ∧
    ∃ t : Image,
      makeThumbnail (constEnv (blankImage 400 300)) [] "a.png.thumb.png".toList =
        ThumbnailResult.encoded t true ∧
      t.Bounds.Dx = 200 ∧ t.Bounds.Dy = 150 := by
  obtain ⟨t, h1, h2, h3, _, _⟩ :=
    makeThumbnail_wide_dimensions (constEnv (blankImage 400 300)) [] "a.png.thumb.png".toList
      (blankImage 400 300) rfl (by decide) (by decide) (by decide) rfl
  exact ⟨by decide, t, h1, h2, by rw [h3]; decide⟩

/-- Witness of C5: a 120 x 80 image is encoded as it is. -/
theorem makeThumbnail_narrow_unscaled_witness :
    (blankImage 120 80).Bounds.Dx ≤ MaxThumbnailWidth ∧
    makeThumbnail (constEnv (blankImage 120 80)) [] "a.png.thumb.png".toList =
      ThumbnailResult.encoded (blankImage 120 80) true ∧
    (blankImage 120 80).Bounds.Dx = 120 ∧ (blankImage 120 80).Bounds.Dy = 80 :=
  ⟨by decide,
   (makeThumbnail_narrow_unscaled (constEnv (blankImage 120 80)) [] "a.png.thumb.png".toList
      (blankImage 120 80) rfl (by decide) rfl).1,
   by decide, by decide⟩

/-! ## Unique file names: when the probe loop returns -/

theorem itoaLoop_eq (n : Nat) : ∀ (fuel : Nat) (acc : List Char), n < fuel →
    itoaLoop fuel n acc = itoa n ++ acc := by
  induction n using Nat.strong_induction_on with
  | _ n ih =>
    intro fuel acc hf
    cases fuel with
    | zero => omega
    | succ f =>
      by_cases h10 : n < 10
      · simp [itoa, itoaLoop, h10]
      · have hdiv : n / 10 < n := Nat.div_lt_self (by omega) (by omega)
        have e1 : itoaLoop (f + 1) n acc = itoa (n / 10) ++ digitChar (n % 10) :: acc := by
          rw [itoaLoop, if_neg h10]
          exact ih (n / 10) hdiv f _ (by omega)
        have e2 : itoa n = itoa (n / 10) ++ [digitChar (n % 10)] := by
          show itoaLoop (n + 1) n [] = _
          rw [itoaLoop, if_neg h10]
          exact ih (n / 10) hdiv n _ hdiv
        rw [e1, e2, List.append_assoc]
        rfl

theorem itoa_small (n : Nat) (h : n < 10) : itoa n = [digitChar n] := by
  simp [itoa, itoaLoop, h]

theorem itoa_large (n : Nat) (h : ¬ n < 10) :
    itoa n = itoa (n / 10) ++ [digitChar (n % 10)] := by
  show itoaLoop (n + 1) n [] = _
  rw [itoaLoop, if_neg h]
  exact itoaLoop_eq (n / 10) n _ (Nat.div_lt_self (by omega) (by omega))

theorem itoa_ne_nil (n : Nat) : itoa n ≠ [] := by
  by_cases h : n < 10
  · rw [itoa_small n h]; simp
  · rw [itoa_large n h]; simp

theorem digitChar_inj : ∀ a < 10, ∀ b < 10, digitChar a = digitChar b → a = b := by
  decide

theorem itoa_injective (n : Nat) : ∀ m : Nat, itoa n = itoa m → n = m := by
  induction n using Nat.strong_induction_on with
  | _ n ih =>
    intro m h
    by_cases hn : n < 10
    · by_cases hm : m < 10
      · rw [itoa_small n hn, itoa_small m hm] at h
        exact digitChar_inj n hn m hm (List.singleton_inj.mp h)
      · rw [itoa_small n hn, itoa_large m hm] at h
        have hl := congrArg List.length h
        have := List.length_pos.mpr (itoa_ne_nil (m / 10))
        simp only [List.length_append, List.length_singleton] at hl
        omega
    · by_cases hm : m < 10
      · rw [itoa_large n hn, itoa_small m hm] at h
        have hl := congrArg List.length h
        have := List.length_pos.mpr (itoa_ne_nil (n / 10))
        simp only [List.length_append, List.length_singleton] at hl
        omega
      · rw [itoa_large n hn, itoa_large m hm] at h
        have hlen : (itoa (n / 10) ++ [digitChar (n % 10)]).length =
            (itoa (m / 10) ++ [digitChar (m % 10)]).length := congrArg List.length h
        simp only [List.length_append, List.length_singleton, add_left_inj] at hlen
        have h1 := List.append_inj_left h hlen
        have h2 := List.append_inj_right h hlen
        have hq := ih (n / 10) (Nat.div_lt_self (by omega) (by omega)) (m / 10) h1
        have hr := digitChar_inj (n % 10) (Nat.mod_lt _ (by omega)) (m % 10)
          (Nat.mod_lt _ (by omega)) (List.singleton_inj.mp h2)
        omega

theorem TrimSuffix_length (s suffix : List Char) :
    s.length ≤ (TrimSuffix s suffix).length + suffix.length := by
  unfold TrimSuffix
  split
  · simp only [List.length_take]; omega
  · omega

/-- Distinct rounds of `uniqueFilename` probe distinct names. -/
theorem candidate_injective (fname : List Char) (i j : Nat)
    (h : candidate fname i = candidate fname j) : i = j := by
  have hlen := TrimSuffix_length fname (Ext fname)
  unfold candidate at h
  by_cases hi : i > 0 <;> by_cases hj : j > 0
  · simp only [hi, hj, if_true] at h
    simp only [List.append_assoc, List.append_cancel_left_eq] at h
    exact itoa_injective i j (List.append_cancel_right h)
  · simp only [hi, hj, if_true, if_false] at h
    have hl := congrArg List.length h
    have := List.length_pos.mpr (itoa_ne_nil i)
    simp only [List.length_append, List.length_singleton] at hl
    omega
  · simp only [hi, hj, if_true, if_false] at h
    have hl := congrArg List.length h
    have := List.length_pos.mpr (itoa_ne_nil j)
    simp only [List.length_append, List.length_singleton] at hl
    omega
  · omega

/-- `os.IsNotExist` holds of a name in a directory exactly when `os.Stat` does
not fail on the name and the directory does not hold it. -/
theorem dirStat_IsNotExist (statFails : List Char → Bool) (existing : List (List Char))
    (name : List Char) :
    (dirStat statFails existing name).IsNotExist = true ↔
      statFails name = false ∧ name ∉ existing := by
  unfold dirStat
  by_cases hf : statFails name = true
  · rw [if_pos hf]
    simp [StatResult.IsNotExist, hf]
  · have hf2 : statFails name = false := by simpa using hf
    rw [if_neg hf]
    by_cases hm : name ∈ existing
    · rw [if_pos hm]
      simp [StatResult.IsNotExist, hm]
    · rw [if_neg hm]
      simp [StatResult.IsNotExist, hm, hf2]

/-- The probe loop returns as soon as `os.Stat` reports one of the next `fuel`
names as not existing. -/
theorem uniqueFilenameLoop_finds (Stat : List Char → StatResult) (fname : List Char) :
    ∀ (fuel i : Nat), (∃ k, k < fuel ∧ (Stat (candidate fname (i + k))).IsNotExist = true) →
      ∃ r, uniqueFilenameLoop Stat fname fuel i = some r ∧ (Stat r).IsNotExist = true := by
  intro fuel
  induction fuel with
  | zero => rintro i ⟨k, hk, _⟩; omega
  | succ f ih =>
    rintro i ⟨k, hk, hc⟩
    by_cases h0 : (Stat (candidate fname i)).IsNotExist = true
    · exact ⟨candidate fname i, by rw [uniqueFilenameLoop, if_pos h0], h0⟩
    · rw [uniqueFilenameLoop, if_neg h0]
      cases k with
      | zero => exact absurd hc h0
      | succ k =>
        refine ih (i + 1) ⟨k, by omega, ?_⟩
        have e : i + 1 + k = i + (k + 1) := by omega
        rw [e]
        exact hc

/-- More rounds do not change a result already found. -/
theorem uniqueFilenameLoop_mono (Stat : List Char → StatResult) (fname : List Char) :
    ∀ (fuel extra i : Nat) (r : List Char), uniqueFilenameLoop Stat fname fuel i = some r →
      uniqueFilenameLoop Stat fname (fuel + extra) i = some r := by
  intro fuel
  induction fuel with
  | zero => intro extra i r h; simp [uniqueFilenameLoop] at h
  | succ f ih =>
    intro extra i r h
    have e : f + 1 + extra = (f + extra) + 1 := by omega
    rw [e, uniqueFilenameLoop]
    rw [uniqueFilenameLoop] at h
    by_cases h0 : (Stat (candidate fname i)).IsNotExist = true
    · rw [if_pos h0] at h ⊢; exact h
    · rw [if_neg h0] at h ⊢; exact ih extra (i + 1) r h

/-- When `os.IsNotExist` holds of no candidate, the probe loop uses up every
number of rounds without returning. -/
theorem uniqueFilenameLoop_none (Stat : List Char → StatResult) (fname : List Char)
    (hall : ∀ i, (Stat (candidate fname i)).IsNotExist = false) :
    ∀ (fuel i : Nat), uniqueFilenameLoop Stat fname fuel i = none := by
  intro fuel
  induction fuel with
  | zero => intro i; rfl
  | succ f ih =>
    intro i
    rw [uniqueFilenameLoop, if_neg (by rw [hall i]; decide)]
    exact ih (i + 1)

/-- No candidate is shorter than the file name it comes from. -/
theorem candidate_length (fname : List Char) (i : Nat) :
    fname.length ≤ (candidate fname i).length := by
  have hlen := TrimSuffix_length fname (Ext fname)
  unfold candidate
  by_cases hi : i > 0
  · simp only [hi, if_true, List.length_append, List.length_singleton]
    omega
  · simp only [hi, if_false]
    exact le_refl _

/-- Among the first `existing.length + 1` names probed, one is unused. -/
theorem exists_unused_candidate (existing : List (List Char)) (fname : List Char) :
    ∃ k, k < existing.length + 1 ∧ candidate fname k ∉ existing := by
  by_contra hcon
  have hall : ∀ k, k < existing.length + 1 → candidate fname k ∈ existing := by
    intro k hk
    by_contra hk2
    exact hcon ⟨k, hk, hk2⟩
  have hnd : ((List.range (existing.length + 1)).map (candidate fname)).Nodup :=
    List.Nodup.map (fun a b hab => candidate_injective fname a b hab) (List.nodup_range _)
  have hsub : (List.range (existing.length + 1)).map (candidate fname) ⊆ existing := by
    intro x hx
    rcases List.mem_map.mp hx with ⟨k, hk, rfl⟩
    exact hall k (List.mem_range.mp hk)
  have hle := (List.subperm_of_subset hnd hsub).length_le
  simp at hle

/-- Where `os.Stat` fails on no candidate, `uniqueFilename` terminates within
`existing.length + 1` rounds of its loop, with a name that is not among the
existing ones; the name does not depend on the number of rounds allowed. -/
theorem uniqueFilename_terminates_where_stat_answers (statFails : List Char → Bool)
    (existing : List (List Char)) (fname : List Char)
    (hstat : ∀ i, statFails (candidate fname i) = false) :
    ∃ r : List Char,
      (∀ fuel, existing.length + 1 ≤ fuel →
        uniqueFilename (dirStat statFails existing) fname fuel = some r) ∧
      (∀ fuel r1, uniqueFilename (dirStat statFails existing) fname fuel = some r1 → r1 = r) ∧
      r ∉ existing := by
  obtain ⟨k, hk, hc⟩ := exists_unused_candidate existing fname
  obtain ⟨r, hr, hfresh⟩ := uniqueFilenameLoop_finds (dirStat statFails existing) fname
    (existing.length + 1) 0
    ⟨k, hk, (dirStat_IsNotExist _ _ _).mpr ⟨hstat _, by simpa using hc⟩⟩
  refine ⟨r, ?_, ?_, ((dirStat_IsNotExist _ _ _).mp hfresh).2⟩
  · intro fuel hf
    have := uniqueFilenameLoop_mono (dirStat statFails existing) fname (existing.length + 1)
      (fuel - (existing.length + 1)) 0 r hr
    have e : existing.length + 1 + (fuel - (existing.length + 1)) = fuel := by omega
    rw [e] at this
    exact this
  · intro fuel r1 h1
    have a := uniqueFilenameLoop_mono (dirStat statFails existing) fname fuel
      (existing.length + 1) 0 r1 h1
    have b := uniqueFilenameLoop_mono (dirStat statFails existing) fname (existing.length + 1)
      fuel 0 r hr
    rw [Nat.add_comm] at b
    unfold uniqueFilename at h1
    rw [a] at b
    exact Option.some.inj b

/-- For the file name of 300 bytes no number of rounds gives a result, whatever
the directory holds: `os.Stat` fails on every candidate. -/
theorem uniqueFilename_longName_none (existing : List (List Char)) (fuel : Nat) :
    uniqueFilename (dirStat nameTooLong existing) (List.replicate 300 'a') fuel = none := by
  refine uniqueFilenameLoop_none _ _ (fun i => ?_) fuel 0
  have hlen := candidate_length (List.replicate 300 'a') i
  rw [List.length_replicate] at hlen
  have hlong : nameTooLong (candidate (List.replicate 300 'a') i) = true := by
    unfold nameTooLong
    exact decide_eq_true (by omega)
  unfold dirStat
  rw [if_pos hlong]
  rfl

theorem Base_longName : Base ('/' :: List.replicate 300 'a') = List.replicate 300 'a' := by
  set_option maxRecDepth 100000 in decide

theorem longNameParse_self :
    longNameParse longNameURL
      = some (plainURL "http".toList "example.com".toList ('/' :: List.replicate 300 'a')) := by
  unfold longNameParse
  exact if_pos rfl

/-- For the image at `longNameURL` the call of `processImage` does not return:
the download succeeds, the file name is the path segment of 300 bytes, and
`uniqueFilename` uses up every number of rounds. -/
theorem processImage_longName (existing : List (List Char)) (fuel : Nat) :
    exampleDispatcher.processImage longNameWorld existing ⟨longNameURL, [], []⟩
      (plainURL "http".toList "example.com".toList "/".toList) fuel = none := by
  have hparse : longNameWorld.url.Parse longNameURL
      = some (plainURL "http".toList "example.com".toList ('/' :: List.replicate 300 'a')) := by
    set_option maxRecDepth 100000 in exact longNameParse_self
  have hscheme : ¬ (plainURL "http".toList "example.com".toList
      ('/' :: List.replicate 300 'a')).Scheme = [] := fun h => by cases h
  have hpath : (plainURL "http".toList "example.com".toList
      ('/' :: List.replicate 300 'a')).Path = '/' :: List.replicate 300 'a' := rfl
  have hget : ∀ u, longNameWorld.imageGet u = HttpResult.response 200 (some []) := fun _ => rfl
  have hstat : longNameWorld.statFails = nameTooLong := rfl
  have hb : ¬ (List.replicate 300 'a' = [] ∨ List.replicate 300 'a' = ['/'] ∨
      List.replicate 300 'a' = ['.']) := by
    intro h
    rcases h with h | h | h <;> cases h
  unfold Dispatcher.processImage
  simp only [hparse, if_neg hscheme, hget, hpath, Base_longName, if_neg hb, hstat,
    uniqueFilename_longName_none]
  rw [if_neg (by decide)]

/-- C6: `uniqueFilename` does not terminate for every file name.  Its loop
returns only when `os.IsNotExist` holds of the error of `os.Stat`; when
`os.Stat` fails in another way on every candidate, no number of rounds gives a
result.  So it is for a file name of 300 bytes, whatever the directory holds:
every candidate is at least as long, and `os.Stat` fails on names of more than
255 bytes; `processImage` hands such a name to `uniqueFilename` for an image
whose address ends in a path segment of 300 bytes, and does not return either.
Where `os.Stat` fails on no candidate the loop does terminate, within one round
more than there are files, with a name that the directory does not hold. -/
theorem uniqueFilename_stat_error_never_returns :
    (∀ (Stat : List Char → StatResult) (fname : List Char),
      (∀ i, (Stat (candidate fname i)).IsNotExist = false) →
      ∀ fuel, uniqueFilename Stat fname fuel = none) ∧
    (∀ (existing : List (List Char)) (fuel : Nat),
      uniqueFilename (dirStat nameTooLong existing) (List.replicate 300 'a') fuel = none) ∧
    (∀ (existing : List (List Char)) (fuel : Nat),
      exampleDispatcher.processImage longNameWorld existing ⟨longNameURL, [], []⟩
        (plainURL "http".toList "example.com".toList "/".toList) fuel = none) ∧
    (∀ (statFails : List Char → Bool) (existing : List (List Char)) (fname : List Char),
      (∀ i, statFails (candidate fname i) = false) →
      ∃ r : List Char,
        (∀ fuel, existing.length + 1 ≤ fuel →
          uniqueFilename (dirStat statFails existing) fname fuel = some r) ∧
        r ∉ existing) := by
  refine ⟨fun Stat fname hall fuel => uniqueFilenameLoop_none Stat fname hall fuel 0,
    uniqueFilename_longName_none, processImage_longName,
    fun statFails existing fname hstat => ?_⟩
  obtain ⟨r, h1, _, h3⟩ :=
    uniqueFilename_terminates_where_stat_answers statFails existing fname hstat
  exact ⟨r, h1, h3⟩

/-- Witness of C6: a directory in which `os.Stat` fails on every name refuses
every candidate for `cat.png`, and seven rounds give no result; nor do a
thousand rounds for the name of 300 bytes in the empty directory. -/
theorem uniqueFilename_stat_error_never_returns_witness :
    (∀ i, ((fun _ : List Char => StatResult.failed) (candidate "cat.png".toList i)).IsNotExist
      = false) ∧
    uniqueFilename (fun _ => StatResult.failed) "cat.png".toList 7 = none ∧
    uniqueFilename (dirStat nameTooLong []) (List.replicate 300 'a') 1000 = none :=
  ⟨fun _ => rfl,
   uniqueFilename_stat_error_never_returns.1 (fun _ => StatResult.failed) "cat.png".toList
     (fun _ => rfl) 7,
   uniqueFilename_longName_none [] 1000⟩

/-! ## Link de-duplication -/

theorem uniqueStringsLoop_out (l : List (List Char)) : ∀ (m out : List (List Char)),
    uniqueStringsLoop l m out = out ++ uniqueStringsLoop l m [] := by
  induction l with
  | nil => intro m out; simp [uniqueStringsLoop]
  | cons s rest ih =>
    intro m out
    by_cases hs : s ∈ m
    · simp only [uniqueStringsLoop, hs, if_true]
      exact ih m out
    · simp only [uniqueStringsLoop, hs, if_false]
      rw [ih (s :: m) (out ++ [s]), ih (s :: m) ([] ++ [s])]
      simp

theorem uniqueStringsLoop_cons_seen (s : List Char) (rest m : List (List Char)) (hs : s ∈ m) :
    uniqueStringsLoop (s :: rest) m [] = uniqueStringsLoop rest m [] := by
  simp only [uniqueStringsLoop, hs, if_true]

theorem uniqueStringsLoop_cons_new (s : List Char) (rest m : List (List Char)) (hs : s ∉ m) :
    uniqueStringsLoop (s :: rest) m [] = s :: uniqueStringsLoop rest (s :: m) [] := by
  simp only [uniqueStringsLoop, hs, if_false]
  rw [uniqueStringsLoop_out]
  rfl

theorem uniqueStringsLoop_mem (l : List (List Char)) : ∀ (m : List (List Char)) (x : List Char),
    x ∈ uniqueStringsLoop l m [] ↔ x ∈ l ∧ x ∉ m := by
  induction l with
  | nil => intro m x; simp [uniqueStringsLoop]
  | cons s rest ih =>
    intro m x
    by_cases hs : s ∈ m
    · rw [uniqueStringsLoop_cons_seen s rest m hs, ih m x]
      constructor
      · rintro ⟨h1, h2⟩; exact ⟨List.mem_cons_of_mem _ h1, h2⟩
      · rintro ⟨h1, h2⟩
        rcases List.mem_cons.mp h1 with rfl | h1
        · exact absurd hs h2
        · exact ⟨h1, h2⟩
    · rw [uniqueStringsLoop_cons_new s rest m hs, List.mem_cons, ih (s :: m) x]
      constructor
      · rintro (rfl | ⟨h1, h2⟩)
        · exact ⟨List.mem_cons_self _ _, hs⟩
        · exact ⟨List.mem_cons_of_mem _ h1, fun h => h2 (List.mem_cons_of_mem _ h)⟩
      · rintro ⟨h1, h2⟩
        by_cases hx : x = s
        · exact Or.inl hx
        · right
          rcases List.mem_cons.mp h1 with h1 | h1
          · exact absurd h1 hx
          · refine ⟨h1, fun h => ?_⟩
            rcases List.mem_cons.mp h with h | h
            · exact hx h
            · exact h2 h

theorem uniqueStringsLoop_nodup (l : List (List Char)) : ∀ (m : List (List Char)),
    (uniqueStringsLoop l m []).Nodup := by
  induction l with
  | nil => intro m; simp [uniqueStringsLoop]
  | cons s rest ih =>
    intro m
    by_cases hs : s ∈ m
    · rw [uniqueStringsLoop_cons_seen s rest m hs]; exact ih m
    · rw [uniqueStringsLoop_cons_new s rest m hs, List.nodup_cons]
      refine ⟨fun h => ?_, ih (s :: m)⟩
      exact ((uniqueStringsLoop_mem rest (s :: m) s).mp h).2 (List.mem_cons_self _ _)

theorem uniqueStringsLoop_sublist (l : List (List Char)) : ∀ (m : List (List Char)),
    (uniqueStringsLoop l m []).Sublist l := by
  induction l with
  | nil => intro m; simp [uniqueStringsLoop]
  | cons s rest ih =>
    intro m
    by_cases hs : s ∈ m
    · rw [uniqueStringsLoop_cons_seen s rest m hs]; exact (ih m).cons s
    · rw [uniqueStringsLoop_cons_new s rest m hs]; exact (ih (s :: m)).cons₂ s

theorem indexOf_cons_of_ne (a s : List Char) (rest : List (List Char)) (h : s ≠ a) :
    List.indexOf a (s :: rest) = List.indexOf a rest + 1 := by
  have hb : (s == a) = false := beq_eq_false_iff_ne.mpr h
  rw [List.indexOf_cons, hb, cond_false]

theorem indexOf_cons_of_eq (s : List Char) (rest : List (List Char)) :
    List.indexOf s (s :: rest) = 0 := by
  have hb : (s == s) = true := beq_self_eq_true s
  rw [List.indexOf_cons, hb, cond_true]

theorem uniqueStringsLoop_order (l : List (List Char)) :
    ∀ (m : List (List Char)) (a b : List Char), a ∈ l → b ∈ l → a ∉ m → b ∉ m →
      ((uniqueStringsLoop l m []).indexOf a < (uniqueStringsLoop l m []).indexOf b ↔
        l.indexOf a < l.indexOf b) := by
  induction l with
  | nil => intro m a b ha; cases ha
  | cons s rest ih =>
    intro m a b ha hb ham hbm
    by_cases hs : s ∈ m
    · have has : s ≠ a := fun h => ham (h ▸ hs)
      have hbs : s ≠ b := fun h => hbm (h ▸ hs)
      have ha1 : a ∈ rest := (List.mem_cons.mp ha).resolve_left (fun h => has h.symm)
      have hb1 : b ∈ rest := (List.mem_cons.mp hb).resolve_left (fun h => hbs h.symm)
      rw [uniqueStringsLoop_cons_seen s rest m hs, indexOf_cons_of_ne a s rest has,
        indexOf_cons_of_ne b s rest hbs, Nat.succ_lt_succ_iff]
      exact ih m a b ha1 hb1 ham hbm
    · rw [uniqueStringsLoop_cons_new s rest m hs]
      by_cases has : s = a
      · subst has
        by_cases hbs : s = b
        · subst hbs; simp
        · rw [indexOf_cons_of_eq, indexOf_cons_of_eq, indexOf_cons_of_ne b s _ hbs,
            indexOf_cons_of_ne b s _ hbs]
          simp
      · by_cases hbs : s = b
        · subst hbs
          rw [indexOf_cons_of_eq, indexOf_cons_of_eq]
          simp
        · have ha1 : a ∈ rest := (List.mem_cons.mp ha).resolve_left (fun h => has h.symm)
          have hb1 : b ∈ rest := (List.mem_cons.mp hb).resolve_left (fun h => hbs h.symm)
          rw [indexOf_cons_of_ne a s _ has, indexOf_cons_of_ne b s _ hbs,
            indexOf_cons_of_ne a s _ has, indexOf_cons_of_ne b s _ hbs, Nat.succ_lt_succ_iff,
            Nat.succ_lt_succ_iff]
          refine ih (s :: m) a b ha1 hb1 ?_ ?_
          · intro h
            rcases List.mem_cons.mp h with h | h
            · exact has h.symm
            · exact ham h
          · intro h
            rcases List.mem_cons.mp h with h | h
            · exact hbs h.symm
            · exact hbm h

/-- C9: the list returned by `uniqueStrings` contains no string twice, contains
exactly the strings of the input, is a subsequence of the input, and lists its
strings in the order of their first occurrences in the input (`indexOf` is the
position of the first occurrence). -/
theorem uniqueStrings_dedup_first_seen (input : List (List Char)) :
    (uniqueStrings input).Nodup ∧
    (∀ s, s ∈ uniqueStrings input ↔ s ∈ input) ∧
    (uniqueStrings input).Sublist input ∧
    (∀ a b, a ∈ input → b ∈ input →
      ((uniqueStrings input).indexOf a < (uniqueStrings input).indexOf b ↔
        input.indexOf a < input.indexOf b)) := by
  refine ⟨uniqueStringsLoop_nodup input [], fun s => ?_, uniqueStringsLoop_sublist input [],
    fun a b ha hb => ?_⟩
  · have := uniqueStringsLoop_mem input [] s
    simpa [uniqueStrings] using this
  · exact uniqueStringsLoop_order input [] a b ha hb (List.not_mem_nil _) (List.not_mem_nil _)

/-- Witness of C9: `/x, /y, /x, /z, /y` becomes `/x, /y, /z`. -/
theorem uniqueStrings_dedup_first_seen_witness :
    uniqueStrings ["/x".toList, "/y".toList, "/x".toList, "/z".toList, "/y".toList]
      = ["/x".toList, "/y".toList, "/z".toList] ∧
    ((uniqueStrings ["/x".toList, "/y".toList, "/x".toList, "/z".toList, "/y".toList]).indexOf
        "/y".toList <
      (uniqueStrings ["/x".toList, "/y".toList, "/x".toList, "/z".toList, "/y".toList]).indexOf
        "/z".toList ↔
      ["/x".toList, "/y".toList, "/x".toList, "/z".toList, "/y".toList].indexOf "/y".toList <
        ["/x".toList, "/y".toList, "/x".toList, "/z".toList, "/y".toList].indexOf "/z".toList) :=
  ⟨by decide,
   (uniqueStrings_dedup_first_seen
      ["/x".toList, "/y".toList, "/x".toList, "/z".toList, "/y".toList]).2.2.2
      "/y".toList "/z".toList (by decide) (by decide)⟩

/-! ## Same-site policy -/

theorem LastIndexByte_lt (s : List Char) (c : Char) (k : Nat)
    (h : LastIndexByte s c = some k) : k < s.length := by
  unfold LastIndexByte at h
  simp only at h
  split at h
  · cases h; omega
  · cases h

/-- With an error `EffectiveTLDPlusOne` returns the empty string, without one a
non-empty string. -/
theorem EffectiveTLDPlusOne_result (PublicSuffix : List Char → List Char)
    (domain : List Char) :
    ((EffectiveTLDPlusOne PublicSuffix domain).2 ≠ none →
      (EffectiveTLDPlusOne PublicSuffix domain).1 = []) ∧
    ((EffectiveTLDPlusOne PublicSuffix domain).2 = none →
      (EffectiveTLDPlusOne PublicSuffix domain).1 ≠ []) := by
  unfold EffectiveTLDPlusOne
  split
  · exact ⟨fun _ => rfl, fun h => by cases h⟩
  · simp only
    split
    · exact ⟨fun _ => rfl, fun h => by cases h⟩
    · rename_i hlen
      split
      · exact ⟨fun _ => rfl, fun h => by cases h⟩
      · split
        · rename_i k hk
          refine ⟨fun h => absurd rfl h, fun _ => ?_⟩
          have hk1 := LastIndexByte_lt _ _ _ hk
          simp only [List.length_take] at hk1
          intro hnil
          have hl := congrArg List.length hnil
          simp only [List.length_drop, List.length_nil] at hl
          omega
        · refine ⟨fun h => absurd rfl h, fun _ hnil => ?_⟩
          have hnil2 : domain = [] := hnil
          rw [hnil2] at hlen
          simp at hlen

/-- The result of `sameSite` once `other` has been parsed. -/
theorem sameSite_parsed (lib : UrlLib) (PublicSuffix : List Char → List Char) (base : URL)
    (other : List Char) (o : URL) (hparse : lib.Parse other = some o) :
    sameSite lib PublicSuffix base other =
      ((EffectiveTLDPlusOne PublicSuffix base.Hostname).1 ==
        (EffectiveTLDPlusOne PublicSuffix o.Hostname).1) := by
  unfold sameSite
  rw [hparse]

/-- C7: `sameSite` compares registrable domains.  A base with host
`a.example.com` and a candidate with host `b.example.com` (public suffix `com`)
are the same site; hosts `example.com` and `example.org` (public suffixes `com`
and `org`) are not; and whenever both hosts have a registrable domain the
answer is `true` exactly when the two registrable domains are equal. -/
theorem sameSite_compares_registrable_domains (lib : UrlLib)
    (PublicSuffix : List Char → List Char) (base : URL) (other : List Char) (o : URL)
    (hparse : lib.Parse other = some o) :
    (base.Host = "a.example.com".toList → o.Host = "b.example.com".toList →
      PublicSuffix "a.example.com".toList = "com".toList →
      PublicSuffix "b.example.com".toList = "com".toList →
      sameSite lib PublicSuffix base other = true) ∧
    (base.Host = "example.com".toList → o.Host = "example.org".toList →
      PublicSuffix "example.com".toList = "com".toList →
      PublicSuffix "example.org".toList = "org".toList →
      sameSite lib PublicSuffix base other = false) ∧
    (∀ d1 d2 : List Char,
      EffectiveTLDPlusOne PublicSuffix base.Hostname = (d1, none) →
      EffectiveTLDPlusOne PublicSuffix o.Hostname = (d2, none) →
      (sameSite lib PublicSuffix base other = true ↔ d1 = d2)) := by
  rw [sameSite_parsed lib PublicSuffix base other o hparse]
  refine ⟨fun hb ho h1 h2 => ?_, fun hb ho h1 h2 => ?_, fun d1 d2 h1 h2 => ?_⟩
  · have e1 : base.Hostname = "a.example.com".toList := by
      unfold URL.Hostname; rw [hb]; decide
    have e2 : o.Hostname = "b.example.com".toList := by
      unfold URL.Hostname; rw [ho]; decide
    have r1 : EffectiveTLDPlusOne PublicSuffix "a.example.com".toList =
        ("example.com".toList, none) := by
      unfold EffectiveTLDPlusOne; simp only [h1]; decide
    have r2 : EffectiveTLDPlusOne PublicSuffix "b.example.com".toList =
        ("example.com".toList, none) := by
      unfold EffectiveTLDPlusOne; simp only [h2]; decide
    rw [e1, e2, r1, r2]
    decide
  · have e1 : base.Hostname = "example.com".toList := by
      unfold URL.Hostname; rw [hb]; decide
    have e2 : o.Hostname = "example.org".toList := by
      unfold URL.Hostname; rw [ho]; decide
    have r1 : EffectiveTLDPlusOne PublicSuffix "example.com".toList =
        ("example.com".toList, none) := by
      unfold EffectiveTLDPlusOne; simp only [h1]; decide
    have r2 : EffectiveTLDPlusOne PublicSuffix "example.org".toList =
        ("example.org".toList, none) := by
      unfold EffectiveTLDPlusOne; simp only [h2]; decide
    rw [e1, e2, r1, r2]
    decide
  · rw [h1, h2]
    exact beq_iff_eq

/-- Witness of C7: the page `a.example.com` and the link
`http://b.example.com/page` are the same site. -/
theorem sameSite_compares_registrable_domains_witness :
    exampleLib.Parse "http://b.example.com/page".toList =
      some (plainURL "http".toList "b.example.com".toList "/page".toList) ∧
    sameSite exampleLib lastLabel (plainURL "http".toList "a.example.com".toList "/".toList)
      "http://b.example.com/page".toList = true :=
  ⟨by decide,
   (sameSite_compares_registrable_domains exampleLib lastLabel
      (plainURL "http".toList "a.example.com".toList "/".toList)
      "http://b.example.com/page".toList
      (plainURL "http".toList "b.example.com".toList "/page".toList) (by decide)).1
      (by decide) (by decide) (by decide) (by decide)⟩

/-- C8: when the registrable domain of neither host can be determined,
`sameSite` answers `true`: a page on `localhost:8080` and the link
`http://intranet/` count as the same site, because both discarded errors leave
the empty string to compare.  A candidate that does not parse, and an error on
exactly one side, give `false`. -/
theorem sameSite_true_when_both_undetermined :
    sameSite exampleLib lastLabel (plainURL "http".toList "localhost:8080".toList "/".toList)
      "http://intranet/".toList = true ∧
    (∀ (lib : UrlLib) (PublicSuffix : List Char → List Char) (base : URL) (other : List Char)
        (o : URL), lib.Parse other = some o →
      (EffectiveTLDPlusOne PublicSuffix base.Hostname).2 ≠ none →
      (EffectiveTLDPlusOne PublicSuffix o.Hostname).2 ≠ none →
      sameSite lib PublicSuffix base other = true) ∧
    (∀ (lib : UrlLib) (PublicSuffix : List Char → List Char) (base : URL) (other : List Char),
      lib.Parse other = none → sameSite lib PublicSuffix base other = false) ∧
    (∀ (lib : UrlLib) (PublicSuffix : List Char → List Char) (base : URL) (other : List Char)
        (o : URL), lib.Parse other = some o →
      ((EffectiveTLDPlusOne PublicSuffix base.Hostname).2 ≠ none ∧
          (EffectiveTLDPlusOne PublicSuffix o.Hostname).2 = none) ∨
        ((EffectiveTLDPlusOne PublicSuffix base.Hostname).2 = none ∧
          (EffectiveTLDPlusOne PublicSuffix o.Hostname).2 ≠ none) →
      sameSite lib PublicSuffix base other = false) := by
  refine ⟨by decide, ?_, ?_, ?_⟩
  · intro lib ps base other o hp h1 h2
    rw [sameSite_parsed lib ps base other o hp,
      (EffectiveTLDPlusOne_result ps base.Hostname).1 h1,
      (EffectiveTLDPlusOne_result ps o.Hostname).1 h2]
    rfl
  · intro lib ps base other hp
    unfold sameSite
    rw [hp]
  · intro lib ps base other o hp h
    rw [sameSite_parsed lib ps base other o hp]
    rcases h with ⟨h1, h2⟩ | ⟨h1, h2⟩
    · rw [(EffectiveTLDPlusOne_result ps base.Hostname).1 h1]
      exact beq_eq_false_iff_ne.mpr
        (fun h => (EffectiveTLDPlusOne_result ps o.Hostname).2 h2 h.symm)
    · rw [(EffectiveTLDPlusOne_result ps o.Hostname).1 h2]
      exact beq_eq_false_iff_ne.mpr ((EffectiveTLDPlusOne_result ps base.Hostname).2 h1)

/-- Witness of C8: both `localhost` and `intranet` are without a registrable
domain, and the general statement gives `true` for them. -/
theorem sameSite_true_when_both_undetermined_witness :
    (EffectiveTLDPlusOne lastLabel
      (plainURL "http".toList "localhost:8080".toList "/".toList).Hostname)
      = ([], some ETLDError.cannotDerive) ∧
    (EffectiveTLDPlusOne lastLabel
      (plainURL "http".toList "intranet".toList "/".toList).Hostname)
      = ([], some ETLDError.cannotDerive) ∧
    sameSite exampleLib lastLabel (plainURL "http".toList "localhost:8080".toList "/".toList)
      "http://intranet/".toList = true :=
  ⟨by decide, by decide,
   sameSite_true_when_both_undetermined.2.1 exampleLib lastLabel
     (plainURL "http".toList "localhost:8080".toList "/".toList) "http://intranet/".toList
     (plainURL "http".toList "intranet".toList "/".toList) (by decide) (by decide) (by decide)⟩

/-! ## URL sanitizer -/

theorem URL.setPath_Scheme (lib : UrlLib) (u : URL) (p : List Char) :
    (u.setPath lib p).Scheme = u.Scheme := by
  unfold URL.setPath
  split
  · rfl
  · split <;> rfl

/-- Resolving a scheme-less reference gives a URL with the scheme of the base. -/
theorem URL.ResolveReference_Scheme (lib : UrlLib) (base ref : URL) (h : ref.Scheme = []) :
    (base.ResolveReference lib ref).Scheme = base.Scheme := by
  unfold URL.ResolveReference
  simp only [h, if_true]
  repeat' split
  all_goals first | rfl | rw [URL.setPath_Scheme]

/-- The text of a URL with a scheme starts with the scheme and a colon. -/
theorem URL.String_of_scheme (lib : UrlLib) (u : URL) (h : u.Scheme ≠ []) :
    u.String lib = u.Scheme ++ ':' :: lib.stringAfterScheme u := by
  unfold URL.String
  rw [if_pos h]
  simp

/-- `sanitizeURL` when the reference is neither empty nor a `data:` reference
and parses. -/
theorem sanitizeURL_parsed (lib : UrlLib) (raw : List Char) (base u : URL)
    (h1 : TrimSpace raw ≠ []) (h2 : HasPrefix (TrimSpace raw) "data:".toList = false)
    (h3 : lib.Parse (TrimSpace raw) = some u) :
    sanitizeURL lib raw base =
      if (if u.Scheme = [] then base.ResolveReference lib u else u).Scheme ≠ "http".toList ∧
          (if u.Scheme = [] then base.ResolveReference lib u else u).Scheme ≠ "https".toList
      then [] else (if u.Scheme = [] then base.ResolveReference lib u else u).String lib := by
  unfold sanitizeURL
  simp only [h1, h2, h3, if_false, Bool.false_eq_true]

/-- C10: `sanitizeURL` returns the empty string when the trimmed reference is
empty, starts with `data:`, does not parse, carries a scheme other than http
and https, or carries none while the base has a scheme other than http and
https.  A non-empty result is the text of an absolute URL with scheme http or
https: of the parsed reference itself when it carries a scheme, and of the
reference resolved against the base URL (whose scheme it takes) when it carries
none; that text starts with `http:` or `https:`. -/
theorem sanitizeURL_http_only (lib : UrlLib) (raw : List Char) (base : URL) :
    (TrimSpace raw = [] → sanitizeURL lib raw base = []) ∧
    (HasPrefix (TrimSpace raw) "data:".toList = true → sanitizeURL lib raw base = []) ∧
    (lib.Parse (TrimSpace raw) = none → sanitizeURL lib raw base = []) ∧
    (∀ u : URL, lib.Parse (TrimSpace raw) = some u → u.Scheme ≠ [] →
      u.Scheme ≠ "http".toList → u.Scheme ≠ "https".toList → sanitizeURL lib raw base = []) ∧
    (∀ u : URL, lib.Parse (TrimSpace raw) = some u → u.Scheme = [] →
      base.Scheme ≠ "http".toList → base.Scheme ≠ "https".toList →
      sanitizeURL lib raw base = []) ∧
    (sanitizeURL lib raw base ≠ [] →
      ∃ u v : URL, lib.Parse (TrimSpace raw) = some u ∧
        v = (if u.Scheme = [] then base.ResolveReference lib u else u) ∧
        (u.Scheme = [] → v.Scheme = base.Scheme) ∧
        v.IsAbs = true ∧
        (v.Scheme = "http".toList ∨ v.Scheme = "https".toList) ∧
        sanitizeURL lib raw base = v.String lib ∧
        (HasPrefix (sanitizeURL lib raw base) "http:".toList = true ∨
          HasPrefix (sanitizeURL lib raw base) "https:".toList = true)) := by
  have hempty : TrimSpace raw = [] → sanitizeURL lib raw base = [] := by
    intro h; unfold sanitizeURL; simp only [h, if_true]
  have hdata : HasPrefix (TrimSpace raw) "data:".toList = true →
      sanitizeURL lib raw base = [] := by
    intro h; unfold sanitizeURL; simp only [h, if_true]; split <;> rfl
  have hnone : lib.Parse (TrimSpace raw) = none → sanitizeURL lib raw base = [] := by
    intro h; unfold sanitizeURL; simp only [h]; split <;> (try split) <;> rfl
  refine ⟨hempty, hdata, hnone, ?_, ?_, ?_⟩
  · intro u hp hs h1 h2
    by_cases he : TrimSpace raw = []
    · exact hempty he
    · by_cases hd : HasPrefix (TrimSpace raw) "data:".toList = true
      · exact hdata hd
      · rw [sanitizeURL_parsed lib raw base u he (by simpa using hd) hp]
        simp only [hs, if_false]
        rw [if_pos ⟨h1, h2⟩]
  · intro u hp hs h1 h2
    by_cases he : TrimSpace raw = []
    · exact hempty he
    · by_cases hd : HasPrefix (TrimSpace raw) "data:".toList = true
      · exact hdata hd
      · rw [sanitizeURL_parsed lib raw base u he (by simpa using hd) hp]
        simp only [hs, if_true]
        rw [URL.ResolveReference_Scheme lib base u hs, if_pos ⟨h1, h2⟩]
  · intro hne
    have he : TrimSpace raw ≠ [] := fun h => hne (hempty h)
    have hd : HasPrefix (TrimSpace raw) "data:".toList = false := by
      cases h : HasPrefix (TrimSpace raw) "data:".toList
      · rfl
      · exact absurd (hdata h) hne
    cases hp : lib.Parse (TrimSpace raw) with
    | none => exact absurd (hnone hp) hne
    | some u =>
      have hs := sanitizeURL_parsed lib raw base u he hd hp
      generalize hv : (if u.Scheme = [] then base.ResolveReference lib u else u) = v at hs
      by_cases hsch : v.Scheme ≠ "http".toList ∧ v.Scheme ≠ "https".toList
      · rw [if_pos hsch] at hs
        exact absurd hs hne
      · rw [if_neg hsch] at hs
        have hor : v.Scheme = "http".toList ∨ v.Scheme = "https".toList := by
          by_cases h1 : v.Scheme = "http".toList
          · exact Or.inl h1
          · by_cases h2 : v.Scheme = "https".toList
            · exact Or.inr h2
            · exact absurd ⟨h1, h2⟩ hsch
        have hnz : v.Scheme ≠ [] := by
          rcases hor with h | h <;> rw [h] <;> decide
        refine ⟨u, v, rfl, hv.symm, ?_, ?_, hor, hs, ?_⟩
        · intro h0
          rw [← hv, if_pos h0]
          exact URL.ResolveReference_Scheme lib base u h0
        · simp [URL.IsAbs, hnz]
        · rw [hs, URL.String_of_scheme lib v hnz]
          rcases hor with h | h
          · left; rw [h]; simp [HasPrefix]
          · right; rw [h]; simp [HasPrefix]

/-- Witness of C10: `/x` on the page `https://example.com/a.png` resolves to an
https URL, a `data:` reference and an ftp URL are rejected. -/
theorem sanitizeURL_http_only_witness :
    sanitizeURL exampleLib " /x ".toList
        (plainURL "https".toList "example.com".toList "/a.png".toList)
      = "https://example.com/x".toList ∧
    sanitizeURL exampleLib "data:image/png;base64,AAAA".toList
        (plainURL "https".toList "example.com".toList "/a.png".toList) = [] ∧
    sanitizeURL exampleLib "ftp://example.com/f".toList
        (plainURL "https".toList "example.com".toList "/a.png".toList) = [] ∧
    (HasPrefix (sanitizeURL exampleLib " /x ".toList
        (plainURL "https".toList "example.com".toList "/a.png".toList)) "http:".toList = true ∨
      HasPrefix (sanitizeURL exampleLib " /x ".toList
        (plainURL "https".toList "example.com".toList "/a.png".toList)) "https:".toList
        = true) := by
  refine ⟨by decide,
    (sanitizeURL_http_only exampleLib "data:image/png;base64,AAAA".toList
      (plainURL "https".toList "example.com".toList "/a.png".toList)).2.1 (by decide),
    (sanitizeURL_http_only exampleLib "ftp://example.com/f".toList
      (plainURL "https".toList "example.com".toList "/a.png".toList)).2.2.2.1
      (plainURL "ftp".toList "example.com".toList "/f".toList)
      (by decide) (by decide) (by decide) (by decide), ?_⟩
  obtain ⟨_, _, _, _, _, _, _, _, h⟩ :=
    (sanitizeURL_http_only exampleLib " /x ".toList
      (plainURL "https".toList "example.com".toList "/a.png".toList)).2.2.2.2.2 (by decide)
  exact h

/-! ## Unique file names: the first unused candidate -/

/-- The probe loop returns the candidate of round `i + k` when `os.Stat`
reports that one as not existing and none of the candidates of the rounds
before it. -/
theorem uniqueFilenameLoop_first (Stat : List Char → StatResult) (fname : List Char) :
    ∀ (k fuel i : Nat), k < fuel → (Stat (candidate fname (i + k))).IsNotExist = true →
      (∀ j, j < k → (Stat (candidate fname (i + j))).IsNotExist = false) →
      uniqueFilenameLoop Stat fname fuel i = some (candidate fname (i + k)) := by
  intro k
  induction k with
  | zero =>
    intro fuel i hf hc _
    cases fuel with
    | zero => omega
    | succ f => rw [uniqueFilenameLoop, if_pos (by simpa using hc)]; rfl
  | succ k ih =>
    intro fuel i hf hc hall
    cases fuel with
    | zero => omega
    | succ f =>
      have h0 : ¬ (Stat (candidate fname i)).IsNotExist = true := by
        have := hall 0 (by omega)
        rw [Nat.add_zero] at this
        rw [this]
        decide
      rw [uniqueFilenameLoop, if_neg h0]
      have e : i + (k + 1) = i + 1 + k := by omega
      rw [e] at hc ⊢
      refine ih f (i + 1) (by omega) hc ?_
      intro j hj
      have := hall (j + 1) (by omega)
      have e2 : i + (j + 1) = i + 1 + j := by omega
      rw [e2] at this
      exact this

/-- C16 as stated fails: with `cat.png` taken, `uniqueFilename` answers
`cat-1.png` (the number goes in front of the extension), which is neither
`cat.png` nor `cat.png` followed by `-i`. -/
theorem uniqueFilename_suffix_counterexample :
    ¬ (∀ (existing : List (List Char)) (fname r : List Char) (fuel : Nat),
        uniqueFilename (dirStat (fun _ => false) existing) fname fuel = some r →
        (fname ∉ existing ∧ r = fname) ∨
        (fname ∈ existing ∧ ∃ i, 1 ≤ i ∧ r = fname ++ ['-'] ++ itoa i)) := by
  intro h
  have h1 := h ["cat.png".toList] "cat.png".toList "cat-1.png".toList 2 (by decide)
  rcases h1 with ⟨hn, _⟩ | ⟨_, i, _, hi⟩
  · exact hn (by decide)
  · have h3 := congrArg (fun l => l.get? 3) hi
    simp at h3

/-- C16, amended: for a file name on whose candidates `os.Stat` does not fail,
`uniqueFilename` probes `fname`, then `stem-1ext`, `stem-2ext`, ... in that
order, where `ext` is the extension of `fname` (`filepath.Ext`) and `stem` is
`fname` without it, and returns the first of them that is unused: `fname`
itself when it is unused, otherwise the one with the least `i ≥ 1` that is
unused, every earlier candidate being taken.  Whatever `os.Stat` answers, the
result is the first candidate that it reports as not existing. -/
theorem uniqueFilename_first_unused (statFails : List Char → Bool)
    (existing : List (List Char)) (fname : List Char)
    (hstat : ∀ i, statFails (candidate fname i) = false) :
    candidate fname 0 = fname ∧
    (∀ i, 1 ≤ i →
      candidate fname i = TrimSuffix fname (Ext fname) ++ ['-'] ++ itoa i ++ Ext fname) ∧
    (fname ∉ existing → ∀ fuel, 1 ≤ fuel →
      uniqueFilename (dirStat statFails existing) fname fuel = some fname) ∧
    (∃ k : Nat,
      (∀ fuel, k + 1 ≤ fuel →
        uniqueFilename (dirStat statFails existing) fname fuel = some (candidate fname k)) ∧
      candidate fname k ∉ existing ∧
      (∀ j, j < k → candidate fname j ∈ existing) ∧
      (fname ∈ existing → 1 ≤ k)) ∧
    (∀ (Stat : List Char → StatResult) (k : Nat),
      (Stat (candidate fname k)).IsNotExist = true →
      (∀ j, j < k → (Stat (candidate fname j)).IsNotExist = false) →
      ∀ fuel, k + 1 ≤ fuel → uniqueFilename Stat fname fuel = some (candidate fname k)) := by
  have hc0 : candidate fname 0 = fname := by simp [candidate]
  have hfree : ∀ k, candidate fname k ∉ existing →
      (dirStat statFails existing (candidate fname k)).IsNotExist = true :=
    fun k hk => (dirStat_IsNotExist _ _ _).mpr ⟨hstat k, hk⟩
  have htaken : ∀ k, candidate fname k ∈ existing →
      (dirStat statFails existing (candidate fname k)).IsNotExist = false := by
    intro k hk
    cases h : (dirStat statFails existing (candidate fname k)).IsNotExist with
    | false => rfl
    | true => exact absurd hk ((dirStat_IsNotExist _ _ _).mp h).2
  have hgen : ∀ (Stat : List Char → StatResult) (k : Nat),
      (Stat (candidate fname k)).IsNotExist = true →
      (∀ j, j < k → (Stat (candidate fname j)).IsNotExist = false) →
      ∀ fuel, k + 1 ≤ fuel → uniqueFilename Stat fname fuel = some (candidate fname k) := by
    intro Stat k hk hall fuel hf
    have := uniqueFilenameLoop_first Stat fname k fuel 0 (by omega)
      (by rw [Nat.zero_add]; exact hk) (fun j hj => by rw [Nat.zero_add]; exact hall j hj)
    rw [Nat.zero_add] at this
    exact this
  refine ⟨hc0, ?_, ?_, ?_, hgen⟩
  · intro i hi
    have : i > 0 := hi
    simp [candidate, this]
  · intro hn fuel hf
    have := hgen (dirStat statFails existing) 0 (hfree 0 (by rw [hc0]; exact hn))
      (fun j hj => by omega) fuel (by omega)
    rw [hc0] at this
    exact this
  · have hex : ∃ k, candidate fname k ∉ existing := by
      obtain ⟨k, _, hk⟩ := exists_unused_candidate existing fname
      exact ⟨k, hk⟩
    classical
    refine ⟨Nat.find hex, ?_, Nat.find_spec hex, ?_, ?_⟩
    · intro fuel hf
      exact hgen (dirStat statFails existing) (Nat.find hex) (hfree _ (Nat.find_spec hex))
        (fun j hj => htaken j (by
          have := Nat.find_min hex hj
          simpa using this)) fuel hf
    · intro j hj
      have := Nat.find_min hex hj
      simpa using this
    · intro hmem
      by_contra hk
      have hz : Nat.find hex = 0 := by omega
      have := Nat.find_spec hex
      rw [hz, hc0] at this
      exact this hmem

/-- Witness of C16 amended: with `cat.png` and `cat-1.png` taken the answer is
`cat-2.png`, the candidate of round 2; `os.Stat` fails on none of the
candidates for `notes` (they are short), and `notes`, being unused, is returned
as it is. -/
theorem uniqueFilename_first_unused_witness :
    candidate "cat.png".toList 2 = "cat-2.png".toList ∧
    uniqueFilename (dirStat (fun _ => false) ["cat.png".toList, "cat-1.png".toList])
      "cat.png".toList 3 = some "cat-2.png".toList ∧
    (∀ i, (fun _ : List Char => false) (candidate "notes".toList i) = false) ∧
    ("notes".toList ∉ ["cat.png".toList] →
      ∀ fuel, 1 ≤ fuel →
        uniqueFilename (dirStat (fun _ => false) ["cat.png".toList]) "notes".toList fuel
          = some "notes".toList) :=
  ⟨by decide, by decide, fun _ => rfl,
   (uniqueFilename_first_unused (fun _ => false) ["cat.png".toList] "notes".toList
     (fun _ => rfl)).2.2.1⟩

/-! ## Thumbnails: nearest-neighbour sampling -/

theorem Image.Set_At_same (p : Image) (x y : Int) (c : Color)
    (hin : (Point.mk x y).In p.Bounds = true) : (p.Set x y c).At x y = toRGBA c := by
  unfold Image.Set
  rw [if_pos hin]
  simp

theorem Image.Set_At_other (p : Image) (x y x1 y1 : Int) (c : Color)
    (hne : ¬ (x1 = x ∧ y1 = y)) : (p.Set x y c).At x1 y1 = p.At x1 y1 := by
  unfold Image.Set
  split
  · simp only [hne, if_false]
  · rfl

/-- A pixel of row `y` that already holds its sampled value keeps it through the
inner loop. -/
theorem rowFold_keep (img : Image) (w h newW newH y : Int) (x0 : Nat) (xs : List Nat) :
    ∀ acc : Image,
      acc.At (x0 : Int) y =
        toRGBA (img.At (divInt (mulInt (x0 : Int) w) newW) (divInt (mulInt y h) newH)) →
      (xs.foldl (fun (acc : Image) (x : Nat) =>
          let srcX := divInt (mulInt (x : Int) w) newW
          let srcY := divInt (mulInt y h) newH
          acc.Set (x : Int) y (img.At srcX srcY)) acc).At (x0 : Int) y =
        toRGBA (img.At (divInt (mulInt (x0 : Int) w) newW) (divInt (mulInt y h) newH)) := by
  induction xs with
  | nil => intro acc h0; exact h0
  | cons a rest ih =>
    intro acc h0
    rw [List.foldl_cons]
    apply ih
    by_cases ha : a = x0
    · subst ha
      by_cases hin : (Point.mk (a : Int) y).In acc.Bounds = true
      · exact Image.Set_At_same acc _ _ _ hin
      · unfold Image.Set
        rw [if_neg hin]
        exact h0
    · rw [Image.Set_At_other]
      · exact h0
      · rintro ⟨h1, _⟩
        exact ha (Int.ofNat_inj.mp h1).symm

/-- The inner loop for row `y` leaves the other rows alone. -/
theorem rowFold_other (img : Image) (w h newW newH y : Int) (x1 y1 : Int) (hy : y1 ≠ y)
    (xs : List Nat) : ∀ acc : Image,
      (xs.foldl (fun (acc : Image) (x : Nat) =>
          let srcX := divInt (mulInt (x : Int) w) newW
          let srcY := divInt (mulInt y h) newH
          acc.Set (x : Int) y (img.At srcX srcY)) acc).At x1 y1 = acc.At x1 y1 := by
  induction xs with
  | nil => intro acc; rfl
  | cons a rest ih =>
    intro acc
    rw [List.foldl_cons, ih, Image.Set_At_other]
    rintro ⟨_, h2⟩
    exact hy h2

/-- The inner loop gives every pixel it visits inside the bounds its sampled
value. -/
theorem rowFold_set (img : Image) (w h newW newH y : Int) (x0 : Nat) (xs : List Nat) :
    ∀ acc : Image, x0 ∈ xs → (Point.mk (x0 : Int) y).In acc.Bounds = true →
      (xs.foldl (fun (acc : Image) (x : Nat) =>
          let srcX := divInt (mulInt (x : Int) w) newW
          let srcY := divInt (mulInt y h) newH
          acc.Set (x : Int) y (img.At srcX srcY)) acc).At (x0 : Int) y =
        toRGBA (img.At (divInt (mulInt (x0 : Int) w) newW) (divInt (mulInt y h) newH)) := by
  induction xs with
  | nil => intro acc hx; cases hx
  | cons a rest ih =>
    intro acc hx hin
    rw [List.foldl_cons]
    by_cases ha : a = x0
    · subst ha
      exact rowFold_keep img w h newW newH y a rest _ (Image.Set_At_same acc _ _ _ hin)
    · have hr : x0 ∈ rest := (List.mem_cons.mp hx).resolve_left (fun e => ha e.symm)
      exact ih _ hr (by rw [Image.Set_Bounds]; exact hin)

/-- A pixel that already holds its sampled value keeps it through the outer loop. -/
theorem rowsFold_keep (img : Image) (w h newW newH : Int) (x0 y0 : Nat) (ys : List Nat) :
    ∀ acc : Image,
      acc.At (x0 : Int) (y0 : Int) =
        toRGBA (img.At (divInt (mulInt (x0 : Int) w) newW)
          (divInt (mulInt (y0 : Int) h) newH)) →
      (ys.foldl (fun (acc : Image) (y : Nat) => scaleRow img w h newW newH (y : Int) acc)
          acc).At (x0 : Int) (y0 : Int) =
        toRGBA (img.At (divInt (mulInt (x0 : Int) w) newW)
          (divInt (mulInt (y0 : Int) h) newH)) := by
  induction ys with
  | nil => intro acc h0; exact h0
  | cons a rest ih =>
    intro acc h0
    rw [List.foldl_cons]
    apply ih
    unfold scaleRow
    by_cases ha : a = y0
    · subst ha
      exact rowFold_keep img w h newW newH (a : Int) x0 _ acc h0
    · rw [rowFold_other img w h newW newH (a : Int) (x0 : Int) (y0 : Int)
        (fun e => ha (Int.ofNat_inj.mp e).symm)]
      exact h0

/-- The two loops give every pixel they visit inside the bounds its sampled value. -/
theorem rowsFold_set (img : Image) (w h newW newH : Int) (x0 y0 : Nat)
    (hx : x0 < newW.toNat) (ys : List Nat) :
    ∀ acc : Image, y0 ∈ ys → (Point.mk (x0 : Int) (y0 : Int)).In acc.Bounds = true →
      (ys.foldl (fun (acc : Image) (y : Nat) => scaleRow img w h newW newH (y : Int) acc)
          acc).At (x0 : Int) (y0 : Int) =
        toRGBA (img.At (divInt (mulInt (x0 : Int) w) newW)
          (divInt (mulInt (y0 : Int) h) newH)) := by
  induction ys with
  | nil => intro acc hy; cases hy
  | cons a rest ih =>
    intro acc hy hin
    rw [List.foldl_cons]
    by_cases ha : a = y0
    · subst ha
      apply rowsFold_keep
      unfold scaleRow
      exact rowFold_set img w h newW newH (a : Int) x0 _ acc (List.mem_range.mpr hx) hin
    · have hr : y0 ∈ rest := (List.mem_cons.mp hy).resolve_left (fun e => ha e.symm)
      exact ih _ hr (by rw [scaleRow_Bounds]; exact hin)

/-- The source coordinate computed for a destination coordinate `a < n`:
`a * len / n` without overflow, inside `[0, len)`. -/
theorem sample_coord (a n len : Int) (ha0 : 0 ≤ a) (han : a < n) (hlen : 0 < len)
    (hfit : n * len < 2 ^ 63) :
    divInt (mulInt a len) n = a * len / n ∧ 0 ≤ a * len / n ∧ a * len / n < len := by
  have hn : 0 < n := by omega
  have hnn : 0 ≤ a * len := Int.mul_nonneg ha0 (le_of_lt hlen)
  have hlt : a * len < n * len := Int.mul_lt_mul_of_pos_right han hlen
  have hm : mulInt a len = a * len := wrapInt_of_range _ (by omega) (by omega)
  have hq0 : 0 ≤ a * len / n := Int.ediv_nonneg hnn (le_of_lt hn)
  have hq1 : a * len / n ≤ a * len := Int.ediv_le_self _ hnn
  have hq2 : a * len / n < len := by
    apply Int.ediv_lt_of_lt_mul hn
    rw [Int.mul_comm len n]
    exact hlt
  refine ⟨?_, hq0, hq2⟩
  unfold divInt
  rw [hm, Int.tdiv_eq_ediv hnn (le_of_lt hn)]
  exact wrapInt_of_range _ (by omega) (by omega)

/-- C17: for an image of width `w > 200` and height `h ≥ 1` (dimensions below
`2^31`, as the registered decoders deliver them), the nearest-neighbour loop of
`makeThumbnail` gives every destination pixel `(x, y)` with `x < 200` and
`y < newH` the colour of the source pixel `(floor(x*w/200), floor(y*h/newH))`;
that pixel lies inside the source image (`0 ≤ srcX < w`, `0 ≤ srcY < h`), and
the divisors `200` and `newH` of the two divisions are not zero. -/
theorem makeThumbnail_samples_inside (img : Image) (w h : Int) (x y : Nat)
    (hw : MaxThumbnailWidth < w) (hh : 1 ≤ h) (hwb : w < 2 ^ 31) (hhb : h < 2 ^ 31)
    (hx : (x : Int) < MaxThumbnailWidth)
    (hy : (y : Int) < divInt (mulInt MaxThumbnailWidth h) w) :
    MaxThumbnailWidth ≠ 0 ∧ divInt (mulInt MaxThumbnailWidth h) w ≠ 0 ∧ w ≠ 0 ∧
    divInt (mulInt (x : Int) w) MaxThumbnailWidth = (x : Int) * w / 200 ∧
    divInt (mulInt (y : Int) h) (divInt (mulInt MaxThumbnailWidth h) w) =
      (y : Int) * h / (200 * h / w) ∧
    0 ≤ (x : Int) * w / 200 ∧ (x : Int) * w / 200 < w ∧
    0 ≤ (y : Int) * h / (200 * h / w) ∧ (y : Int) * h / (200 * h / w) < h ∧
    (scaleRows img w h MaxThumbnailWidth (divInt (mulInt MaxThumbnailWidth h) w)
        (NewRGBA (Rect 0 0 MaxThumbnailWidth (divInt (mulInt MaxThumbnailWidth h) w)))).At
        (x : Int) (y : Int) =
      toRGBA (img.At ((x : Int) * w / 200) ((y : Int) * h / (200 * h / w))) := by
  have hM : MaxThumbnailWidth = 200 := rfl
  rw [hM] at hw hx hy ⊢
  have hwh : w * h < 2 ^ 63 := by
    have h1 : w * h ≤ 2 ^ 31 * 2 ^ 31 :=
      Int.mul_le_mul (le_of_lt hwb) (le_of_lt hhb) (by omega) (by norm_num)
    have h2 : (2 : Int) ^ 31 * 2 ^ 31 < 2 ^ 63 := by norm_num
    omega
  have hH := newH_eq w h hw (by omega) hwh
  rw [hH] at hy ⊢
  have hy0 : (0 : Int) ≤ (y : Int) := Int.ofNat_nonneg y
  have hx0 : (0 : Int) ≤ (x : Int) := Int.ofNat_nonneg x
  have hHpos : 0 < 200 * h / w := by omega
  have hHle : 200 * h / w ≤ h := by
    apply Int.ediv_le_of_le_mul (by omega)
    have : h * 200 ≤ h * w := Int.mul_le_mul_of_nonneg_left (le_of_lt hw) (by omega)
    omega
  have hfitx : (200 : Int) * w < 2 ^ 63 := by omega
  have hfity : 200 * h / w * h < 2 ^ 63 := by
    have h1 : 200 * h / w * h ≤ 2 ^ 31 * 2 ^ 31 :=
      Int.mul_le_mul (by omega) (le_of_lt hhb) (by omega) (by norm_num)
    have h2 : (2 : Int) ^ 31 * 2 ^ 31 < 2 ^ 63 := by norm_num
    omega
  obtain ⟨sx, sx0, sx1⟩ := sample_coord (x : Int) 200 w hx0 hx (by omega) hfitx
  obtain ⟨sy, sy0, sy1⟩ := sample_coord (y : Int) (200 * h / w) h hy0 hy (by omega) hfity
  refine ⟨by decide, by omega, by omega, sx, sy, sx0, sx1, sy0, sy1, ?_⟩
  rw [← sx, ← sy]
  unfold scaleRows
  apply rowsFold_set
  · show x < (200 : Int).toNat
    have : (200 : Int).toNat = 200 := rfl
    omega
  · apply List.mem_range.mpr
    omega
  · have h1 : ¬ ((0 : Int) > 200) := by omega
    have h2 : ¬ ((0 : Int) > 200 * h / w) := by omega
    simp only [NewRGBA, Rect, h1, h2, if_false, Point.In]
    simp only [decide_eq_true_eq, Bool.and_eq_true]
    omega

/-- Witness of C17: in a 400 x 300 image the thumbnail pixel `(199, 149)` is
sampled from the source pixel `(398, 298)`. -/
theorem makeThumbnail_samples_inside_witness :
    divInt (mulInt MaxThumbnailWidth 300) 400 = 150 ∧
    divInt (mulInt (199 : Nat) 400) MaxThumbnailWidth = 398 ∧
    ((199 : Nat) : Int) * 400 / 200 < 400 ∧
    ((149 : Nat) : Int) * 300 / (200 * 300 / 400) < 300 :=
  ⟨by decide, by decide,
   (makeThumbnail_samples_inside (blankImage 400 300) 400 300 199 149 (by decide) (by decide)
      (by decide) (by decide) (by decide) (by decide)).2.2.2.2.2.2.1,
   (makeThumbnail_samples_inside (blankImage 400 300) 400 300 199 149 (by decide) (by decide)
      (by decide) (by decide) (by decide) (by decide)).2.2.2.2.2.2.2.2.1⟩

end Crawler

namespace Week2

open Crawler (wrapInt wrapInt_of_range)

/-! ## `week2`: what the two Josephus functions compute -/

theorem josephus_pos (m : Nat) (k : Nat) (hk : 1 ≤ k) : 1 ≤ josephus m k ∧ josephus m k ≤ k := by
  cases k with
  | zero => omega
  | succ k =>
    unfold josephus
    split
    · omega
    · have := Nat.mod_lt (josephus m k - 1 + m) (show 0 < k + 1 by omega)
      omega

theorem josephus_succ (m k : Nat) (hk : k ≠ 0) :
    josephus m (k + 1) = (josephus m k - 1 + m) % (k + 1) + 1 := by
  rw [josephus, if_neg hk]

/-- After `j` rounds of its loop `findWinnerFast` holds the survivor of a
circle of `j + 1` people, counted from 0. -/
theorem findWinnerFast_fold (m : Nat) (hm : (m : Int) < 2 ^ 62) :
    ∀ j : Nat, (j : Int) < 2 ^ 62 →
      (List.range j).foldl
        (fun (winner : Int) (k : Nat) => modInt (wrapInt (winner + (m : Int))) ((k : Int) + 2)) 0
      = ((josephus m (j + 1) - 1 : Nat) : Int) := by
  intro j
  induction j with
  | zero => intro _; rfl
  | succ j ih =>
    intro hj
    rw [List.range_succ, List.foldl_append, ih (by omega), List.foldl_cons, List.foldl_nil]
    have hb := josephus_pos m (j + 1) (by omega)
    have hw : wrapInt (((josephus m (j + 1) - 1 : Nat) : Int) + (m : Int))
        = ((josephus m (j + 1) - 1 + m : Nat) : Int) := by
      rw [wrapInt_of_range _ (by omega) (by omega)]
      push_cast
      rfl
    rw [hw]
    have hj2 : ((j : Int) + 2) = ((j + 2 : Nat) : Int) := by push_cast; rfl
    unfold modInt
    rw [hj2, Int.tmod_eq_emod (by omega) (by omega), ← Int.natCast_mod]
    rw [josephus_succ m (j + 1) (by omega), Nat.add_sub_cancel]

/-- C18: `findWinnerFast(2, 1)` returns 1 while the survivor of the game with 2
people and step 1 is person 2.  The loop condition `i < n` leaves out the round
`i = n`: for `n ≥ 2` the function returns the survivor of a circle of `n - 1`
people. -/
theorem findWinnerFast_stops_one_round_early :
    findWinnerFast 2 1 = 1 ∧ josephus 1 2 = 2 ∧
    findWinnerFast 5 3 = 1 ∧ josephus 3 5 = 4 ∧ josephus 3 4 = 1 ∧
    (∀ n m : Nat, 2 ≤ n → (n : Int) < 2 ^ 62 → (m : Int) < 2 ^ 62 →
      findWinnerFast (n : Int) (m : Int) = ((josephus m (n - 1) : Nat) : Int)) := by
  refine ⟨by decide, by decide, by decide, by decide, by decide, ?_⟩
  intro n m hn hnb hmb
  unfold findWinnerFast
  have e : ((n : Int) - 2).toNat = n - 2 := by omega
  rw [e, findWinnerFast_fold m hmb (n - 2) (by omega)]
  have e2 : n - 2 + 1 = n - 1 := by omega
  rw [e2]
  have hb := josephus_pos m (n - 1) (by omega)
  rw [wrapInt_of_range _ (by omega) (by omega)]
  omega

/-- Witness of C18: with 7 people and step 3 the function returns the survivor
of the game with 6 people. -/
theorem findWinnerFast_stops_one_round_early_witness :
    findWinnerFast ((7 : Nat) : Int) ((3 : Nat) : Int) = ((josephus 3 (7 - 1) : Nat) : Int) ∧
    josephus 3 6 = 1 ∧ josephus 3 7 = 4 :=
  ⟨findWinnerFast_stops_one_round_early.2.2.2.2.2 7 3 (by decide) (by decide) (by decide),
   by decide, by decide⟩

/-- One round of the loop of `findWinner` on a slice of two or more people. -/
theorem findWinnerLoop_succ (m : Int) (f : Nat) (people : List Int) (index : Int)
    (hlen : people.length > 1) :
    findWinnerLoop m (f + 1) people index =
      if modInt (wrapInt (wrapInt (index + m) - 1)) (people.length : Int) + 1 < 0
      then some Result.panic
      else findWinnerLoop m f
        (people ++ people.drop
          (modInt (wrapInt (wrapInt (index + m) - 1)) (people.length : Int) + 1).toNat)
        (modInt (wrapInt (wrapInt (index + m) - 1)) (people.length : Int)) := by
  rw [findWinnerLoop, if_pos hlen]

/-- With two or more people in the slice the loop of `findWinner` never
returns a value: the slice does not get shorter. -/
theorem findWinnerLoop_never_returns (m : Int) :
    ∀ (fuel : Nat) (people : List Int) (index : Int), 2 ≤ people.length →
      ∀ v : Int, findWinnerLoop m fuel people index ≠ some (Result.value v) := by
  intro fuel
  induction fuel with
  | zero => intro people index _ v h; rw [findWinnerLoop] at h; cases h
  | succ f ih =>
    intro people index hlen v
    rw [findWinnerLoop_succ m f people index (by omega)]
    split
    · intro h; cases h
    · exact ih _ _ (by rw [List.length_append]; omega) v

/-- With step 1 the index stays 0 and the loop of `findWinner` runs on without
end. -/
theorem findWinnerLoop_step_one_diverges :
    ∀ (fuel : Nat) (people : List Int), 2 ≤ people.length →
      findWinnerLoop 1 fuel people 0 = none := by
  intro fuel
  induction fuel with
  | zero => intro people _; rfl
  | succ f ih =>
    intro people hlen
    have h0 : modInt (wrapInt (wrapInt (0 + 1) - 1)) (people.length : Int) = 0 := by
      have : wrapInt (wrapInt (0 + 1) - 1) = 0 := by decide
      rw [this]
      exact Int.zero_tmod _
    rw [findWinnerLoop_succ 1 f people 0 (by omega), h0, if_neg (by omega)]
    exact ih _ (by rw [List.length_append]; omega)

/-- C19: `findWinner(2, 1)` does not terminate: whatever the number of rounds
allowed, the loop is still running (the slice grows from `[1, 2]` to
`[1, 2, 2]` and on).  For every `n ≥ 2` and every `m` the function never
returns a value, because `append(people, people[index+1:]...)` never shortens
the slice; only `findWinner(1, m)` returns (the value 1). -/
theorem findWinner_never_returns :
    (∀ fuel : Nat, findWinner 2 1 fuel = none) ∧
    (∀ (n m : Int) (fuel : Nat), 2 ≤ n → ∀ v : Int, findWinner n m fuel ≠ some (Result.value v)) ∧
    (∀ (m : Int) (fuel : Nat), 1 ≤ fuel → findWinner 1 m fuel = some (Result.value 1)) := by
  refine ⟨fun fuel => ?_, fun n m fuel hn v => ?_, fun m fuel hf => ?_⟩
  · unfold findWinner
    rw [if_neg (by decide)]
    exact findWinnerLoop_step_one_diverges fuel _ (by decide)
  · unfold findWinner
    rw [if_neg (by omega)]
    apply findWinnerLoop_never_returns
    rw [List.length_map, List.length_range]
    omega
  · unfold findWinner
    rw [if_neg (by decide)]
    cases fuel with
    | zero => omega
    | succ f =>
      have hp : (List.range (1 : Int).toNat).map (fun (i : Nat) => wrapInt ((i : Int) + 1))
          = [1] := by decide
      rw [hp, findWinnerLoop, if_neg (by decide)]
      rfl

/-- Witness of C19: `findWinner(3, 2)` has not returned after 5 rounds, and
never returns a value. -/
theorem findWinner_never_returns_witness :
    findWinner 3 2 5 = none ∧
    (∀ v : Int, findWinner 3 2 5 ≠ some (Result.value v)) :=
  ⟨by decide, findWinner_never_returns.2.1 3 2 5 (by decide)⟩

end Week2

namespace Crawler

end Crawler

namespace Week3

/-! ## `week3`: the sentinel `-1` of `Dijkstra` -/

theorem Dist.inf_lt (d : Dist) : Dist.inf.lt d = false := by
  cases d <;> rfl

/-- A city listed in the graph and different from `start` starts at `+Inf`. -/
theorem initDist_listed (g : Graph) (start c : Int) (hc : c ∈ g.cityIDs) (hne : c ≠ start) :
    initDist g start c = Dist.inf := by
  unfold initDist assign
  rw [if_neg hne]
  have key : ∀ (cities : List Int) (d : Int → Dist), c ∈ cities ∨ d c = Dist.inf →
      cities.foldl (fun (dist : Int → Dist) (city : Int) => assign dist city Dist.inf) d c
        = Dist.inf := by
    intro cities
    induction cities with
    | nil =>
      intro d h
      rcases h with h | h
      · cases h
      · exact h
    | cons a rest ih =>
      intro d h
      rw [List.foldl_cons]
      apply ih
      by_cases hca : c = a
      · right; unfold assign; rw [if_pos hca]
      · rcases h with h | h
        · left; exact (List.mem_cons.mp h).resolve_left hca
        · right; unfold assign; rw [if_neg hca]; exact h
  exact key g.cityIDs _ (Or.inl hc)

/-- With `start = -1` the selection loop ends with `current = -1`: the only
city at a finite distance is the start itself. -/
theorem selectMin_start_minus_one (g : Graph) :
    (selectMin g.cityIDs (initDist g (-1)) (fun _ => false)).2 = -1 := by
  unfold selectMin
  have key : ∀ (cities : List Int) (acc : Dist × Int), (∀ c ∈ cities, c ∈ g.cityIDs) →
      acc.2 = -1 →
      (cities.foldl
        (fun (acc : Dist × Int) (city : Int) =>
          if (!(fun _ => false) city && (initDist g (-1) city).lt acc.1) = true
          then (initDist g (-1) city, city) else acc) acc).2 = -1 := by
    intro cities
    induction cities with
    | nil => intro acc _ h; exact h
    | cons a rest ih =>
      intro acc hsub hacc
      rw [List.foldl_cons]
      apply ih _ (fun c hc => hsub c (List.mem_cons_of_mem _ hc))
      by_cases ha : a = -1
      · split
        · exact ha
        · exact hacc
      · have hinf := initDist_listed g (-1) a (hsub a (List.mem_cons_self _ _)) ha
        rw [hinf, Dist.inf_lt]
        simp only [Bool.and_false, Bool.false_eq_true, if_false]
        exact hacc
  exact key g.cityIDs _ (fun c hc => hc) rfl

/-- C20: in the graph with the two cities `-1` and `2` joined by a road of
length 1, `Dijkstra(g, -1, 2)` returns the distance `+Inf` (in whichever order
the map yields the cities), although the route `-1, 2` has total weight 1.  The
value `-1` that stands for "no city found" is also the ID of the start, so the
main loop stops in its first round; the same happens in every graph whose
start has the ID `-1`: for each other listed city the distance returned is
`+Inf`. -/
theorem Dijkstra_city_minus_one_unreached :
    (∀ fuel : Nat, 2 ≤ fuel →
      Dijkstra (twoCities true) (-1) 2 fuel = some ([2], Dist.inf) ∧
      Dijkstra (twoCities false) (-1) 2 fuel = some ([2], Dist.inf)) ∧
    routeWeight (twoCities true) [-1, 2] = some (Dist.fin 1) ∧
    routeWeight (twoCities false) [-1, 2] = some (Dist.fin 1) ∧
    (∀ (g : Graph) (finish : Int) (fuel : Nat), finish ∈ g.cityIDs → finish ≠ -1 → 2 ≤ fuel →
      ∃ path, Dijkstra g (-1) finish fuel = some (path, Dist.inf)) := by
  refine ⟨fun fuel hf => ?_, by decide, by decide, fun g finish fuel hfin hne hf => ?_⟩
  · obtain ⟨f, rfl⟩ : ∃ f, fuel = f + 2 := ⟨fuel - 2, by omega⟩
    exact ⟨rfl, rfl⟩
  · obtain ⟨f, rfl⟩ : ∃ f, fuel = f + 2 := ⟨fuel - 2, by omega⟩
    have hloop : dijkstraLoop g finish (f + 2) (initDist g (-1)) (fun _ => 0) (fun _ => false)
        = some (initDist g (-1), fun _ => 0) := by
      rw [dijkstraLoop, selectMin_start_minus_one g]
      simp
    have hd : initDist g (-1) finish = Dist.inf := initDist_listed g (-1) finish hfin hne
    unfold Dijkstra
    rw [hloop]
    simp only [hd]
    by_cases h0 : finish = 0
    · refine ⟨[], ?_⟩
      subst h0
      simp [buildPath]
    · refine ⟨[finish], ?_⟩
      simp [buildPath, h0, hne]

/-- Witness of C20: city `2` is listed and is not `-1`, and three rounds give
the distance `+Inf`. -/
theorem Dijkstra_city_minus_one_unreached_witness :
    (2 : Int) ∈ (twoCities true).cityIDs ∧
    ∃ path, Dijkstra (twoCities true) (-1) 2 3 = some (path, Dist.inf) :=
  ⟨by decide,
   Dijkstra_city_minus_one_unreached.2.2.2 (twoCities true) 2 3 (by decide) (by decide)
     (by decide)⟩

/-! ## `week3`: the main loop of `Dijkstra` and the path it leaves in `prev` -/

theorem Dist.lt_irrefl (a : Dist) : a.lt a = false := by
  cases a <;> simp [Dist.lt]

theorem Dist.lt_fin_zero (a : Dist) : a.lt (Dist.fin 0) = false := by
  cases a <;> simp [Dist.lt]

theorem Dist.add_not_lt (a w : Dist) : (a.add w).lt a = false := by
  cases a <;> cases w <;> simp [Dist.lt, Dist.add]

theorem Dist.ne_inf_of_lt {a b : Dist} (h : a.lt b = true) : a ≠ Dist.inf := by
  cases a <;> cases b <;> simp [Dist.lt] at h ⊢

theorem Dist.eq_inf_of_not_lt_inf {a : Dist} (h : a.lt Dist.inf = false) : a = Dist.inf := by
  cases a <;> simp [Dist.lt] at h ⊢

theorem Dist.lt_trans {a b c : Dist} (h1 : a.lt b = true) (h2 : b.lt c = true) :
    a.lt c = true := by
  cases a <;> cases b <;> cases c <;> simp [Dist.lt] at h1 h2 ⊢
  omega

/-- From `a <= b` and `b <= c` follows `a <= c`. -/
theorem Dist.le_trans {a b c : Dist} (h1 : b.lt a = false) (h2 : c.lt b = false) :
    c.lt a = false := by
  cases a <;> cases b <;> cases c <;> simp [Dist.lt] at h1 h2 ⊢
  omega

/-- From `a < b` follows `a <= b`. -/
theorem Dist.le_of_lt {a b : Dist} (h : a.lt b = true) : b.lt a = false := by
  cases a <;> cases b <;> simp [Dist.lt] at h ⊢
  omega

/-- From `a <= b` follows `a <= b + w`. -/
theorem Dist.le_add {a b : Dist} (w : Dist) (h : b.lt a = false) : (b.add w).lt a = false := by
  cases a <;> cases b <;> cases w <;> simp [Dist.lt, Dist.add] at h ⊢
  omega

/-- A finite sum has finite terms. -/
theorem Dist.add_eq_fin {a w : Dist} {k : Nat} (h : a.add w = Dist.fin k) :
    ∃ ka kw, a = Dist.fin ka ∧ w = Dist.fin kw ∧ k = ka + kw := by
  cases a <;> cases w <;> simp [Dist.add] at h
  exact ⟨_, _, rfl, rfl, h.symm⟩

theorem Dist.ne_inf_iff {a : Dist} : a ≠ Dist.inf ↔ ∃ k, a = Dist.fin k := by
  cases a <;> simp

/-- What the selection loop has found after the cities `seen`: nothing, all the
unvisited ones being at `+Inf`, or an unvisited city of least distance. -/
theorem selectMin_fold (dist : Int → Dist) (visited : Int → Bool) :
    ∀ (rest seen : List Int) (acc : Dist × Int),
      ((acc = (Dist.inf, -1) ∧ ∀ c ∈ seen, visited c = false → dist c = Dist.inf) ∨
        (acc.2 ∈ seen ∧ visited acc.2 = false ∧ acc.1 = dist acc.2 ∧ dist acc.2 ≠ Dist.inf ∧
          ∀ c ∈ seen, visited c = false → (dist c).lt (dist acc.2) = false)) →
      let r := rest.foldl
        (fun (acc : Dist × Int) (city : Int) =>
          if !visited city && (dist city).lt acc.1 then (dist city, city) else acc) acc
      ((r = (Dist.inf, -1) ∧ ∀ c ∈ seen ++ rest, visited c = false → dist c = Dist.inf) ∨
        (r.2 ∈ seen ++ rest ∧ visited r.2 = false ∧ r.1 = dist r.2 ∧ dist r.2 ≠ Dist.inf ∧
          ∀ c ∈ seen ++ rest, visited c = false → (dist c).lt (dist r.2) = false)) := by
  intro rest
  induction rest with
  | nil =>
    intro seen acc h
    simpa using h
  | cons a rest ih =>
    intro seen acc h
    rw [List.foldl_cons]
    have hsplit : seen ++ a :: rest = (seen ++ [a]) ++ rest := by simp
    rw [hsplit]
    apply ih
    by_cases hv : visited a = true
    · rw [if_neg (by simp [hv])]
      rcases h with ⟨h1, h2⟩ | ⟨h1, h2, h3, h4, h5⟩
      · left
        refine ⟨h1, fun c hc hvc => ?_⟩
        rcases List.mem_append.mp hc with hc | hc
        · exact h2 c hc hvc
        · rw [List.mem_singleton.mp hc, hv] at hvc; cases hvc
      · right
        refine ⟨List.mem_append_left _ h1, h2, h3, h4, fun c hc hvc => ?_⟩
        rcases List.mem_append.mp hc with hc | hc
        · exact h5 c hc hvc
        · rw [List.mem_singleton.mp hc, hv] at hvc; cases hvc
    · have hv : visited a = false := by simpa using hv
      by_cases hlt : (dist a).lt acc.1 = true
      · rw [if_pos (by simp [hv, hlt])]
        right
        refine ⟨by simp, hv, rfl, Dist.ne_inf_of_lt hlt, fun c hc hvc => ?_⟩
        rcases List.mem_append.mp hc with hc | hc
        · rcases h with ⟨h1, h2⟩ | ⟨_, _, h3, _, h5⟩
          · show (dist c).lt (dist a) = false
            rw [h2 c hc hvc]; rfl
          · have hle := h5 c hc hvc
            rw [h3] at hlt
            exact Dist.le_trans (Dist.le_of_lt hlt) hle
        · rw [List.mem_singleton.mp hc]; exact Dist.lt_irrefl _
      · have hlt : (dist a).lt acc.1 = false := by simpa using hlt
        rw [if_neg (by simp [hv, hlt])]
        rcases h with ⟨h1, h2⟩ | ⟨h1, h2, h3, h4, h5⟩
        · left
          refine ⟨h1, fun c hc hvc => ?_⟩
          rcases List.mem_append.mp hc with hc | hc
          · exact h2 c hc hvc
          · rw [List.mem_singleton.mp hc]
            rw [h1] at hlt
            exact Dist.eq_inf_of_not_lt_inf hlt
        · right
          refine ⟨List.mem_append_left _ h1, h2, h3, h4, fun c hc hvc => ?_⟩
          rcases List.mem_append.mp hc with hc | hc
          · exact h5 c hc hvc
          · rw [List.mem_singleton.mp hc, ← h3]; exact hlt

/-- The result of the selection loop: `(+Inf, -1)` when every unvisited city
is at `+Inf`, and otherwise an unvisited city of least distance. -/
theorem selectMin_spec (cities : List Int) (dist : Int → Dist) (visited : Int → Bool) :
    (selectMin cities dist visited = (Dist.inf, -1) ∧
        ∀ c ∈ cities, visited c = false → dist c = Dist.inf) ∨
      ((selectMin cities dist visited).2 ∈ cities ∧
        visited (selectMin cities dist visited).2 = false ∧
        dist (selectMin cities dist visited).2 ≠ Dist.inf ∧
        ∀ c ∈ cities, visited c = false →
          (dist c).lt (dist (selectMin cities dist visited).2) = false) := by
  have h := selectMin_fold dist visited cities [] (Dist.inf, -1)
    (Or.inl ⟨rfl, fun c hc => by cases hc⟩)
  simp only [List.nil_append] at h
  rcases h with h | ⟨h1, h2, _, h4, h5⟩
  · exact Or.inl h
  · exact Or.inr ⟨h1, h2, h4, h5⟩

theorem assign_same {β : Type} (m : Int → β) (k : Int) (v : β) : assign m k v k = v := by
  unfold assign; rw [if_pos rfl]

theorem assign_other {β : Type} (m : Int → β) (k : Int) (v : β) (x : Int) (h : x ≠ k) :
    assign m k v x = m x := by
  unfold assign; rw [if_neg h]

/-- Visiting an unvisited listed city leaves fewer cities unvisited. -/
theorem unvisited_assign_lt (cities : List Int) (visited : Int → Bool) (c : Int)
    (hc : c ∈ cities) (hv : visited c = false) :
    unvisited cities (assign visited c true) < unvisited cities visited := by
  unfold unvisited
  have hle : ∀ l : List Int, (l.filter (fun x => !(assign visited c true) x)).length
      ≤ (l.filter (fun x => !visited x)).length := by
    intro l
    apply List.Sublist.length_le
    apply List.monotone_filter_right
    intro x hx
    by_cases hxc : x = c
    · rw [hxc, assign_same] at hx; cases hx
    · rw [assign_other _ _ _ _ hxc] at hx; exact hx
  induction cities with
  | nil => cases hc
  | cons a rest ih =>
    by_cases hac : a = c
    · have h1 : (!(assign visited c true) a) = false := by rw [hac, assign_same]; rfl
      have h2 : (!visited a) = true := by rw [hac, hv]; rfl
      have e1 : (a :: rest).filter (fun x => !(assign visited c true) x)
          = rest.filter (fun x => !(assign visited c true) x) :=
        List.filter_cons_of_neg (by simp [h1])
      have e2 : (a :: rest).filter (fun x => !visited x) = a :: rest.filter (fun x => !visited x) :=
        List.filter_cons_of_pos h2
      rw [e1, e2, List.length_cons]
      have := hle rest
      omega
    · have hrest : c ∈ rest := by
        rcases List.mem_cons.mp hc with h | h
        · exact absurd h.symm hac
        · exact h
      have := ih hrest
      have h1 : (!(assign visited c true) a) = (!visited a) := by
        rw [assign_other _ _ _ _ hac]
      by_cases hva : (!visited a) = true
      · have e1 : (a :: rest).filter (fun x => !(assign visited c true) x)
            = a :: rest.filter (fun x => !(assign visited c true) x) :=
          List.filter_cons_of_pos (by rw [h1]; exact hva)
        have e2 : (a :: rest).filter (fun x => !visited x)
            = a :: rest.filter (fun x => !visited x) :=
          List.filter_cons_of_pos hva
        rw [e1, e2, List.length_cons, List.length_cons]
        omega
      · have e1 : (a :: rest).filter (fun x => !(assign visited c true) x)
            = rest.filter (fun x => !(assign visited c true) x) :=
          List.filter_cons_of_neg (by rw [h1]; exact hva)
        have e2 : (a :: rest).filter (fun x => !visited x) = rest.filter (fun x => !visited x) :=
          List.filter_cons_of_neg hva
        rw [e1, e2]
        exact this

theorem unvisited_le_length (cities : List Int) (visited : Int → Bool) :
    unvisited cities visited ≤ cities.length := by
  unfold unvisited
  exact List.length_filter_le _ _

/-- The main loop ends: one round more than there are unvisited cities is
enough. -/
theorem dijkstraLoop_terminates (g : Graph) (finish : Int) :
    ∀ (n : Nat) (dist : Int → Dist) (prev : Int → Int) (visited : Int → Bool),
      unvisited g.cityIDs visited ≤ n →
      ∃ r, dijkstraLoop g finish (n + 1) dist prev visited = some r := by
  intro n
  induction n with
  | zero =>
    intro dist prev visited hn
    rw [dijkstraLoop]
    rcases selectMin_spec g.cityIDs dist visited with ⟨h1, _⟩ | ⟨h1, h2, _, _⟩
    · exact ⟨(dist, prev), by simp [h1]⟩
    · have := unvisited_assign_lt g.cityIDs visited _ h1 h2
      omega
  | succ n ih =>
    intro dist prev visited hn
    rw [dijkstraLoop]
    by_cases hb : (selectMin g.cityIDs dist visited).2 = -1 ∨
        (selectMin g.cityIDs dist visited).2 = finish
    · exact ⟨(dist, prev), by simp only [if_pos hb]⟩
    · simp only [if_neg hb]
      apply ih
      rcases selectMin_spec g.cityIDs dist visited with ⟨h1, _⟩ | ⟨h1, h2, _, _⟩
      · exact absurd (Or.inl (by rw [h1])) hb
      · have := unvisited_assign_lt g.cityIDs visited _ h1 h2
        omega

/-- The rule of the main loop: what holds at the start and is kept by every
round that does not break holds of the state at the break, where the city
selected is `-1` or `finish`. -/
theorem dijkstraLoop_rule (g : Graph) (finish : Int)
    (P : (Int → Dist) → (Int → Int) → (Int → Bool) → Prop)
    (hstep : ∀ dist prev visited, P dist prev visited →
      (selectMin g.cityIDs dist visited).2 ≠ -1 →
      (selectMin g.cityIDs dist visited).2 ≠ finish →
      P (relax (g.adj (selectMin g.cityIDs dist visited).2)
          (selectMin g.cityIDs dist visited).2 (dist, prev)).1
        (relax (g.adj (selectMin g.cityIDs dist visited).2)
          (selectMin g.cityIDs dist visited).2 (dist, prev)).2
        (assign visited (selectMin g.cityIDs dist visited).2 true)) :
    ∀ (fuel : Nat) (dist : Int → Dist) (prev : Int → Int) (visited : Int → Bool),
      P dist prev visited →
      ∀ r, dijkstraLoop g finish fuel dist prev visited = some r →
        ∃ visited, P r.1 r.2 visited ∧
          ((selectMin g.cityIDs r.1 visited).2 = -1 ∨
            (selectMin g.cityIDs r.1 visited).2 = finish) := by
  intro fuel
  induction fuel with
  | zero =>
    intro dist prev visited _ r hr
    rw [dijkstraLoop] at hr
    cases hr
  | succ fuel ih =>
    intro dist prev visited hP r hr
    rw [dijkstraLoop] at hr
    by_cases hb : (selectMin g.cityIDs dist visited).2 = -1 ∨
        (selectMin g.cityIDs dist visited).2 = finish
    · simp only [if_pos hb] at hr
      cases hr
      exact ⟨visited, hP, hb⟩
    · simp only [if_neg hb] at hr
      have hb1 : (selectMin g.cityIDs dist visited).2 ≠ -1 := fun h => hb (Or.inl h)
      have hb2 : (selectMin g.cityIDs dist visited).2 ≠ finish := fun h => hb (Or.inr h)
      exact ih _ _ _ (hstep dist prev visited hP hb1 hb2) r hr

theorem relax_nil (c : Int) (dp : (Int → Dist) × (Int → Int)) : relax [] c dp = dp := rfl

theorem relax_cons (e : Edge) (es : List Edge) (c : Int) (dp : (Int → Dist) × (Int → Int)) :
    relax (e :: es) c dp =
      relax es c
        (if ((dp.1 c).add e.Weight).lt (dp.1 e.To) then
          (assign dp.1 e.To ((dp.1 c).add e.Weight), assign dp.2 e.To c)
        else dp) := rfl

/-- What the loop over the edges of `current` does to the two maps: the
distance of `current` stays, every other entry is either left alone or lowered
to the distance through an edge of `current` (with `prev` set to `current`), and
afterwards no edge of `current` offers a shorter way. -/
theorem relax_spec (c : Int) :
    ∀ (edges : List Edge) (d : Int → Dist) (p : Int → Int),
      (relax edges c (d, p)).1 c = d c ∧
      (∀ x, ((relax edges c (d, p)).1 x = d x ∧ (relax edges c (d, p)).2 x = p x) ∨
        ((relax edges c (d, p)).2 x = c ∧ ((relax edges c (d, p)).1 x).lt (d x) = true ∧
          ∃ e ∈ edges, e.To = x ∧ (relax edges c (d, p)).1 x = (d c).add e.Weight)) ∧
      (∀ e ∈ edges, ((d c).add e.Weight).lt ((relax edges c (d, p)).1 e.To) = false) := by
  intro edges
  induction edges with
  | nil =>
    intro d p
    refine ⟨rfl, fun x => Or.inl ⟨rfl, rfl⟩, fun e he => by cases he⟩
  | cons e es ih =>
    intro d p
    rw [relax_cons]
    dsimp only
    by_cases hlt : ((d c).add e.Weight).lt (d e.To) = true
    · rw [if_pos hlt]
      have hne : c ≠ e.To := by
        intro h
        rw [← h, Dist.add_not_lt] at hlt
        cases hlt
      have hc1 : assign d e.To ((d c).add e.Weight) c = d c := assign_other _ _ _ _ hne
      obtain ⟨r1, r2, r3⟩ := ih (assign d e.To ((d c).add e.Weight)) (assign p e.To c)
      rw [hc1] at r1 r2 r3
      refine ⟨r1, fun x => ?_, fun e1 he1 => ?_⟩
      · by_cases hx : x = e.To
        · right
          subst hx
          rcases r2 e.To with ⟨h1, h2⟩ | ⟨h1, h2, e2, he2, h3, h4⟩
          · rw [h1, h2, assign_same, assign_same]
            exact ⟨rfl, hlt, e, List.mem_cons_self _ _, rfl, rfl⟩
          · rw [assign_same] at h2
            exact ⟨h1, Dist.lt_trans h2 hlt, e2, List.mem_cons_of_mem _ he2, h3, h4⟩
        · rcases r2 x with ⟨h1, h2⟩ | ⟨h1, h2, e2, he2, h3, h4⟩
          · left
            rw [h1, h2, assign_other _ _ _ _ hx, assign_other _ _ _ _ hx]
            exact ⟨rfl, rfl⟩
          · right
            rw [assign_other _ _ _ _ hx] at h2
            exact ⟨h1, h2, e2, List.mem_cons_of_mem _ he2, h3, h4⟩
      · rcases List.mem_cons.mp he1 with h | h
        · rw [h]
          rcases r2 e.To with ⟨h1, _⟩ | ⟨_, h2, _⟩
          · rw [h1, assign_same]; exact Dist.lt_irrefl _
          · rw [assign_same] at h2
            exact Dist.le_of_lt h2
        · exact r3 e1 h
    · have hlt : ((d c).add e.Weight).lt (d e.To) = false := by simpa using hlt
      rw [if_neg (by simp [hlt])]
      obtain ⟨r1, r2, r3⟩ := ih d p
      refine ⟨r1, fun x => ?_, fun e1 he1 => ?_⟩
      · rcases r2 x with h | ⟨h1, h2, e2, he2, h3, h4⟩
        · exact Or.inl h
        · exact Or.inr ⟨h1, h2, e2, List.mem_cons_of_mem _ he2, h3, h4⟩
      · rcases List.mem_cons.mp he1 with h | h
        · rw [h]
          rcases r2 e.To with ⟨h1, _⟩ | ⟨_, h2, _⟩
          · rw [h1]; exact hlt
          · exact Dist.le_trans (Dist.le_of_lt h2) hlt
        · exact r3 e1 h

/-- An edge listed under `u` joins `u` to its target. -/
theorem Graph.joins_of_mem (g : Graph) (u : Int) (e : Edge) (he : e ∈ g.adj u) :
    g.joins u e.To e.Weight = true := by
  unfold Graph.joins
  rw [List.any_eq_true]
  exact ⟨e, he, by simp⟩

/-- Every listed city other than `start` begins at `+Inf`; `start` begins at
`0`, and so does (as the zero value) every key that is not listed. -/
theorem initDist_start (g : Graph) (start : Int) : initDist g start start = Dist.fin 0 := by
  unfold initDist
  rw [assign_same]

theorem initDist_unlisted (g : Graph) (start c : Int) (hc : c ∉ g.cityIDs) :
    initDist g start c = Dist.fin 0 := by
  unfold initDist
  by_cases hs : c = start
  · rw [hs, assign_same]
  · rw [assign_other _ _ _ _ hs]
    have key : ∀ (cities : List Int) (d : Int → Dist), c ∉ cities → d c = Dist.fin 0 →
        cities.foldl (fun (dist : Int → Dist) (city : Int) => assign dist city Dist.inf) d c
          = Dist.fin 0 := by
      intro cities
      induction cities with
      | nil => intro d _ h; exact h
      | cons a rest ih =>
        intro d hn h
        rw [List.foldl_cons]
        apply ih
        · exact fun hm => hn (List.mem_cons_of_mem _ hm)
        · rw [assign_other _ _ _ _ (fun hca => hn (by rw [hca]; exact List.mem_cons_self _ _))]
          exact h
    exact key g.cityIDs _ hc rfl

/-- The invariant holds when the main loop starts. -/
theorem LoopInv_init (g : Graph) (start finish : Int) :
    LoopInv g start finish (fun _ => 0) (initDist g start) (fun _ => 0) (fun _ => false) where
  start_zero := initDist_start g start
  finish_open := rfl
  unlisted := fun w hw => ⟨initDist_unlisted g start w hw, rfl⟩
  prev_zero := fun _ _ => rfl
  visited_listed := fun u hu => by cases hu
  visited_le := fun u w hu _ _ => by cases hu
  pred := fun w hw hws hwf => absurd (initDist_listed g start w hw hws) hwf
  rank_lt := fun u hu _ => by cases hu
  rank_bound := fun u hu => by cases hu
  closed := fun u hu _ _ => by cases hu

/-- A round of the main loop that visits the city `c`, an unvisited city of
least distance other than `finish`, keeps the invariant. -/
theorem LoopInv_visit (g : Graph) (start finish : Int) (rank : Int → Nat)
    (d : Int → Dist) (p : Int → Int) (v : Int → Bool)
    (h : LoopInv g start finish rank d p v) (c : Int)
    (hcl : c ∈ g.cityIDs) (hcv : v c = false) (hcf : d c ≠ Dist.inf)
    (hmin : ∀ w ∈ g.cityIDs, v w = false → (d w).lt (d c) = false) (hne : c ≠ finish) :
    LoopInv g start finish (assign rank c (if c = start then 0 else rank (p c) + 1))
      (relax (g.adj c) c (d, p)).1 (relax (g.adj c) c (d, p)).2 (assign v c true) := by
  obtain ⟨R1, R2, R3⟩ := relax_spec c (g.adj c) d p
  generalize relax (g.adj c) c (d, p) = r at R1 R2 R3 ⊢
  have hvis : ∀ u, assign v c true u = true → u ≠ c → v u = true := by
    intro u hu huc
    rw [assign_other _ _ _ _ huc] at hu
    exact hu
  have hU : ∀ u, v u = true ∨ u = c → r.1 u = d u ∧ r.2 u = p u := by
    intro u hu
    rcases R2 u with h1 | ⟨_, hlt, e, _, _, heq⟩
    · exact h1
    · exfalso
      rcases hu with hu | hu
      · have := Dist.le_add e.Weight (h.visited_le u c hu hcv hcl)
        rw [← heq, hlt] at this
        cases this
      · rw [hu, R1, Dist.lt_irrefl] at hlt
        cases hlt
  have hcnt := unvisited_assign_lt g.cityIDs v c hcl hcv
  have hlen := unvisited_le_length g.cityIDs v
  constructor
  · rcases R2 start with ⟨h1, _⟩ | ⟨_, hlt, _⟩
    · rw [h1]; exact h.start_zero
    · rw [h.start_zero, Dist.lt_fin_zero] at hlt
      cases hlt
  · rw [assign_other _ _ _ _ (Ne.symm hne)]
    exact h.finish_open
  · intro w hw
    rcases R2 w with ⟨h1, h2⟩ | ⟨_, hlt, _⟩
    · rw [h1, h2]; exact h.unlisted w hw
    · rw [(h.unlisted w hw).1, Dist.lt_fin_zero] at hlt
      cases hlt
  · intro w hw
    rcases R2 w with ⟨h1, h2⟩ | ⟨_, hlt, _⟩
    · rw [h2]
      exact h.prev_zero w (by rw [← h1]; exact hw)
    · exact absurd hw (Dist.ne_inf_of_lt hlt)
  · intro u hu
    by_cases huc : u = c
    · rw [huc, R1]
      exact ⟨hcl, hcf⟩
    · have hvu := hvis u hu huc
      rw [(hU u (Or.inl hvu)).1]
      exact h.visited_listed u hvu
  · intro u w hu hw hwl
    have hwc : w ≠ c := by
      intro hwc
      rw [hwc, assign_same] at hw
      cases hw
    rw [assign_other _ _ _ _ hwc] at hw
    have hcu : (d c).lt (d u) = false := by
      by_cases huc : u = c
      · rw [huc]; exact Dist.lt_irrefl _
      · exact h.visited_le u c (hvis u hu huc) hcv hcl
    have hu1 : r.1 u = d u := by
      by_cases huc : u = c
      · exact (hU u (Or.inr huc)).1
      · exact (hU u (Or.inl (hvis u hu huc))).1
    rw [hu1]
    rcases R2 w with ⟨h1, _⟩ | ⟨_, _, e, _, _, heq⟩
    · rw [h1]
      by_cases huc : u = c
      · rw [huc]; exact hmin w hwl hw
      · exact h.visited_le u w (hvis u hu huc) hw hwl
    · rw [heq]
      exact Dist.le_add e.Weight hcu
  · intro w hwl hws hwf
    rcases R2 w with ⟨h1, h2⟩ | ⟨h1, _, e, he, hto, heq⟩
    · rw [h1] at hwf
      obtain ⟨hpv, weight, hj, hd⟩ := h.pred w hwl hws hwf
      rw [h2, h1, (hU (p w) (Or.inl hpv)).1]
      refine ⟨?_, weight, hj, hd⟩
      by_cases hpc : p w = c
      · rw [hpc, assign_same]
      · rw [assign_other _ _ _ _ hpc]; exact hpv
    · rw [h1, assign_same, R1]
      refine ⟨rfl, e.Weight, ?_, heq⟩
      rw [← hto]
      exact g.joins_of_mem c e he
  · intro u hu hus
    by_cases huc : u = c
    · subst huc
      obtain ⟨hpv, _⟩ := h.pred u hcl hus hcf
      have hpu : p u ≠ u := by
        intro hpu
        rw [hpu, hcv] at hpv
        cases hpv
      rw [(hU u (Or.inr rfl)).2, assign_other _ _ _ _ hpu, assign_same, if_neg hus]
      omega
    · have hvu := hvis u hu huc
      obtain ⟨hul, huf⟩ := h.visited_listed u hvu
      obtain ⟨hpv, _⟩ := h.pred u hul hus huf
      have hpu : p u ≠ c := by
        intro hpu
        rw [hpu, hcv] at hpv
        cases hpv
      rw [(hU u (Or.inl hvu)).2, assign_other _ _ _ _ hpu, assign_other _ _ _ _ huc]
      exact h.rank_lt u hvu hus
  · intro u hu
    by_cases huc : u = c
    · rw [huc, assign_same]
      by_cases hcs : c = start
      · rw [if_pos hcs]
        omega
      · rw [if_neg hcs]
        obtain ⟨hpv, _⟩ := h.pred c hcl hcs hcf
        have := h.rank_bound (p c) hpv
        omega
    · rw [assign_other _ _ _ _ huc]
      have := h.rank_bound u (hvis u hu huc)
      omega
  · intro u hu e he
    by_cases huc : u = c
    · subst huc
      rw [R1]
      exact R3 e he
    · have hvu := hvis u hu huc
      rw [(hU u (Or.inl hvu)).1]
      have hold := h.closed u hvu e he
      rcases R2 e.To with ⟨h1, _⟩ | ⟨_, hlt, _⟩
      · rw [h1]; exact hold
      · exact Dist.le_trans (Dist.le_of_lt hlt) hold

/-- The state in which the main loop breaks satisfies the invariant, with some
rank and some set of visited cities. -/
theorem dijkstraLoop_inv (g : Graph) (start finish : Int) (fuel : Nat)
    (r : (Int → Dist) × (Int → Int))
    (hr : dijkstraLoop g finish fuel (initDist g start) (fun _ => 0) (fun _ => false) = some r) :
    ∃ rank visited, LoopInv g start finish rank r.1 r.2 visited ∧
      ((selectMin g.cityIDs r.1 visited).2 = -1 ∨
        (selectMin g.cityIDs r.1 visited).2 = finish) := by
  have hrule := dijkstraLoop_rule g finish
    (fun d p v => ∃ rank, LoopInv g start finish rank d p v)
    (by
      intro d p v hP hc1 hc2
      obtain ⟨rank, hinv⟩ := hP
      rcases selectMin_spec g.cityIDs d v with ⟨h1, _⟩ | ⟨h1, h2, h3, h4⟩
      · exact absurd (by rw [h1]) hc1
      · exact ⟨_, LoopInv_visit g start finish rank d p v hinv _ h1 h2 h3 h4 hc2⟩)
    fuel (initDist g start) (fun _ => 0) (fun _ => false)
    ⟨fun _ => 0, LoopInv_init g start finish⟩ r hr
  obtain ⟨visited, ⟨rank, hinv⟩, hb⟩ := hrule
  exact ⟨rank, visited, hinv, hb⟩

theorem buildPath_succ (start : Int) (prev : Int → Int) (fuel : Nat) (cur : Int)
    (path : List Int) :
    buildPath start prev (fuel + 1) cur path =
      if cur ≠ 0 then
        if cur = start then some (cur :: path)
        else buildPath start prev fuel (prev cur) (cur :: path)
      else some path := rfl

/-- The loop that rebuilds the path never puts the city `0` on it. -/
theorem buildPath_no_zero (start : Int) (prev : Int → Int) :
    ∀ (fuel : Nat) (cur : Int) (path r : List Int),
      buildPath start prev fuel cur path = some r → (0 : Int) ∉ path → (0 : Int) ∉ r := by
  intro fuel
  induction fuel with
  | zero =>
    intro cur path r h _
    cases h
  | succ fuel ih =>
    intro cur path r h hp
    rw [buildPath_succ] at h
    by_cases hc : cur ≠ 0
    · rw [if_pos hc] at h
      have hp2 : (0 : Int) ∉ cur :: path := by
        intro hm
        rcases List.mem_cons.mp hm with h0 | h0
        · exact hc h0.symm
        · exact hp h0
      by_cases hs : cur = start
      · rw [if_pos hs] at h
        cases h
        exact hp2
      · rw [if_neg hs] at h
        exact ih _ _ _ h hp2
    · rw [if_neg hc] at h
      cases h
      exact hp

/-- From a visited city the loop that rebuilds the path ends: one round more
than the rank of the city is enough. -/
theorem buildPath_terminates (g : Graph) (start finish : Int) (rank : Int → Nat)
    (d : Int → Dist) (p : Int → Int) (v : Int → Bool)
    (h : LoopInv g start finish rank d p v) :
    ∀ (n : Nat) (u : Int), v u = true → rank u ≤ n →
      ∀ rest, ∃ r, buildPath start p (n + 1) u rest = some r := by
  intro n
  induction n with
  | zero =>
    intro u hu hn rest
    rw [buildPath_succ]
    by_cases hc : u ≠ 0
    · rw [if_pos hc]
      by_cases hs : u = start
      · rw [if_pos hs]; exact ⟨_, rfl⟩
      · have := h.rank_lt u hu hs
        omega
    · rw [if_neg hc]; exact ⟨_, rfl⟩
  | succ n ih =>
    intro u hu hn rest
    rw [buildPath_succ]
    by_cases hc : u ≠ 0
    · rw [if_pos hc]
      by_cases hs : u = start
      · rw [if_pos hs]; exact ⟨_, rfl⟩
      · rw [if_neg hs]
        obtain ⟨hul, huf⟩ := h.visited_listed u hu
        obtain ⟨hpv, _⟩ := h.pred u hul hs huf
        have := h.rank_lt u hu hs
        exact ih (p u) hpv (by omega) (u :: rest)
    · rw [if_neg hc]; exact ⟨_, rfl⟩

/-- In every graph, for every start and every end, `Dijkstra` returns, and the
path it returns does not contain the city `0`. -/
theorem Dijkstra_returns_no_zero (g : Graph) (start finish : Int) (fuel : Nat)
    (hfuel : g.Cities.length + 2 ≤ fuel) :
    ∃ path d, Dijkstra g start finish fuel = some (path, d) ∧ (0 : Int) ∉ path := by
  have hlen : g.cityIDs.length = g.Cities.length := by
    unfold Graph.cityIDs; rw [List.length_map]
  obtain ⟨m, rfl⟩ : ∃ m, fuel = m + 2 := ⟨fuel - 2, by omega⟩
  obtain ⟨r, hr⟩ := dijkstraLoop_terminates g finish (m + 1) (initDist g start) (fun _ => 0)
    (fun _ => false) (by have := unvisited_le_length g.cityIDs (fun _ => false); omega)
  obtain ⟨rank, visited, hinv, _⟩ := dijkstraLoop_inv g start finish (m + 1 + 1) r hr
  have hbuild : ∃ path, buildPath start r.2 (m + 2) finish [] = some path := by
    rw [buildPath_succ]
    by_cases hc : finish ≠ 0
    · rw [if_pos hc]
      by_cases hs : finish = start
      · rw [if_pos hs]; exact ⟨_, rfl⟩
      · rw [if_neg hs]
        by_cases hfin : finish ∈ g.cityIDs ∧ r.1 finish ≠ Dist.inf
        · obtain ⟨hpv, _⟩ := hinv.pred finish hfin.1 hs hfin.2
          have := hinv.rank_bound (r.2 finish) hpv
          exact buildPath_terminates g start finish rank r.1 r.2 visited hinv m (r.2 finish) hpv
            (by omega) [finish]
        · have hz : r.2 finish = 0 := by
            by_cases hl : finish ∈ g.cityIDs
            · have : r.1 finish = Dist.inf := by
                by_contra hne
                exact hfin ⟨hl, hne⟩
              exact hinv.prev_zero finish this
            · exact (hinv.unlisted finish hl).2
          rw [hz, buildPath_succ, if_neg (by simp)]
          exact ⟨_, rfl⟩
    · rw [if_neg hc]; exact ⟨_, rfl⟩
  obtain ⟨path, hpath⟩ := hbuild
  refine ⟨path, r.1 finish, ?_, buildPath_no_zero start r.2 _ _ _ _ hpath (by simp)⟩
  unfold Dijkstra
  rw [hr]
  dsimp only
  rw [hpath]

theorem Graph.isRoute_cons_cons (g : Graph) (u v : Int) (rest : List Int) (w : Nat)
    (ws : List Nat) :
    g.isRoute (u :: v :: rest) (w :: ws) =
      (g.joins u v (Dist.fin w) && g.isRoute (v :: rest) ws) := rfl

/-- A route is not empty. -/
theorem Graph.isRoute_ne_nil (g : Graph) (ws : List Nat) : g.isRoute [] ws = false := by
  cases ws <;> rfl

/-- A route can be continued by an edge out of its last city. -/
theorem Graph.isRoute_snoc (g : Graph) (x u : Int) (w : Nat) :
    ∀ (pre : List Int) (ws : List Nat), g.isRoute pre ws = true → pre.getLast? = some x →
      g.joins x u (Dist.fin w) = true → g.isRoute (pre ++ [u]) (ws ++ [w]) = true := by
  intro pre
  induction pre with
  | nil =>
    intro ws h _ _
    rw [Graph.isRoute_ne_nil] at h
    cases h
  | cons a rest ih =>
    intro ws h hl hj
    cases rest with
    | nil =>
      cases ws with
      | nil =>
        simp only [List.getLast?_singleton, Option.some.injEq] at hl
        subst hl
        show g.isRoute [a, u] [w] = true
        rw [Graph.isRoute_cons_cons, hj]
        rfl
      | cons w0 ws => cases h
    | cons b rest =>
      cases ws with
      | nil => cases h
      | cons w0 ws =>
        rw [Graph.isRoute_cons_cons, Bool.and_eq_true] at h
        have hl2 : (b :: rest).getLast? = some x := by
          rw [List.getLast?_cons_cons] at hl
          exact hl
        have := ih ws h.2 hl2 hj
        show g.isRoute (a :: b :: (rest ++ [u])) (w0 :: (ws ++ [w])) = true
        rw [Graph.isRoute_cons_cons, Bool.and_eq_true]
        exact ⟨h.1, this⟩

/-- An edge that joins `u` to `v` is listed under `u`. -/
theorem Graph.mem_of_joins (g : Graph) (u v : Int) (w : Dist) (h : g.joins u v w = true) :
    ∃ e ∈ g.adj u, e.To = v ∧ e.Weight = w := by
  unfold Graph.joins at h
  rw [List.any_eq_true] at h
  obtain ⟨e, he, hd⟩ := h
  exact ⟨e, he, of_decide_eq_true hd⟩

/-- From a visited city, when no city has the ID `0`, the loop that rebuilds
the path puts in front of what it has a route from `start` to that city, and
the weights of the route add up to the distance of the city. -/
theorem buildPath_route (g : Graph) (start finish : Int) (rank : Int → Nat)
    (d : Int → Dist) (p : Int → Int) (v : Int → Bool)
    (h : LoopInv g start finish rank d p v) (h0 : (0 : Int) ∉ g.cityIDs) :
    ∀ (n : Nat) (u : Int), v u = true → rank u ≤ n →
      ∀ rest, ∃ pre ws, buildPath start p (n + 1) u rest = some (pre ++ rest) ∧
        pre.head? = some start ∧ pre.getLast? = some u ∧ g.isRoute pre ws = true ∧
        d u = Dist.fin ws.sum := by
  intro n
  induction n with
  | zero =>
    intro u hu hn rest
    have hs : u = start := by
      by_contra hs
      have := h.rank_lt u hu hs
      omega
    have hc : u ≠ 0 := fun hc => h0 (by rw [← hc]; exact (h.visited_listed u hu).1)
    rw [buildPath_succ, if_pos hc, if_pos hs]
    refine ⟨[u], [], rfl, by rw [hs]; rfl, rfl, rfl, ?_⟩
    rw [hs]; exact h.start_zero
  | succ n ih =>
    intro u hu hn rest
    obtain ⟨hul, huf⟩ := h.visited_listed u hu
    have hc : u ≠ 0 := fun hc => h0 (by rw [← hc]; exact hul)
    rw [buildPath_succ, if_pos hc]
    by_cases hs : u = start
    · rw [if_pos hs]
      refine ⟨[u], [], rfl, by rw [hs]; rfl, rfl, rfl, ?_⟩
      rw [hs]; exact h.start_zero
    · rw [if_neg hs]
      obtain ⟨hpv, weight, hj, hd⟩ := h.pred u hul hs huf
      have hr := h.rank_lt u hu hs
      obtain ⟨pre, ws, hb, hhead, hlast, hroute, hdp⟩ := ih (p u) hpv (by omega) (u :: rest)
      obtain ⟨ku, hku⟩ := Dist.ne_inf_iff.mp huf
      rw [hku] at hd
      obtain ⟨ka, kw, hka, hkw, hsum⟩ := Dist.add_eq_fin hd.symm
      rw [hkw] at hj
      refine ⟨pre ++ [u], ws ++ [kw], ?_, ?_, ?_, ?_, ?_⟩
      · rw [hb, List.append_assoc]; rfl
      · cases pre with
        | nil => cases hhead
        | cons a t => exact hhead
      · rw [List.getLast?_append]; rfl
      · exact g.isRoute_snoc (p u) u kw pre ws hroute hlast hj
      · rw [hku, hsum, List.sum_append, List.sum_singleton]
        rw [hdp] at hka
        cases hka
        rfl

/-- When the selection loop finds no city, every city of a route that starts at
a city of finite distance has been visited. -/
theorem route_visited (g : Graph) (start finish : Int) (rank : Int → Nat)
    (d : Int → Dist) (p : Int → Int) (v : Int → Bool)
    (h : LoopInv g start finish rank d p v)
    (hnone : ∀ c ∈ g.cityIDs, v c = false → d c = Dist.inf) :
    ∀ (cities : List Int) (ws : List Nat), g.isRoute cities ws = true →
      (∀ c ∈ cities, c ∈ g.cityIDs) →
      (∀ first, cities.head? = some first → d first ≠ Dist.inf) →
      ∀ c ∈ cities, v c = true := by
  intro cities
  induction cities with
  | nil =>
    intro ws _ _ _ c hc
    cases hc
  | cons a rest ih =>
    intro ws hroute hlisted hfirst
    have hva : v a = true := by
      by_contra hva
      have hva : v a = false := by simpa using hva
      exact hfirst a rfl (hnone a (hlisted a (List.mem_cons_self _ _)) hva)
    cases rest with
    | nil =>
      intro c hc
      rw [List.mem_singleton.mp hc]
      exact hva
    | cons b rest =>
      cases ws with
      | nil => cases hroute
      | cons w ws =>
        rw [Graph.isRoute_cons_cons, Bool.and_eq_true] at hroute
        obtain ⟨e, he, hto, hw⟩ := g.mem_of_joins a b (Dist.fin w) hroute.1
        have hcl := h.closed a hva e he
        rw [hto, hw] at hcl
        have hb : d b ≠ Dist.inf := by
          intro hb
          obtain ⟨ka, hka⟩ := Dist.ne_inf_iff.mp (h.visited_listed a hva).2
          rw [hb, hka] at hcl
          cases hcl
        have := ih ws hroute.2 (fun c hc => hlisted c (List.mem_cons_of_mem _ hc))
          (fun first hf => by cases hf; exact hb)
        intro c hc
        rcases List.mem_cons.mp hc with hca | hc
        · rw [hca]; exact hva
        · exact this c hc

/-- Where no city has the ID `0` or `-1`, the path is as it should be: if some
route through listed cities leads from `start` to `finish`, then `Dijkstra`
returns a finite distance and a path that begins with `start`, ends with
`finish`, joins every two consecutive cities by an edge of the graph, and whose
edge weights add up to the distance returned.  The two IDs are the only thing
that stands between the loop that rebuilds the path and this property. -/
theorem Dijkstra_path_sound (g : Graph) (start finish : Int) (fuel : Nat)
    (h0 : (0 : Int) ∉ g.cityIDs) (hm : (-1 : Int) ∉ g.cityIDs)
    (cities : List Int) (ws : List Nat) (hroute : g.isRoute cities ws = true)
    (hhead : cities.head? = some start) (hlast : cities.getLast? = some finish)
    (hlisted : ∀ c ∈ cities, c ∈ g.cityIDs)
    (hfuel : g.Cities.length + 2 ≤ fuel) :
    ∃ path weights, Dijkstra g start finish fuel = some (path, Dist.fin weights.sum) ∧
      path.head? = some start ∧ path.getLast? = some finish ∧
      g.isRoute path weights = true := by
  have hlen : g.cityIDs.length = g.Cities.length := by
    unfold Graph.cityIDs; rw [List.length_map]
  have hfl : finish ∈ g.cityIDs := hlisted finish (List.mem_of_getLast?_eq_some hlast)
  have hf0 : finish ≠ 0 := fun hc => h0 (by rw [← hc]; exact hfl)
  obtain ⟨m, rfl⟩ : ∃ m, fuel = m + 2 := ⟨fuel - 2, by omega⟩
  obtain ⟨r, hr⟩ := dijkstraLoop_terminates g finish (m + 1) (initDist g start) (fun _ => 0)
    (fun _ => false) (by have := unvisited_le_length g.cityIDs (fun _ => false); omega)
  obtain ⟨rank, visited, hinv, hexit⟩ := dijkstraLoop_inv g start finish (m + 1 + 1) r hr
  have hdfin : r.1 finish ≠ Dist.inf := by
    rcases selectMin_spec g.cityIDs r.1 visited with ⟨_, h2⟩ | ⟨h1, _, h3, _⟩
    · exfalso
      have hv := route_visited g start finish rank r.1 r.2 visited hinv h2 cities ws hroute
        hlisted
        (fun first hfirst => by
          rw [hhead] at hfirst
          cases hfirst
          rw [hinv.start_zero]
          exact fun hc => by cases hc)
        finish (List.mem_of_getLast?_eq_some hlast)
      rw [hinv.finish_open] at hv
      cases hv
    · rcases hexit with he | he
      · rw [he] at h1
        exact absurd h1 hm
      · rw [he] at h3
        exact h3
  unfold Dijkstra
  rw [hr]
  dsimp only
  rw [buildPath_succ, if_pos hf0]
  by_cases hs : finish = start
  · rw [if_pos hs]
    refine ⟨[finish], [], ?_, by rw [hs]; rfl, rfl, rfl⟩
    rw [hs, hinv.start_zero]
    rfl
  · rw [if_neg hs]
    obtain ⟨hpv, weight, hj, hd⟩ := hinv.pred finish hfl hs hdfin
    have hrb := hinv.rank_bound (r.2 finish) hpv
    obtain ⟨pre, ws1, hb, hh, hl, hro, hdp⟩ :=
      buildPath_route g start finish rank r.1 r.2 visited hinv h0 m (r.2 finish) hpv
        (by omega) [finish]
    obtain ⟨kf, hkf⟩ := Dist.ne_inf_iff.mp hdfin
    rw [hkf] at hd
    obtain ⟨ka, kw, hka, hkw, hsum⟩ := Dist.add_eq_fin hd.symm
    rw [hkw] at hj
    rw [hdp] at hka
    cases hka
    refine ⟨pre ++ [finish], ws1 ++ [kw], ?_, ?_, ?_, ?_⟩
    · rw [hb, hkf, hsum, List.sum_append, List.sum_singleton]
    · cases pre with
      | nil => cases hh
      | cons a t => exact hh
    · rw [List.getLast?_append]; rfl
    · exact g.isRoute_snoc (r.2 finish) finish kw pre ws1 hro hl hj

/-- In the graph `detour` the city `3` is reached from the city `1` by the
route `1, 2, 3`; `Dijkstra` returns that route and its length 2. -/
theorem Dijkstra_path_sound_example :
    Dijkstra detour 1 3 5 = some ([1, 2, 3], Dist.fin 2) ∧
    ∃ path weights, Dijkstra detour 1 3 5 = some (path, Dist.fin weights.sum) ∧
      path.head? = some 1 ∧ path.getLast? = some 3 ∧ detour.isRoute path weights = true :=
  ⟨by decide,
   Dijkstra_path_sound detour 1 3 5 (by decide) (by decide) [1, 3] [5] (by decide) rfl rfl
     (by decide) (by decide)⟩

/-- C21: a city with the ID `0` breaks the path.  In the graph with the two
cities `1` and `0` joined by a road of length 1 (in whichever order the map
yields the cities), `Dijkstra(g, 1, 0)` returns the empty path together with
the distance 1, and `Dijkstra(g, 0, 1)` returns the path `1`, which does not
begin with the start; with the cities `1`, `0`, `2` on a line, `Dijkstra(g, 1,
2)` returns the path `2` and the distance 2, although `1, 0, 2` is a route of
that length.  The loop that rebuilds the path reads the ID `0` as "no
predecessor", so in every graph, for every start and end, `Dijkstra` returns a
path that does not contain the city `0`. -/
theorem Dijkstra_city_zero_breaks_path :
    (∀ fuel : Nat, 2 ≤ fuel → ∀ b : Bool,
      Dijkstra (zeroCities b) 1 0 fuel = some ([], Dist.fin 1) ∧
      Dijkstra (zeroCities b) 0 1 fuel = some ([1], Dist.fin 1)) ∧
    (∀ b : Bool, (zeroCities b).isRoute [1, 0] [1] = true ∧
      (zeroCities b).isRoute [0, 1] [1] = true) ∧
    (∀ cs ∈ lineOrders, ∀ fuel : Nat, 3 ≤ fuel →
      Dijkstra (viaZero cs) 1 2 fuel = some ([2], Dist.fin 2)) ∧
    (∀ cs ∈ lineOrders, (viaZero cs).isRoute [1, 0, 2] [1, 1] = true) ∧
    (∀ (g : Graph) (start finish : Int) (fuel : Nat), g.Cities.length + 2 ≤ fuel →
      ∃ path d, Dijkstra g start finish fuel = some (path, d) ∧ (0 : Int) ∉ path) := by
  refine ⟨fun fuel hf b => ?_, by decide, fun cs hcs fuel hf => ?_, by decide,
    fun g start finish fuel hf => Dijkstra_returns_no_zero g start finish fuel hf⟩
  · obtain ⟨f, rfl⟩ : ∃ f, fuel = f + 2 := ⟨fuel - 2, by omega⟩
    cases b <;> exact ⟨rfl, rfl⟩
  · obtain ⟨f, rfl⟩ : ∃ f, fuel = f + 3 := ⟨fuel - 3, by omega⟩
    simp only [lineOrders, List.mem_cons, List.mem_singleton, List.not_mem_nil, or_false] at hcs
    rcases hcs with h | h | h | h | h | h <;> subst h <;> rfl

/-- Witness of C21: the two-city graph has two cities, four rounds are enough,
and the path returned from `1` to `0` does not contain `0`. -/
theorem Dijkstra_city_zero_breaks_path_witness :
    (zeroCities true).Cities.length + 2 ≤ 4 ∧
    ∃ path d, Dijkstra (zeroCities true) 1 0 4 = some (path, d) ∧ (0 : Int) ∉ path :=
  ⟨by decide,
   Dijkstra_city_zero_breaks_path.2.2.2.2 (zeroCities true) 1 0 4 (by decide)⟩

end Week3

namespace Crawler

/-! ## The worker: scheduling links -/

/-- An `Add` event on a live run with an open queue leaves the run live, the
queue open and the configuration as it was. -/
theorem RunState.step_add_open (s : RunState) (job : Job)
    (hlive : s.crashed = false) (hopen : s.d.jobCh.closed = false) :
    (s.step (Op.add job)).crashed = false ∧
    (s.step (Op.add job)).d.jobCh.closed = false ∧
    (s.step (Op.add job)).d.followExternal = s.d.followExternal := by
  unfold RunState.step
  simp only [hlive, Bool.false_eq_true, if_false]
  rcases Add_spec s.d job with ⟨_, h⟩ | ⟨u, _, _, h⟩ | ⟨u, _, _, hc, _⟩ |
    ⟨u, _, _, _, _, h⟩ | ⟨u, _, _, _, _, h⟩
  · rw [h]; exact ⟨rfl, hopen, rfl⟩
  · rw [h]; exact ⟨rfl, hopen, rfl⟩
  · rw [hopen] at hc; cases hc
  · rw [h]; exact ⟨rfl, hopen, rfl⟩
  · rw [h]; exact ⟨rfl, hopen, rfl⟩

/-- In a list without repetition every string occurs once or not at all. -/
theorem count_of_nodup (l : List (List Char)) (hnd : l.Nodup) (a : List Char) :
    l.count a = if a ∈ l then 1 else 0 := by
  induction l with
  | nil => simp
  | cons b rest ih =>
    rw [List.count_cons, ih (List.nodup_cons.mp hnd).2]
    by_cases hba : b = a
    · subst hba
      have hnot : b ∉ rest := (List.nodup_cons.mp hnd).1
      simp [hnot]
    · have hb : (b == a) = false := beq_eq_false_iff_ne.mpr hba
      have hiff : a ∈ b :: rest ↔ a ∈ rest := by
        rw [List.mem_cons]
        exact ⟨fun h => h.resolve_left (fun e => hba e.symm), Or.inr⟩
      simp only [hb, hiff, Bool.false_eq_true, if_false, Nat.add_zero]

/-- On a live run with an open queue the link loop passes to `Add` exactly the
links that pass its test, in order. -/
theorem scheduleLinks_open (w : World) (baseURL : URL) (depth : Int) (links : List (List Char)) :
    ∀ (s : RunState) (added : List Job), s.crashed = false → s.d.jobCh.closed = false →
      (scheduleLinks w baseURL depth links s added).2 =
        added ++ (links.filter (fun l =>
          s.d.followExternal || sameSite w.url w.PublicSuffix baseURL l)).map
          (fun l => (⟨l, wrapInt (depth + 1)⟩ : Job)) ∧
      (scheduleLinks w baseURL depth links s added).1.crashed = false ∧
      (scheduleLinks w baseURL depth links s added).1.d.jobCh.closed = false := by
  induction links with
  | nil => intro s added hlive hopen; simp [scheduleLinks, hlive, hopen]
  | cons l rest ih =>
    intro s added hlive hopen
    rw [scheduleLinks]
    simp only [hlive, Bool.false_eq_true, if_false]
    by_cases hskip : (!s.d.followExternal && !sameSite w.url w.PublicSuffix baseURL l) = true
    · rw [if_pos hskip]
      have hk : (s.d.followExternal || sameSite w.url w.PublicSuffix baseURL l) = false := by
        cases h1 : s.d.followExternal <;> cases h2 : sameSite w.url w.PublicSuffix baseURL l <;>
          simp [h1, h2] at hskip ⊢
      rw [List.filter_cons_of_neg (by simp [hk])]
      exact ih s added hlive hopen
    · rw [if_neg hskip]
      have hk : (s.d.followExternal || sameSite w.url w.PublicSuffix baseURL l) = true := by
        cases h1 : s.d.followExternal <;> cases h2 : sameSite w.url w.PublicSuffix baseURL l <;>
          simp [h1, h2] at hskip ⊢
      obtain ⟨h1, h2, h3⟩ := RunState.step_add_open s ⟨l, wrapInt (depth + 1)⟩ hlive hopen
      have := ih (s.step (Op.add ⟨l, wrapInt (depth + 1)⟩))
        (added ++ [⟨l, wrapInt (depth + 1)⟩]) h1 h2
      rw [h3] at this
      rw [List.filter_cons_of_pos (by simp [hk]), List.map_cons]
      refine ⟨?_, this.2⟩
      rw [this.1, List.append_assoc]
      rfl

/-- On a live run with an open queue and external links not followed, the
worker passes to `Add` exactly the distinct links of the page for which
`sameSite` answers `true`, each of them once and in the order of first
appearance, with the depth of the page plus one. -/
theorem scheduleLinks_passing_links_once (w : World) (s : RunState) (depth : Int)
    (baseURL : URL) (tokens : List Token) (links : List (List Char)) (imgs : List ImageRef)
    (hlive : s.crashed = false) (hopen : s.d.jobCh.closed = false)
    (hext : s.d.followExternal = false)
    (hparse : parseHTMLForLinksAndImages w.url w.ToLower tokens true baseURL
      = some (links, imgs)) :
    (scheduleLinks w baseURL depth links s []).2 =
      (links.filter (fun l => sameSite w.url w.PublicSuffix baseURL l)).map
        (fun l => (⟨l, wrapInt (depth + 1)⟩ : Job)) ∧
    (∀ l : List Char,
      ((scheduleLinks w baseURL depth links s []).2.map Job.URL).count l =
        if l ∈ (parseTokens w.url w.ToLower baseURL tokens [] []).1 ∧
            sameSite w.url w.PublicSuffix baseURL l = true then 1 else 0) := by
  have hlinks : links = uniqueStrings (parseTokens w.url w.ToLower baseURL tokens [] []).1 := by
    unfold parseHTMLForLinksAndImages at hparse
    simp only [if_true] at hparse
    exact (congrArg Prod.fst (Option.some.inj hparse)).symm
  have hadd := (scheduleLinks_open w baseURL depth links s [] hlive hopen).1
  simp only [hext, Bool.false_or, List.nil_append] at hadd
  have hurls : (scheduleLinks w baseURL depth links s []).2.map Job.URL =
      links.filter (fun l => sameSite w.url w.PublicSuffix baseURL l) := by
    rw [hadd, List.map_map]
    exact List.map_id _
  have hnd : (links.filter (fun l => sameSite w.url w.PublicSuffix baseURL l)).Nodup := by
    rw [hlinks]
    exact (uniqueStringsLoop_nodup _ []).filter _
  have hmem : ∀ l, l ∈ links ↔ l ∈ (parseTokens w.url w.ToLower baseURL tokens [] []).1 := by
    intro l
    rw [hlinks]
    have := uniqueStringsLoop_mem (parseTokens w.url w.ToLower baseURL tokens [] []).1 [] l
    simpa [uniqueStrings] using this
  refine ⟨hadd, fun l => ?_⟩
  rw [hurls, count_of_nodup _ hnd]
  simp only [List.mem_filter, hmem]

/-- C11: with external-following disabled the worker does schedule a link to
another site, and does not schedule every same-site link.  The page fetched
from `http://localhost:8080/` with the link `<a href="http://intranet/">`: the
hosts `localhost` and `intranet` differ and neither has a registrable domain,
`sameSite` compares the two empty strings left by the discarded errors, and the
worker passes the job `http://intranet/` to `Add`, which puts it on the queue.
With the queue closed by `Run`, the page with the links `http://example.com/x`
and `http://example.com/gone`, both on the site of the page: `Add` panics on
the first link and the second one is never passed.  The page of the example,
with `<a href="/x">`, `<a href="/x">` and `<a href="http://other.test/y">`
fetched from `http://example.com/` on a fresh dispatcher, gives the one job
`http://example.com/x`. -/
theorem worker_schedules_other_site_link :
    exampleDispatcher.followExternal = false ∧
    (plainURL "http".toList "localhost:8080".toList "/".toList).Hostname = "localhost".toList ∧
    (plainURL "http".toList "intranet".toList "/".toList).Hostname = "intranet".toList ∧
    EffectiveTLDPlusOne lastLabel "localhost".toList = ([], some ETLDError.cannotDerive) ∧
    EffectiveTLDPlusOne lastLabel "intranet".toList = ([], some ETLDError.cannotDerive) ∧
    (workerJob intranetWorld 5 (RunState.start exampleDispatcher) []
        ⟨"http://localhost:8080/".toList, 0⟩).map
        (fun t => (t.fetched, t.added, t.s.d.jobCh.buf, t.s.crashed))
      = some (true, [⟨"http://intranet/".toList, 1⟩], [⟨"http://intranet/".toList, 1⟩], false) ∧
    sameSite pageLib lastLabel (plainURL "http".toList "example.com".toList "/".toList)
      "http://example.com/x".toList = true ∧
    sameSite pageLib lastLabel (plainURL "http".toList "example.com".toList "/".toList)
      "http://example.com/gone".toList = true ∧
    ((scheduleLinks (exampleWorld (fun _ => HttpResult.failed) [])
        (plainURL "http".toList "example.com".toList "/".toList) 0
        ["http://example.com/x".toList, "http://example.com/gone".toList]
        ((RunState.start exampleDispatcher).step Op.close) []).2
      = [⟨"http://example.com/x".toList, 1⟩]) ∧
    ((scheduleLinks (exampleWorld (fun _ => HttpResult.failed) [])
        (plainURL "http".toList "example.com".toList "/".toList) 0
        ["http://example.com/x".toList, "http://example.com/gone".toList]
        ((RunState.start exampleDispatcher).step Op.close) []).1.crashed = true) ∧
    ((scheduleLinks (exampleWorld (fun _ => HttpResult.failed) threeLinks)
        (plainURL "http".toList "example.com".toList "/".toList) 0
        ["http://example.com/x".toList, "http://other.test/y".toList]
        (RunState.start exampleDispatcher) []).2
      = [⟨"http://example.com/x".toList, 1⟩]) := by
  refine ⟨rfl, by decide, by decide, by decide, by decide, by decide, by decide, by decide,
    by decide, by decide, by decide⟩

/-! ## Extraction: images with a `data:` source -/

/-- A reference that starts with `data:` after trimming is rejected. -/
theorem sanitizeURL_data (lib : UrlLib) (raw : List Char) (base : URL)
    (h : HasPrefix (TrimSpace raw) "data:".toList = true) : sanitizeURL lib raw base = [] := by
  unfold sanitizeURL
  simp only [h, if_true]
  split <;> rfl

/-- A reference that `sanitizeURL` accepts comes back starting with `http:` or
`https:`. -/
theorem sanitizeURL_nonempty_prefix (lib : UrlLib) (raw : List Char) (base : URL)
    (hne : sanitizeURL lib raw base ≠ []) :
    HasPrefix (sanitizeURL lib raw base) "http:".toList = true ∨
      HasPrefix (sanitizeURL lib raw base) "https:".toList = true := by
  have he : TrimSpace raw ≠ [] := by
    intro h
    apply hne
    unfold sanitizeURL
    simp only [h, if_true]
  have hd : HasPrefix (TrimSpace raw) "data:".toList = false := by
    cases h : HasPrefix (TrimSpace raw) "data:".toList
    · rfl
    · exact absurd (sanitizeURL_data lib raw base h) hne
  cases hp : lib.Parse (TrimSpace raw) with
  | none =>
    exfalso
    apply hne
    unfold sanitizeURL
    simp only [hp]
    split <;> (try split) <;> rfl
  | some u =>
    have hs := sanitizeURL_parsed lib raw base u he hd hp
    generalize (if u.Scheme = [] then base.ResolveReference lib u else u) = v at hs
    by_cases hsch : v.Scheme ≠ "http".toList ∧ v.Scheme ≠ "https".toList
    · rw [if_pos hsch] at hs
      exact absurd hs hne
    · rw [if_neg hsch] at hs
      have hor : v.Scheme = "http".toList ∨ v.Scheme = "https".toList := by
        by_cases h1 : v.Scheme = "http".toList
        · exact Or.inl h1
        · by_cases h2 : v.Scheme = "https".toList
          · exact Or.inr h2
          · exact absurd ⟨h1, h2⟩ hsch
      have hnz : v.Scheme ≠ [] := by
        rcases hor with h | h <;> rw [h] <;> decide
      rw [hs, URL.String_of_scheme lib v hnz]
      rcases hor with h | h
      · left; rw [h]; simp [HasPrefix]
      · right; rw [h]; simp [HasPrefix]

/-- The token loop run over two lists in a row. -/
theorem parseTokens_append (lib : UrlLib) (ToLower : List Char → List Char) (base : URL)
    (pre post : List Token) : ∀ (links : List (List Char)) (images : List ImageRef),
      parseTokens lib ToLower base (pre ++ post) links images =
        parseTokens lib ToLower base post (parseTokens lib ToLower base pre links images).1
          (parseTokens lib ToLower base pre links images).2 := by
  induction pre with
  | nil => intro links images; rfl
  | cons n rest ih =>
    intro links images
    rw [List.cons_append, parseTokens, parseTokens]
    split
    · split
      · exact ih _ _
      · split
        · split
          · exact ih _ _
          · exact ih _ _
        · exact ih _ _
    · exact ih _ _

/-- An `<img>` token whose source `sanitizeURL` rejects leaves the token loop as
if it were not there. -/
theorem parseTokens_skip_img (lib : UrlLib) (ToLower : List Char → List Char) (base : URL)
    (t : Token) (rest : List Token) (links : List (List Char)) (images : List ImageRef)
    (himg : t.Data = "img".toList)
    (hrej : sanitizeURL lib (imgAttrs ToLower t.Attr).1 base = []) :
    parseTokens lib ToLower base (t :: rest) links images =
      parseTokens lib ToLower base rest links images := by
  have hna : ¬ t.Data = "a".toList := by rw [himg]; decide
  rw [parseTokens]
  split
  · rw [if_neg (by simp [hrej])]
  · rfl

/-- Every image reference that the token loop adds has a source that starts
with `http:` or `https:`. -/
theorem parseTokens_images_http (lib : UrlLib) (ToLower : List Char → List Char) (base : URL)
    (tokens : List Token) : ∀ (links : List (List Char)) (images : List ImageRef),
      (∀ i ∈ images, HasPrefix i.Src "http:".toList = true ∨
        HasPrefix i.Src "https:".toList = true) →
      ∀ i ∈ (parseTokens lib ToLower base tokens links images).2,
        HasPrefix i.Src "http:".toList = true ∨ HasPrefix i.Src "https:".toList = true := by
  induction tokens with
  | nil => intro links images h; exact h
  | cons n rest ih =>
    intro links images h
    rw [parseTokens]
    split
    · split
      · exact ih _ _ h
      · split
        · split
          · rename_i hne
            apply ih
            intro i hi
            rcases List.mem_append.mp hi with hi | hi
            · exact h i hi
            · rw [List.mem_singleton] at hi
              subst hi
              exact sanitizeURL_nonempty_prefix lib (imgAttrs ToLower n.Attr).1 base hne
          · exact ih _ _ h
        · exact ih _ _ h
    · exact ih _ _ h

/-- The image loop calls `processImage` for every image, in order. -/
theorem processImages_calls (w : World) (d : Dispatcher) (pageBase : URL) (fuel : Nat)
    (imgs : List ImageRef) : ∀ (t r : ImagesTrace),
      processImages w d pageBase fuel imgs t = some r → r.calls = t.calls ++ imgs := by
  induction imgs with
  | nil =>
    intro t r h
    rw [processImages] at h
    cases h
    simp
  | cons img rest ih =>
    intro t r h
    rw [processImages] at h
    split at h
    · cases h
    · have := ih _ r h
      rw [this]
      simp

/-- C12: an `<img>` tag whose source is a `data:` URI produces no `ImageRef`:
the page with the tag is parsed, and handled by the worker, exactly as the page
without it, so `processImage` is not called for it, nothing is requested and no
record is inserted on its account.  Every `ImageRef` that is produced has a
source starting with `http:` or `https:`, and `processImage` is called for the
produced references only. -/
theorem data_uri_image_is_ignored (w : World) (fuel : Nat) (s : RunState)
    (existing : List (List Char)) (depth : Int) (base : URL) (pre post : List Token)
    (eof : Bool) (t : Token) (himg : t.Data = "img".toList)
    (hdata : HasPrefix (TrimSpace (imgAttrs w.ToLower t.Attr).1) "data:".toList = true) :
    parseHTMLForLinksAndImages w.url w.ToLower (pre ++ t :: post) eof base =
      parseHTMLForLinksAndImages w.url w.ToLower (pre ++ post) eof base ∧
    workerPage w fuel s existing depth base (pre ++ t :: post) eof =
      workerPage w fuel s existing depth base (pre ++ post) eof ∧
    (∀ links imgs, parseHTMLForLinksAndImages w.url w.ToLower (pre ++ t :: post) eof base
        = some (links, imgs) →
      (∀ i ∈ imgs, HasPrefix i.Src "http:".toList = true ∨
        HasPrefix i.Src "https:".toList = true) ∧
      (∀ trace, workerPage w fuel s existing depth base (pre ++ t :: post) eof = some trace →
        trace.imageCalls = [] ∨ trace.imageCalls = imgs)) := by
  have hrej : sanitizeURL w.url (imgAttrs w.ToLower t.Attr).1 base = [] :=
    sanitizeURL_data w.url (imgAttrs w.ToLower t.Attr).1 base hdata
  have htok : ∀ links images,
      parseTokens w.url w.ToLower base (pre ++ t :: post) links images =
        parseTokens w.url w.ToLower base (pre ++ post) links images := by
    intro links images
    rw [parseTokens_append, parseTokens_append,
      parseTokens_skip_img w.url w.ToLower base t post _ _ himg hrej]
  have hparse : parseHTMLForLinksAndImages w.url w.ToLower (pre ++ t :: post) eof base =
      parseHTMLForLinksAndImages w.url w.ToLower (pre ++ post) eof base := by
    unfold parseHTMLForLinksAndImages
    rw [htok]
  refine ⟨hparse, ?_, ?_⟩
  · unfold workerPage
    rw [hparse]
  · intro links imgs hp
    have himgs : imgs = (parseTokens w.url w.ToLower base (pre ++ t :: post) [] []).2 := by
      unfold parseHTMLForLinksAndImages at hp
      split at hp
      · exact (congrArg Prod.snd (Option.some.inj hp)).symm
      · cases hp
    refine ⟨?_, ?_⟩
    · rw [himgs]
      exact parseTokens_images_http w.url w.ToLower base _ [] []
        (fun i hi => by cases hi)
    · intro trace htr
      unfold workerPage at htr
      rw [hp] at htr
      simp only at htr
      split at htr
      · left
        cases htr
        rfl
      · split at htr
        · cases htr
        · rename_i r hr
          right
          cases htr
          have := processImages_calls w _ base fuel imgs _ r hr
          simpa using this

/-- Witness of C12: a page with an inline `data:` image and a link is handled
like the page with the link alone; no image is processed. -/
theorem data_uri_image_is_ignored_witness :
    HasPrefix (TrimSpace (imgAttrs (fun s => s.map Char.toLower)
      (imgTag "data:image/png;base64,AAAA".toList).Attr).1) "data:".toList = true ∧
    workerPage (exampleWorld (fun _ => HttpResult.failed) []) 5
        (RunState.start exampleDispatcher) [] 0
        (plainURL "http".toList "example.com".toList "/".toList)
        ([anchorTag "/x".toList] ++ imgTag "data:image/png;base64,AAAA".toList :: []) true =
      workerPage (exampleWorld (fun _ => HttpResult.failed) []) 5
        (RunState.start exampleDispatcher) [] 0
        (plainURL "http".toList "example.com".toList "/".toList)
        ([anchorTag "/x".toList] ++ []) true ∧
    (workerPage (exampleWorld (fun _ => HttpResult.failed) []) 5
        (RunState.start exampleDispatcher) [] 0
        (plainURL "http".toList "example.com".toList "/".toList)
        ([anchorTag "/x".toList] ++ imgTag "data:image/png;base64,AAAA".toList :: [])
        true).map (fun trace => (trace.imageCalls, trace.requests, trace.inserts)) =
      some ([], [], []) :=
  ⟨by decide,
   (data_uri_image_is_ignored (exampleWorld (fun _ => HttpResult.failed) []) 5
      (RunState.start exampleDispatcher) [] 0
      (plainURL "http".toList "example.com".toList "/".toList)
      [anchorTag "/x".toList] [] true (imgTag "data:image/png;base64,AAAA".toList)
      (by decide) (by decide)).2.1,
   by decide⟩

/-! ## Fetching a page -/

/-- The plain GET of `fetchPage` when JS rendering is off or has failed. -/
theorem fetchPage_plain (d : Dispatcher) (w : World) (pageURL : List Char) (u : URL)
    (hparse : w.url.Parse pageURL = some u)
    (hjs : d.enableJS = false ∨ w.chromedpRun pageURL = none) :
    d.fetchPage w pageURL =
      match w.pageGet pageURL with
      | HttpResult.failed => none
      | HttpResult.response _ none => none
      | HttpResult.response _ (some b) => some (b, u) := by
  unfold Dispatcher.fetchPage
  rw [hparse]
  have hnone : (if d.enableJS = true then w.chromedpRun pageURL else none) = none := by
    rcases hjs with h | h
    · rw [h]; rfl
    · rw [h]; split <;> rfl
  simp only [hnone]

/-- C13: `fetchPage` does not look at the status code.  A GET of
`http://example.com/gone` answered with status 404 and a body is returned as a
fetched page without error, and the worker goes on to extract the link in that
body and to pass it to `Add`.  In general any response whose body can be read
is returned, whatever its status; only a failed request or a failed read of the
body makes `fetchPage` return an error. -/
theorem fetchPage_accepts_any_status :
    exampleDispatcher.fetchPage
        (exampleWorld (fun _ => HttpResult.response 404 (some [60, 97, 62]))
          [anchorTag "/x".toList])
        "http://example.com/gone".toList
      = some ([60, 97, 62], plainURL "http".toList "example.com".toList "/gone".toList) ∧
    (workerJob
        (exampleWorld (fun _ => HttpResult.response 404 (some [60, 97, 62]))
          [anchorTag "/x".toList])
        5 (RunState.start exampleDispatcher) [] ⟨"http://example.com/gone".toList, 0⟩).map
        (fun trace => (trace.fetched, trace.added))
      = some (true, [⟨"http://example.com/x".toList, 1⟩]) ∧
    (∀ (d : Dispatcher) (w : World) (pageURL : List Char) (u : URL) (status : Int)
        (b : List UInt8), w.url.Parse pageURL = some u →
      d.enableJS = false ∨ w.chromedpRun pageURL = none →
      w.pageGet pageURL = HttpResult.response status (some b) →
      d.fetchPage w pageURL = some (b, u)) ∧
    (∀ (d : Dispatcher) (w : World) (pageURL : List Char) (u : URL),
      w.url.Parse pageURL = some u →
      d.enableJS = false ∨ w.chromedpRun pageURL = none →
      w.pageGet pageURL = HttpResult.failed ∨
        (∃ status, w.pageGet pageURL = HttpResult.response status none) →
      d.fetchPage w pageURL = none) := by
  refine ⟨by decide, by decide, ?_, ?_⟩
  · intro d w pageURL u status b hparse hjs hget
    rw [fetchPage_plain d w pageURL u hparse hjs, hget]
  · intro d w pageURL u hparse hjs hget
    rw [fetchPage_plain d w pageURL u hparse hjs]
    rcases hget with h | ⟨status, h⟩ <;> rw [h]

/-- Witness of C13: a response with status 500 is returned as a page, and a
failed request gives an error. -/
theorem fetchPage_accepts_any_status_witness :
    exampleDispatcher.fetchPage
        (exampleWorld (fun _ => HttpResult.response 500 (some [])) [])
        "http://example.com/".toList
      = some ([], plainURL "http".toList "example.com".toList "/".toList) ∧
    exampleDispatcher.fetchPage (exampleWorld (fun _ => HttpResult.failed) [])
        "http://example.com/".toList = none :=
  ⟨fetchPage_accepts_any_status.2.2.1 exampleDispatcher
      (exampleWorld (fun _ => HttpResult.response 500 (some [])) [])
      "http://example.com/".toList (plainURL "http".toList "example.com".toList "/".toList)
      500 [] (by decide) (Or.inl (by decide)) (by decide),
   fetchPage_accepts_any_status.2.2.2 exampleDispatcher
      (exampleWorld (fun _ => HttpResult.failed) [])
      "http://example.com/".toList (plainURL "http".toList "example.com".toList "/".toList)
      (by decide) (Or.inl (by decide)) (Or.inl (by decide))⟩

/-! ## Image processing: one record per saved image -/

/-- When `os.Stat` reports one of the candidates of the rounds allowed as not
existing, `uniqueFilename` gives a name, and the directory does not hold it. -/
theorem uniqueFilename_some (statFails : List Char → Bool) (existing : List (List Char))
    (fname : List Char) (fuel : Nat)
    (hfree : ∃ k, k < fuel ∧
      (dirStat statFails existing (candidate fname k)).IsNotExist = true) :
    ∃ unique, uniqueFilename (dirStat statFails existing) fname fuel = some unique ∧
      unique ∉ existing := by
  obtain ⟨k, hk, hc⟩ := hfree
  obtain ⟨r, hr, hfresh⟩ := uniqueFilenameLoop_finds (dirStat statFails existing) fname fuel 0
    ⟨k, hk, by rw [Nat.zero_add]; exact hc⟩
  exact ⟨r, hr, ((dirStat_IsNotExist _ _ _).mp hfresh).2⟩

/-- Where `os.Stat` fails on no candidate, one of the first `existing.length +
1` candidates is reported as not existing. -/
theorem exists_free_candidate (statFails : List Char → Bool) (existing : List (List Char))
    (fname : List Char) (fuel : Nat) (hstat : ∀ i, statFails (candidate fname i) = false)
    (hfuel : existing.length + 1 ≤ fuel) :
    ∃ k, k < fuel ∧ (dirStat statFails existing (candidate fname k)).IsNotExist = true := by
  obtain ⟨k, hk, hc⟩ := exists_unused_candidate existing fname
  exact ⟨k, by omega, (dirStat_IsNotExist _ _ _).mpr ⟨hstat k, hc⟩⟩

/-- C14: when the download of an image succeeds (the reference parses, the GET
is answered with status 200, the body is read) and the bytes are written to
disk (`os.Stat` reports one of the candidate names of the rounds allowed as not
existing, as it does within `existing.length + 1` rounds when it fails on none,
and `WriteFile` succeeds), `processImage` issues exactly one metadata insert,
for the URL requested and the unique file name, whatever `DecodeConfig`,
`makeThumbnail`, the SVG sniffing, the rasterizer and the database do
afterwards. -/
theorem processImage_inserts_once (d : Dispatcher) (w : World) (existing : List (List Char))
    (img : ImageRef) (pageBase : URL) (fuel : Nat) (parsed : URL) (b : List UInt8)
    (hparse : w.url.Parse img.Src = some parsed)
    (hget : w.imageGet
        ((if parsed.Scheme = [] then pageBase.ResolveReference w.url parsed
          else parsed).String w.url) = HttpResult.response 200 (some b))
    (hfree : ∃ k, k < fuel ∧
      (dirStat w.statFails existing (candidate
        (if Base (if parsed.Scheme = [] then pageBase.ResolveReference w.url parsed
              else parsed).Path = [] ∨
            Base (if parsed.Scheme = [] then pageBase.ResolveReference w.url parsed
              else parsed).Path = ['/'] ∨
            Base (if parsed.Scheme = [] then pageBase.ResolveReference w.url parsed
              else parsed).Path = ['.']
          then urlSafeFilename ((if parsed.Scheme = [] then
            pageBase.ResolveReference w.url parsed else parsed).String w.url)
          else Base (if parsed.Scheme = [] then pageBase.ResolveReference w.url parsed
            else parsed).Path) k)).IsNotExist = true)
    (hwrite : ∀ unique, w.WriteFile (w.Join d.imageDir unique) b = true) :
    ∃ (r : ProcessResult) (record : ImageRecord),
      d.processImage w existing img pageBase fuel = some r ∧
      r.inserts = [record] ∧ r.inserts.length = 1 ∧
      r.err = !w.dbExec record ∧
      record.URL = (if parsed.Scheme = [] then pageBase.ResolveReference w.url parsed
          else parsed).String w.url ∧
      record.Filename ∉ existing ∧ record.Alt = img.Alt ∧ record.Title = img.Title := by
  generalize hu : (if parsed.Scheme = [] then pageBase.ResolveReference w.url parsed
          else parsed) = u at hget hfree
  obtain ⟨unique, huniq, hfresh⟩ := uniqueFilename_some w.statFails existing
    (if Base u.Path = [] ∨ Base u.Path = ['/'] ∨ Base u.Path = ['.']
      then urlSafeFilename (u.String w.url) else Base u.Path) fuel hfree
  have hw : ¬ (w.WriteFile (w.Join d.imageDir unique) b = false) := by
    rw [hwrite unique]; decide
  refine ⟨⟨!w.dbExec
        { URL := u.String w.url, Filename := unique,
          Thumbnail := (inspectImage w d.svgRasterCmd (w.Join d.imageDir unique) b).thumbnailPath,
          Alt := img.Alt, Title := img.Title,
          Width := (inspectImage w d.svgRasterCmd (w.Join d.imageDir unique) b).width,
          Height := (inspectImage w d.svgRasterCmd (w.Join d.imageDir unique) b).height,
          Format := (inspectImage w d.svgRasterCmd (w.Join d.imageDir unique) b).format },
      [u.String w.url],
      if (inspectImage w d.svgRasterCmd (w.Join d.imageDir unique) b).thumbCreated
        then [unique, unique ++ ".thumb.png".toList] else [unique],
      [{ URL := u.String w.url, Filename := unique,
          Thumbnail := (inspectImage w d.svgRasterCmd (w.Join d.imageDir unique) b).thumbnailPath,
          Alt := img.Alt, Title := img.Title,
          Width := (inspectImage w d.svgRasterCmd (w.Join d.imageDir unique) b).width,
          Height := (inspectImage w d.svgRasterCmd (w.Join d.imageDir unique) b).height,
          Format := (inspectImage w d.svgRasterCmd (w.Join d.imageDir unique) b).format }]⟩,
    _, ?_, rfl, rfl, rfl, rfl, hfresh, rfl, rfl⟩
  unfold Dispatcher.processImage
  simp only [hparse, hu, hget, huniq]
  rw [if_neg (by decide), if_neg hw]

/-- Witness of C14: the image `http://example.com/logo.png`, downloaded into a
directory that already has `logo.png`, is saved as `logo-1.png` and recorded
once although it is neither decodable nor SVG. -/
theorem processImage_inserts_once_witness :
    exampleDispatcher.processImage (exampleWorld (fun _ => HttpResult.failed) [])
        ["logo.png".toList] ⟨"http://example.com/logo.png".toList, "Logo".toList, []⟩
        (plainURL "http".toList "example.com".toList "/".toList) 2
      = some ⟨false, ["http://example.com/logo.png".toList], ["logo-1.png".toList],
          [{ URL := "http://example.com/logo.png".toList, Filename := "logo-1.png".toList,
             Thumbnail := [], Alt := "Logo".toList, Title := [], Width := 0, Height := 0,
             Format := [] }]⟩ ∧
    ∃ (r : ProcessResult) (record : ImageRecord),
      exampleDispatcher.processImage (exampleWorld (fun _ => HttpResult.failed) [])
        ["logo.png".toList] ⟨"http://example.com/logo.png".toList, "Logo".toList, []⟩
        (plainURL "http".toList "example.com".toList "/".toList) 2 = some r ∧
      r.inserts = [record] ∧ r.inserts.length = 1 := by
  refine ⟨by decide, ?_⟩
  obtain ⟨r, record, h1, h2, h3, _⟩ :=
    processImage_inserts_once exampleDispatcher (exampleWorld (fun _ => HttpResult.failed) [])
      ["logo.png".toList] ⟨"http://example.com/logo.png".toList, "Logo".toList, []⟩
      (plainURL "http".toList "example.com".toList "/".toList) 2
      (plainURL "http".toList "example.com".toList "/logo.png".toList) []
      (by decide) (by decide) ⟨1, by decide, by decide⟩ (fun _ => rfl)
  exact ⟨r, record, h1, h2, h3⟩

/-! ## A crawl under an expired context -/

/-- With no worker left that does not wait at the semaphore, worker rounds
change nothing. -/
theorem Crawl.run_idle (w : World) (fuel : Nat) :
    ∀ (n : Nat) (c : Crawl), c.live ≤ c.blocked →
      Crawl.run w fuel (List.replicate n Event.work) c = some c := by
  intro n
  induction n with
  | zero => intro c _; rfl
  | succ n ih =>
    intro c hl
    have hstep : c.step w fuel Event.work = some c := by
      unfold Crawl.step Crawl.work
      split
      · rfl
      · simp only [hl, if_true]
    rw [List.replicate_succ, Crawl.run, hstep]
    exact ih c hl

/-- A dispatcher made with `maxGoroutines = 0` has a semaphore without
capacity: with a seed queued before `Run` closes the queue, the worker that
receives the seed waits at `d.sem <- struct{}{}` for ever, whatever the other
workers do: after any number of further rounds one worker is still in its loop,
and the job body was never entered. -/
theorem Crawl.semaphore_without_capacity :
    ∀ n : Nat,
      (Crawl.run (exampleWorld (fun _ => HttpResult.failed) []) 5
          ([Event.seed ⟨"http://example.com/".toList, 0⟩, Event.close] ++
            List.replicate 10 Event.work ++ List.replicate n Event.work)
          (Crawl.start (NewDispatcher 10 0 false false "images".toList []) [])).map
          (fun c => (c.live, c.blocked, c.taken, c.started))
        = some (1, 1, [⟨"http://example.com/".toList, 0⟩], []) := by
  intro n
  have h10 : Crawl.run (exampleWorld (fun _ => HttpResult.failed) []) 5
      ([Event.seed ⟨"http://example.com/".toList, 0⟩, Event.close] ++
        List.replicate 10 Event.work)
      (Crawl.start (NewDispatcher 10 0 false false "images".toList []) [])
      = some { Crawl.start (NewDispatcher 10 0 false false "images".toList []) [] with
          s := { d := { NewDispatcher 10 0 false false "images".toList [] with
                        visited := ["http://example.com/".toList]
                        jobCh := { (Chan.make 1000 : Chan Job) with closed := true } }
                 enqueued := [⟨"http://example.com/".toList, 0⟩]
                 crashed := false }
          live := 1, blocked := 1, taken := [⟨"http://example.com/".toList, 0⟩] } := by
    decide
  have hsplit : ∀ (l1 l2 : List Event) (c c1 : Crawl),
      Crawl.run (exampleWorld (fun _ => HttpResult.failed) []) 5 l1 c = some c1 →
      Crawl.run (exampleWorld (fun _ => HttpResult.failed) []) 5 (l1 ++ l2) c
        = Crawl.run (exampleWorld (fun _ => HttpResult.failed) []) 5 l2 c1 := by
    intro l1
    induction l1 with
    | nil => intro l2 c c1 h; cases h; rfl
    | cons e rest ih =>
      intro l2 c c1 h
      rw [List.cons_append, Crawl.run]
      rw [Crawl.run] at h
      cases hs : c.step (exampleWorld (fun _ => HttpResult.failed) []) 5 e with
      | none => rw [hs] at h; cases h
      | some next =>
        rw [hs] at h
        exact ih l2 next c1 h
  rw [hsplit _ _ _ _ h10, Crawl.run_idle _ _ n _ (le_refl 1)]
  rfl

end Crawler
